import Mathlib

/-!
Shallow embedding of `src/C/graph.c`, the graph decoder core of the
Net-OnlineCode repository, together with proofs about the claims of its
specification.

Modelling conventions:
* C arrays indexed by integers become total functions `Nat → α` updated
  pointwise with `upd`; machine ints holding node indices and counts are
  nonnegative throughout the code and are modelled as `Nat`.
* A length-prefixed C array `[k, d1, …, dk]` (possibly with physical slots
  past the logical end, as produced by swap-with-last shrinking) is a
  `List Nat` whose head is the stored count; `entriesOf` reads the logical
  entries.
* `NULL` pointers become `none`; the `n_edges` linked lists become
  `List Nat` with the head being the most recently pushed cell.
* The pending FIFO (`phead`/`ptail`) becomes a `List Nat` with the head
  being the front of the queue.
* The float/double computation of `check_space` is modelled exactly over
  `ℚ`, with the C float-to-int conversion (truncation toward zero, i.e.
  `Int.floor` for the nonnegative products that occur) made explicit.
* `malloc` failure paths are not modelled (allocation always succeeds);
  the `STEPPING` and `OC_USE_CHECK_XOR_LIST` build flags are both 1 as in
  the source.
-/

namespace OnlineCode

/-- Pointwise update of a `Nat`-indexed map, modelling a C array store. -/
def upd {α : Type} (f : Nat → α) (i : Nat) (v : α) : Nat → α :=
  fun j => if j = i then v else f j

@[simp] theorem upd_same {α : Type} (f : Nat → α) (i : Nat) (v : α) :
    upd f i v i = v := by
  simp [upd]

theorem upd_ne {α : Type} (f : Nat → α) {i j : Nat} (v : α) (h : j ≠ i) :
    upd f i v j = f j := by
  simp [upd, h]

theorem upd_apply {α : Type} (f : Nat → α) (i j : Nat) (v : α) :
    upd f i v j = if j = i then v else f j := rfl

/-- Logical entries of a length-prefixed array `[k, d1, …, dk, junk…]`:
the `k` values following the stored count. -/
def entriesOf (arr : List Nat) : List Nat :=
  (arr.drop 1).take (arr.headD 0)

/-- Number of entries of `l` that are unsolved according to `solved`. -/
def unsolvedCount (solved : Nat → Bool) (l : List Nat) : Nat :=
  (l.filter (fun d => !solved d)).length

/-- Remove the first cell holding `x` from a linked list, as the scan in
`oc_delete_n_edge` does (no-op when `x` is absent; the C code asserts
that this cannot happen). -/
def removeFirst (l : List Nat) (x : Nat) : List Nat :=
  match l with
  | [] => []
  | y :: ys => if y = x then ys else y :: removeFirst ys x

/-- The state owned by `struct oc_graph` in `graph.h`/`graph.c`.
`v_edges` and `edge_count` are indexed by `node - mblocks` exactly as the
C arrays are; `n_edges`, `solved` and `xor_list` are indexed by the
absolute node number. -/
structure OcGraph where
  mblocks : Nat
  ablocks : Nat
  coblocks : Nat
  nodes : Nat
  node_space : Nat
  unsolved_count : Nat
  done : Bool
  v_edges : Nat → Option (List Nat)
  n_edges : Nat → List Nat
  edge_count : Nat → Nat
  solved : Nat → Bool
  xor_list : Nat → Option (List Nat)
  pending : List Nat

/-- `oc_create_n_edge` (graph.c:83): push a cell holding `upper` on the
front of the n-edge list of `lower`. -/
def oc_create_n_edge (g : OcGraph) (upper lower : Nat) : OcGraph :=
  { g with n_edges := upd g.n_edges lower (upper :: g.n_edges lower) }

/-- `oc_delete_n_edge` (graph.c:484): optionally decrement the unsolved
edge count of `upper`, then unlink the first cell of `n_edges[lower]`
holding `upper`. -/
def oc_delete_n_edge (g : OcGraph) (upper lower : Nat) (decrement : Bool) :
    OcGraph :=
  let g1 :=
    if decrement then
      { g with edge_count := upd g.edge_count (upper - g.mblocks) (g.edge_count (upper - g.mblocks) - 1) }
    else g
  { g1 with n_edges := upd g1.n_edges lower (removeFirst (g1.n_edges lower) upper) }

/-- The flat auxiliary map as the list of `(msg, aux)` pairs in the order
the two nested loops of `oc_graph_init` traverse it (`msg = index / q`). -/
def auxPairs (q : Nat) (map : List Nat) : List (Nat × Nat) :=
  map.enum.map (fun ja => (ja.1 / q, ja.2))

/-- First pass of `oc_graph_init` (graph.c:182): per `(msg, aux)` pair,
create the up-edge `msg → aux` and double-increment `edge_count[aux]`. -/
def stage1 (g : OcGraph) (pairs : List (Nat × Nat)) : OcGraph :=
  pairs.foldl
    (fun h ma =>
      let h2 := oc_create_n_edge h ma.2 ma.1
      { h2 with edge_count := upd h2.edge_count (ma.2 - h2.mblocks) (h2.edge_count (ma.2 - h2.mblocks) + 2) })
    g

/-- One slot of the second pass of `oc_graph_init` (graph.c:197-203):
allocate a zeroed down-edge array of size `edge_count[aux] >> 1` plus the
count slot. -/
def stage2Body (h : OcGraph) (a : Nat) : OcGraph :=
  let n := h.edge_count a / 2
  { h with v_edges := upd h.v_edges a (some (n :: List.replicate n 0)) }

/-- Second pass of `oc_graph_init` (graph.c:196): `stage2Body` on every
aux slot in order. -/
def stage2 (g : OcGraph) : OcGraph :=
  (List.range g.ablocks).foldl stage2Body g

/-- One pair of the third pass of `oc_graph_init` (graph.c:210-220):
post-decrement `edge_count[aux]` and store `msg` at `p[temp - p[0]]`. -/
def stage3Body (h : OcGraph) (ma : Nat × Nat) : OcGraph :=
  let r := ma.2 - h.mblocks
  let arr := (h.v_edges r).getD []
  let temp := h.edge_count r
  { h with
    edge_count := upd h.edge_count r (temp - 1),
    v_edges := upd h.v_edges r (some (arr.set (temp - arr.headD 0) ma.1)) }

/-- Third pass of `oc_graph_init` (graph.c:209): `stage3Body` on every
`(msg, aux)` pair in map order. -/
def stage3 (g : OcGraph) (pairs : List (Nat × Nat)) : OcGraph :=
  pairs.foldl stage3Body g

/-- `expected = (1 + q * e) * mblocks; check_space = fudge * expected`
(graph.c:134): the float product truncated to `int`, modelled exactly
over `ℚ` (the product is nonnegative whenever `fudge > 1` and `e ≥ 0`,
so truncation toward zero is the floor as taken here). -/
def checkSpace (q : Nat) (e fudge : ℚ) (mb : Nat) : Nat :=
  ((fudge * ((1 + (q : ℚ) * e) * (mb : ℚ))).floor).toNat

/-- The zeroed `oc_graph` structure with its counters saved
(graph.c:138-146), before the three passes over the auxiliary map. -/
def baseGraph (mb ab cs : Nat) : OcGraph :=
  { mblocks := mb, ablocks := ab, coblocks := mb + ab,
    nodes := mb + ab, node_space := (mb + ab) + cs,
    unsolved_count := mb, done := false,
    v_edges := fun _ => none, n_edges := fun _ => [],
    edge_count := fun _ => 0, solved := fun _ => false,
    xor_list := fun _ => none, pending := [] }

/-- The state built by a successful `oc_graph_init` run, given the
already-computed `check_space` value `cs`: the zeroed structure followed
by the three passes. -/
def initGraph (mb ab cs q : Nat) (map : List Nat) : OcGraph :=
  stage3 (stage2 (stage1 (baseGraph mb ab cs) (auxPairs q (map.take (mb * q)))))
    (auxPairs q (map.take (mb * q)))

/-- `oc_graph_init` (graph.c:101): parameter checks, `check_space`
computation, zeroed state, and the three passes over the auxiliary map. -/
def oc_graph_init (mblocks ablocks q : Nat) (e fudge : ℚ) (map : List Nat) :
    Option OcGraph :=
  if mblocks < 1 then none
  else if ablocks < 1 then none
  else if fudge ≤ 1 then none
  else some (initGraph mblocks ablocks (checkSpace q e fudge mblocks) q map)

/-- The second scan of `oc_graph_check_block` (graph.c:291): starting at
read position `ep` with `en` the index of the last logical entry, run
`count` iterations; a solved entry is recorded and overwritten by the
entry at `en` (which shrinks the window from the right), an unsolved
entry advances `ep`.  Returns the final array, the solved entries in
encounter order, and the unsolved entries (n-edge creations) in encounter
order. -/
def checkLoop (solved : Nat → Bool) :
    Nat → List Nat → Nat → Nat → List Nat × List Nat × List Nat
  | 0, arr, _, _ => (arr, [], [])
  | count + 1, arr, ep, en =>
    let tmp := arr.getD ep 0
    if solved tmp then
      let r := checkLoop solved count (arr.set ep (arr.getD en 0)) ep (en - 1)
      (r.1, tmp :: r.2.1, r.2.2)
    else
      let r := checkLoop solved count arr (ep + 1) en
      (r.1, r.2.1, tmp :: r.2.2)

/-- The n-edge creations performed while scanning a check block's edge
list: one `oc_create_n_edge` per unsolved entry, in scan order. -/
def createEdges (g : OcGraph) (node : Nat) (L : List Nat) : OcGraph :=
  L.foldl (fun h l => oc_create_n_edge h node l) g

/-- `oc_graph_check_block` (graph.c:238): claim a node number, fail when
out of space, count the solved down-edges, build the xor list
`[s+1, node, …solved]`, prune solved edges with `checkLoop` while
creating n-edges for unsolved ones, install the shrunk array and its
count, and enqueue the node.  Returns the new state and the C return
value. -/
def oc_graph_check_block (g0 : OcGraph) (v : List Nat) : OcGraph × Int :=
  let node := g0.nodes
  let g := { g0 with nodes := g0.nodes + 1 }
  if g.node_space ≤ node then (g, -1)
  else
    let k := v.headD 0
    let s := ((v.drop 1).take k).countP (fun t => g.solved t)
    let scan := checkLoop g.solved k (v.set 0 (k - s)) 1 k
    let arr := scan.1
    let g := { g with xor_list := upd g.xor_list node (some ((s + 1) :: node :: scan.2.1)) }
    let g := createEdges g node scan.2.2
    let g := { g with
      v_edges := upd g.v_edges (node - g.mblocks) (some arr),
      edge_count := upd g.edge_count (node - g.mblocks) (arr.headD 0),
      pending := g.pending ++ [node] }
    (g, (node : Int))

/-- A run of `oc_delete_n_edge` calls with `decrement = 0`, one per
listed lower node in list order (the loops of `oc_aux_rule` and
`oc_decommission_node`). -/
def deleteEdges (g : OcGraph) (node : Nat) (L : List Nat) : OcGraph :=
  L.foldl (fun h l => oc_delete_n_edge h node l false) g

/-- `oc_aux_rule` (graph.c:345): mark the aux node solved, move its
v-edge array into its xor list, null the v-edge slot, and delete every
reciprocal up-edge without touching edge counts. -/
def oc_aux_rule (g : OcGraph) (aux : Nat) : OcGraph :=
  let arr := (g.v_edges (aux - g.mblocks)).getD []
  let g1 := { g with
    solved := upd g.solved aux true,
    xor_list := upd g.xor_list aux (some arr),
    v_edges := upd g.v_edges (aux - g.mblocks) none }
  deleteEdges g1 aux (entriesOf arr)

/-- One iteration of the `oc_cascade` loop (graph.c:384): decrement the
unsolved edge count of the upper node `u` and enqueue it when the new
count is below 2. -/
def cascadeBody (h : OcGraph) (u : Nat) : OcGraph :=
  let c := h.edge_count (u - h.mblocks) - 1
  let h2 := { h with edge_count := upd h.edge_count (u - h.mblocks) c }
  if c < 2 then { h2 with pending := h2.pending ++ [u] } else h2

/-- `oc_cascade` (graph.c:370): apply `cascadeBody` to every upper node
on the n-edge list of `node`, in list order. -/
def oc_cascade (g : OcGraph) (node : Nat) : OcGraph :=
  (g.n_edges node).foldl cascadeBody g

/-- `oc_decommission_node` (graph.c:540): null the v-edge slot and, when
it was non-null, delete the reciprocal up-edge of every logical entry,
iterating from index `down[0]` down to 1. -/
def oc_decommission_node (g : OcGraph) (node : Nat) : OcGraph :=
  let down := g.v_edges (node - g.mblocks)
  let g1 := { g with v_edges := upd g.v_edges (node - g.mblocks) none }
  match down with
  | none => g1
  | some arr => deleteEdges g1 node (entriesOf arr).reverse

/-- `oc_propagate_xor` (graph.c:568): a fresh length-prefixed array whose
count is the sum of both counts and whose entries are the logical entries
of `xors` followed by those of `edges`. -/
def oc_propagate_xor (xors edges : List Nat) : List Nat :=
  (xors.headD 0 + edges.headD 0) :: (entriesOf xors ++ entriesOf edges)

/-- The propagation-rule body of `oc_graph_resolve` (graph.c:681-752):
find the single unsolved down-edge `to`, swap the last entry into its
place and decrement the stored count, delete the up-edge `to → frm` with
an edge-count decrement, build the merged xor list, mark `to` solved and
install the list, decommission `frm`, then either finish (last message
solved: set `done` and flush the queue), or re-enqueue a solved aux, and
cascade from `to`. -/
def propagateStep (g0 : OcGraph) (frm : Nat) : OcGraph × List Nat :=
  let r := frm - g0.mblocks
  let arr := (g0.v_edges r).getD []
  let xc := arr.headD 0
  match (entriesOf arr).findIdx? (fun d => !g0.solved d) with
  | none => (g0, [])
  | some i =>
    let tgt := (entriesOf arr).getD i 0
    let arr2 := (arr.set (i + 1) (arr.getD xc 0)).set 0 (xc - 1)
    let g := { g0 with v_edges := upd g0.v_edges r (some arr2) }
    let g := oc_delete_n_edge g frm tgt true
    let p := oc_propagate_xor ((g.xor_list frm).getD []) arr2
    let g := { g with
      solved := upd g.solved tgt true,
      xor_list := upd g.xor_list tgt (some p) }
    let g := oc_decommission_node g frm
    if tgt < g.mblocks then
      let g := { g with unsolved_count := g.unsolved_count - 1 }
      if g.unsolved_count = 0 then ({ g with done := true, pending := [] }, [tgt])
      else (oc_cascade g tgt, [tgt])
    else
      let g := { g with pending := g.pending ++ [tgt] }
      (oc_cascade g tgt, [tgt])

/-- The `while (NULL != graph->phead)` loop of `oc_graph_resolve`
(graph.c:636), with `STEPPING` enabled as in the source: nodes that
cannot fire are discarded and the loop continues; the first node that
fires (aux rule or propagation rule) ends the call.  The fuel argument is
instantiated with the queue length, which the discard path strictly
decreases. -/
def resolveLoop : Nat → OcGraph → OcGraph × List Nat
  | 0, g => (g, [])
  | fuel + 1, g =>
    match g.pending with
    | [] => (g, [])
    | frm :: rest =>
      let g1 := { g with pending := rest }
      let cu := g1.edge_count (frm - g1.mblocks)
      if 1 < cu then resolveLoop fuel g1
      else if cu = 0 then
        if g1.coblocks ≤ frm ∨ g1.solved frm then
          resolveLoop fuel (oc_decommission_node g1 frm)
        else
          let g2 := oc_aux_rule g1 frm
          (oc_cascade g2 frm, [frm])
      else
        if frm < g1.coblocks ∧ g1.solved frm = false then resolveLoop fuel g1
        else propagateStep g1 frm

/-- `oc_graph_resolve` (graph.c:606): empty queue returns immediately; a
graph whose messages are all solved is marked done; otherwise the queue
is drained.  Returns the new state, the emitted solved list, and the C
return value (`graph->done`). -/
def oc_graph_resolve (g : OcGraph) : OcGraph × List Nat × Int :=
  if g.pending.isEmpty then (g, [], if g.done then 1 else 0)
  else if g.unsolved_count = 0 then ({ g with done := true }, [], 1)
  else
    let r := resolveLoop g.pending.length g
    (r.1, r.2, if r.1.done then 1 else 0)

/-! ## Auxiliary definitions for the statements and witnesses -/

/-- A state with every counter and slot zeroed; used to give concrete
witness states a total default. -/
def zeroGraph : OcGraph :=
  { mblocks := 0, ablocks := 0, coblocks := 0, nodes := 0, node_space := 0,
    unsolved_count := 0, done := false, v_edges := fun _ => none,
    n_edges := fun _ => [], edge_count := fun _ => 0, solved := fun _ => false,
    xor_list := fun _ => none, pending := [] }

/-- The claim as the spec states it: `check_space` is the ceiling of
`fudge * (1 + q*e) * mblocks` (so `node_space` is `coblocks` plus that
ceiling), for every valid parameter set.  Modelled from the spec's words
for refutation; the source truncates instead. -/
def specC8ceil : Prop :=
  ∀ (mb ab q : Nat) (e fudge : ℚ) (map : List Nat) (g : OcGraph),
    1 ≤ mb → 1 ≤ ab → 1 < fudge →
    oc_graph_init mb ab q e fudge map = some g →
    g.node_space = (mb + ab) + (Int.ceil (fudge * ((1 + (q : ℚ) * e) * (mb : ℚ)))).toNat

/-- Concrete state for the C7 witness: lower node 0 has up-edges to the
upper nodes 2 and 3, whose unsolved counts are 2 and 3. -/
def c7g : OcGraph :=
  { zeroGraph with
    mblocks := 1,
    n_edges := upd (fun _ => []) 0 [2, 3],
    edge_count := fun r => if r = 1 then 2 else if r = 2 then 3 else 0 }

/-- Concrete state for the C5 witness: one message (solved) and one aux
block, node 2 free for a check block, message 0 already solved. -/
def c5g : OcGraph :=
  { zeroGraph with
    mblocks := 1, ablocks := 1, coblocks := 2, nodes := 2, node_space := 4,
    unsolved_count := 0,
    solved := fun n => decide (n = 0) }

/-- Concrete state for the C2 witness: aux node 2 over messages 0 and 1,
with down-edge list `[0]` whose single entry is already solved, so the
aux rule can fire on the pending node 2. -/
def c2g : OcGraph :=
  { zeroGraph with
    mblocks := 2, ablocks := 1, coblocks := 3, nodes := 3, node_space := 5,
    unsolved_count := 1, pending := [2],
    solved := fun n => decide (n = 0),
    v_edges := upd (fun _ => none) 0 (some [1, 0]),
    n_edges := upd (fun _ => []) 0 [2] }

/-- The swap-and-shrink of the propagation rule (graph.c:699-703) at
down-edge index `i`: entry `i` is overwritten by the last entry and the
stored count is decremented, inside the v-edge slot of `frm`. -/
def propSwap (g : OcGraph) (frm i : Nat) (arr : List Nat) : OcGraph :=
  { g with v_edges := upd g.v_edges (frm - g.mblocks) (some ((arr.set (i + 1) (arr.getD (arr.headD 0) 0)).set 0 (arr.headD 0 - 1))) }

/-- The middle of the propagation rule (graph.c:706-729): delete the
reciprocal up-edge with an edge-count decrement, then mark the found
node solved and install the merged xor list. -/
def propMark (g : OcGraph) (frm i : Nat) (arr : List Nat) : OcGraph :=
  let tgt := (entriesOf arr).getD i 0
  let arr2 := (arr.set (i + 1) (arr.getD (arr.headD 0) 0)).set 0 (arr.headD 0 - 1)
  let g3 := oc_delete_n_edge (propSwap g frm i arr) frm tgt true
  let p := oc_propagate_xor ((g3.xor_list frm).getD []) arr2
  { g3 with solved := upd g3.solved tgt true, xor_list := upd g3.xor_list tgt (some p) }

/-- The propagation rule up to and including the decommissioning of
`frm` (graph.c:732). -/
def propDecom (g : OcGraph) (frm i : Nat) (arr : List Nat) : OcGraph :=
  oc_decommission_node (propMark g frm i arr) frm

/-- The tail of the propagation rule (graph.c:735-752): account for a
newly solved message (possibly finishing the decode), re-enqueue a
solved aux, and cascade from the solved node. -/
def propFinish (g : OcGraph) (tgt : Nat) : OcGraph × List Nat :=
  if tgt < g.mblocks then
    let g2 := { g with unsolved_count := g.unsolved_count - 1 }
    if g2.unsolved_count = 0 then ({ g2 with done := true, pending := [] }, [tgt])
    else (oc_cascade g2 tgt, [tgt])
  else
    let g2 := { g with pending := g.pending ++ [tgt] }
    (oc_cascade g2 tgt, [tgt])

/-- Concrete state for the C1 witness: one unsolved message 0, one aux
node 1, and a check node 2 whose single down-edge points at message 0. -/
def c1g : OcGraph :=
  { zeroGraph with
    mblocks := 1, ablocks := 1, coblocks := 2, nodes := 3,
    node_space := 3, unsolved_count := 1,
    v_edges := upd (fun _ => none) 1 (some [1, 0]),
    n_edges := upd (fun _ => []) 0 [2],
    edge_count := upd (fun _ => 0) 1 1,
    xor_list := upd (fun _ => none) 2 (some [1, 2]),
    pending := [2] }

/-! ## Reachable states and the joint invariant -/

/-- Number of down-edges `u → l` recorded on the v-edge side: the
multiplicity of `l` in the logical entries of the v-edge array of the
upper node `u` (zero for lower `u` or a null slot). -/
def vCount (g : OcGraph) (u l : Nat) : Nat :=
  if u < g.mblocks then 0
  else
    match g.v_edges (u - g.mblocks) with
    | none => 0
    | some arr => List.count l (entriesOf arr)

/-- The graph states reachable through the public interface:
`oc_graph_init` on parameters meeting the initialiser's input contract
(the auxiliary map names auxiliary nodes), `oc_graph_check_block` on a
length-prefixed array of lower-node indices, and `oc_graph_resolve`. -/
inductive Reach : OcGraph → Prop where
  | init (mb ab q : Nat) (e fudge : ℚ) (map : List Nat) (g : OcGraph) :
      (∀ x ∈ map, mb ≤ x ∧ x < mb + ab) →
      oc_graph_init mb ab q e fudge map = some g → Reach g
  | check (g : OcGraph) (v : List Nat) :
      Reach g → v.headD 0 + 1 ≤ v.length →
      (∀ d ∈ entriesOf v, d < g.coblocks) →
      Reach (oc_graph_check_block g v).1
  | resolve (g : OcGraph) : Reach g → Reach (oc_graph_resolve g).1

/-- The joint invariant of reachable graph states: structural counters,
queue and edge-list sanity, strict v-edge/n-edge reciprocity (as a
multiplicity equation), the unsolved-edge-count bookkeeping (guarded by
`done = false`), and the xor-list discipline. -/
structure GInv (g : OcGraph) : Prop where
  mb_co : g.mblocks ≤ g.coblocks
  co_nodes : g.coblocks ≤ g.nodes
  done0 : g.done = true → g.unsolved_count = 0
  pend : ∀ u ∈ g.pending, g.mblocks ≤ u ∧ u < g.nodes
  nup : ∀ l u, u ∈ g.n_edges l → g.mblocks ≤ u ∧ u < g.nodes
  vfresh : ∀ r, g.nodes ≤ g.mblocks + r → g.v_edges r = none
  vwf : ∀ r arr, g.v_edges r = some arr → arr.headD 0 + 1 ≤ arr.length
  vlow : ∀ r arr, g.v_edges r = some arr → ∀ d ∈ entriesOf arr, d < g.coblocks
  recip : ∀ u l, List.count u (g.n_edges l) = vCount g u l
  ecount : g.done = false → ∀ r arr, g.v_edges r = some arr →
    g.edge_count r = unsolvedCount g.solved (entriesOf arr)
  xnone : ∀ n, n < g.coblocks → g.solved n = false → g.xor_list n = none
  xsolved : ∀ n, n < g.coblocks → g.solved n = true →
    ∃ xs, g.xor_list n = some xs ∧ n ∉ entriesOf xs
  xcheck : ∀ c xs, g.coblocks ≤ c → g.xor_list c = some xs →
    1 ≤ xs.headD 0 ∧ (entriesOf xs).getD 0 0 = c
  xentries : ∀ n xs, g.xor_list n = some xs →
    ∀ d ∈ entriesOf xs, g.solved d = true ∨ g.coblocks ≤ d

def gDemo : OcGraph := initGraph 1 1 2 1 [1]

def gChk : OcGraph := (oc_graph_check_block gDemo [1, 0]).1

def gRes : OcGraph := (oc_graph_resolve gChk).1

def specC4 (g : OcGraph) : Prop :=
  ∀ u, g.mblocks ≤ u → ∀ arr, g.v_edges (u - g.mblocks) = some arr →
    entriesOf arr ≠ [] →
    g.edge_count (u - g.mblocks) = unsolvedCount g.solved (entriesOf arr)

def specC10 (g : OcGraph) : Prop :=
  ∀ n xs, g.xor_list n = some xs → n ∉ entriesOf xs

/-! ## Generic fold and field lemmas -/

theorem foldl_field_eq {β γ : Type} {f : OcGraph → β → OcGraph} {fld : OcGraph → γ}
    (hf : ∀ g b, fld (f g b) = fld g) (l : List β) (g : OcGraph) :
    fld (l.foldl f g) = fld g := by
  induction l generalizing g with
  | nil => rfl
  | cons b bs ih => rw [List.foldl_cons, ih, hf]

@[simp] theorem create_mblocks (g : OcGraph) (u l : Nat) :
    (oc_create_n_edge g u l).mblocks = g.mblocks := rfl

@[simp] theorem create_v_edges (g : OcGraph) (u l : Nat) :
    (oc_create_n_edge g u l).v_edges = g.v_edges := rfl

@[simp] theorem create_edge_count (g : OcGraph) (u l : Nat) :
    (oc_create_n_edge g u l).edge_count = g.edge_count := rfl

@[simp] theorem create_solved (g : OcGraph) (u l : Nat) :
    (oc_create_n_edge g u l).solved = g.solved := rfl

@[simp] theorem create_n_edges (g : OcGraph) (u l : Nat) :
    (oc_create_n_edge g u l).n_edges = upd g.n_edges l (u :: g.n_edges l) := rfl

@[simp] theorem delete_mblocks (g : OcGraph) (u l : Nat) (d : Bool) :
    (oc_delete_n_edge g u l d).mblocks = g.mblocks := by
  cases d <;> rfl

@[simp] theorem delete_v_edges (g : OcGraph) (u l : Nat) (d : Bool) :
    (oc_delete_n_edge g u l d).v_edges = g.v_edges := by
  cases d <;> rfl

@[simp] theorem delete_solved (g : OcGraph) (u l : Nat) (d : Bool) :
    (oc_delete_n_edge g u l d).solved = g.solved := by
  cases d <;> rfl

@[simp] theorem delete_xor_list (g : OcGraph) (u l : Nat) (d : Bool) :
    (oc_delete_n_edge g u l d).xor_list = g.xor_list := by
  cases d <;> rfl

@[simp] theorem delete_pending (g : OcGraph) (u l : Nat) (d : Bool) :
    (oc_delete_n_edge g u l d).pending = g.pending := by
  cases d <;> rfl

@[simp] theorem delete_coblocks (g : OcGraph) (u l : Nat) (d : Bool) :
    (oc_delete_n_edge g u l d).coblocks = g.coblocks := by
  cases d <;> rfl

@[simp] theorem delete_nodes (g : OcGraph) (u l : Nat) (d : Bool) :
    (oc_delete_n_edge g u l d).nodes = g.nodes := by
  cases d <;> rfl

@[simp] theorem delete_done (g : OcGraph) (u l : Nat) (d : Bool) :
    (oc_delete_n_edge g u l d).done = g.done := by
  cases d <;> rfl

@[simp] theorem delete_unsolved_count (g : OcGraph) (u l : Nat) (d : Bool) :
    (oc_delete_n_edge g u l d).unsolved_count = g.unsolved_count := by
  cases d <;> rfl

@[simp] theorem delete_n_edges (g : OcGraph) (u l : Nat) (d : Bool) :
    (oc_delete_n_edge g u l d).n_edges
      = upd g.n_edges l (removeFirst (g.n_edges l) u) := by
  cases d <;> rfl

@[simp] theorem delete_edge_count_false (g : OcGraph) (u l : Nat) :
    (oc_delete_n_edge g u l false).edge_count = g.edge_count := rfl

@[simp] theorem delete_edge_count_true (g : OcGraph) (u l : Nat) :
    (oc_delete_n_edge g u l true).edge_count
      = upd g.edge_count (u - g.mblocks) (g.edge_count (u - g.mblocks) - 1) := rfl

@[simp] theorem cascadeBody_mblocks (h : OcGraph) (u : Nat) :
    (cascadeBody h u).mblocks = h.mblocks := by
  simp only [cascadeBody]; split <;> rfl

@[simp] theorem cascadeBody_ablocks (h : OcGraph) (u : Nat) :
    (cascadeBody h u).ablocks = h.ablocks := by
  simp only [cascadeBody]; split <;> rfl

@[simp] theorem cascadeBody_coblocks (h : OcGraph) (u : Nat) :
    (cascadeBody h u).coblocks = h.coblocks := by
  simp only [cascadeBody]; split <;> rfl

@[simp] theorem cascadeBody_nodes (h : OcGraph) (u : Nat) :
    (cascadeBody h u).nodes = h.nodes := by
  simp only [cascadeBody]; split <;> rfl

@[simp] theorem cascadeBody_node_space (h : OcGraph) (u : Nat) :
    (cascadeBody h u).node_space = h.node_space := by
  simp only [cascadeBody]; split <;> rfl

@[simp] theorem cascadeBody_unsolved_count (h : OcGraph) (u : Nat) :
    (cascadeBody h u).unsolved_count = h.unsolved_count := by
  simp only [cascadeBody]; split <;> rfl

@[simp] theorem cascadeBody_done (h : OcGraph) (u : Nat) :
    (cascadeBody h u).done = h.done := by
  simp only [cascadeBody]; split <;> rfl

@[simp] theorem cascadeBody_v_edges (h : OcGraph) (u : Nat) :
    (cascadeBody h u).v_edges = h.v_edges := by
  simp only [cascadeBody]; split <;> rfl

@[simp] theorem cascadeBody_n_edges (h : OcGraph) (u : Nat) :
    (cascadeBody h u).n_edges = h.n_edges := by
  simp only [cascadeBody]; split <;> rfl

@[simp] theorem cascadeBody_solved (h : OcGraph) (u : Nat) :
    (cascadeBody h u).solved = h.solved := by
  simp only [cascadeBody]; split <;> rfl

@[simp] theorem cascadeBody_xor_list (h : OcGraph) (u : Nat) :
    (cascadeBody h u).xor_list = h.xor_list := by
  simp only [cascadeBody]; split <;> rfl

@[simp] theorem cascadeBody_edge_count (h : OcGraph) (u : Nat) :
    (cascadeBody h u).edge_count
      = upd h.edge_count (u - h.mblocks) (h.edge_count (u - h.mblocks) - 1) := by
  simp only [cascadeBody]; split <;> rfl

@[simp] theorem cascadeBody_pending (h : OcGraph) (u : Nat) :
    (cascadeBody h u).pending
      = h.pending ++ (if h.edge_count (u - h.mblocks) - 1 < 2 then [u] else []) := by
  simp only [cascadeBody]; split <;> simp

/-- Joint specification of the `oc_cascade` fold over an arbitrary cell
list: pointwise decrement on the slots of listed uppers, all other slots
untouched, and the pushes appended in list order for exactly the uppers
whose decremented count is below 2. -/
theorem cascade_fold_spec (L : List Nat) : ∀ (g : OcGraph),
    L.Nodup → (∀ u ∈ L, g.mblocks ≤ u) →
    (∀ u ∈ L, (L.foldl cascadeBody g).edge_count (u - g.mblocks)
        = g.edge_count (u - g.mblocks) - 1)
    ∧ (∀ r, (∀ u ∈ L, u - g.mblocks ≠ r)
        → (L.foldl cascadeBody g).edge_count r = g.edge_count r)
    ∧ (L.foldl cascadeBody g).pending
        = g.pending ++ L.filter (fun u => g.edge_count (u - g.mblocks) - 1 < 2) := by
  induction L with
  | nil =>
    intro g _ _
    exact ⟨by simp, fun r _ => rfl, by simp⟩
  | cons a as ih =>
    intro g hnd hmb
    have hmb_a : g.mblocks ≤ a := hmb a (List.mem_cons_self a as)
    have hnd_tail : as.Nodup := (List.nodup_cons.mp hnd).2
    have ha_not : a ∉ as := (List.nodup_cons.mp hnd).1
    have hfold : (a :: as).foldl cascadeBody g = as.foldl cascadeBody (cascadeBody g a) :=
      List.foldl_cons _ _
    have hmb1 : (cascadeBody g a).mblocks = g.mblocks := by simp
    obtain ⟨ih1, ih2, ih3⟩ := ih (cascadeBody g a) hnd_tail
      (by intro u hu; rw [hmb1]; exact hmb u (List.mem_cons_of_mem a hu))
    have hec1 : ∀ u ∈ as, (cascadeBody g a).edge_count (u - g.mblocks)
        = g.edge_count (u - g.mblocks) := by
      intro u hu
      have hu_mb : g.mblocks ≤ u := hmb u (List.mem_cons_of_mem a hu)
      have hne : u - g.mblocks ≠ a - g.mblocks := by
        intro hcontra
        exact ha_not (by
          have : u = a := by omega
          rw [← this]; exact hu)
      simp only [cascadeBody_edge_count]
      exact upd_ne _ _ hne
    refine ⟨?_, ?_, ?_⟩
    · intro u hu
      rcases List.mem_cons.mp hu with rfl | hu_as
      · rw [hfold]
        have : ∀ w ∈ as, w - (cascadeBody g u).mblocks ≠ u - g.mblocks := by
          intro w hw
          rw [hmb1]
          have hw_mb : g.mblocks ≤ w := hmb w (List.mem_cons_of_mem u hw)
          intro hcontra
          exact ha_not (by
            have : w = u := by omega
            rw [← this]; exact hw)
        rw [ih2 (u - g.mblocks) this]
        simp only [cascadeBody_edge_count]
        exact upd_same _ _ _
      · rw [hfold]
        have := ih1 u hu_as
        rw [hmb1] at this
        rw [this, hec1 u hu_as]
    · intro r hr
      rw [hfold]
      have hr_tail : ∀ u ∈ as, u - (cascadeBody g a).mblocks ≠ r := by
        intro u hu; rw [hmb1]; exact hr u (List.mem_cons_of_mem a hu)
      rw [ih2 r hr_tail]
      simp only [cascadeBody_edge_count]
      exact upd_ne _ _ (hr a (List.mem_cons_self a as)).symm
    · rw [hfold, ih3]
      have hfilter : as.filter
            (fun u => (cascadeBody g a).edge_count (u - (cascadeBody g a).mblocks) - 1 < 2)
          = as.filter (fun u => g.edge_count (u - g.mblocks) - 1 < 2) := by
        apply List.filter_congr
        intro u hu
        rw [hmb1, hec1 u hu]
      rw [hfilter]
      simp only [cascadeBody_pending]
      rw [List.append_assoc]
      congr 1
      by_cases hc : g.edge_count (a - g.mblocks) - 1 < 2
      · rw [if_pos hc, List.filter_cons_of_pos (by simpa using hc)]
        rfl
      · rw [if_neg hc, List.filter_cons_of_neg (by simpa using hc)]
        rfl

@[simp] theorem cascade_mblocks (g : OcGraph) (node : Nat) :
    (oc_cascade g node).mblocks = g.mblocks :=
  foldl_field_eq (by intro h b; simp) _ _

@[simp] theorem cascade_ablocks (g : OcGraph) (node : Nat) :
    (oc_cascade g node).ablocks = g.ablocks :=
  foldl_field_eq (by intro h b; simp) _ _

@[simp] theorem cascade_coblocks (g : OcGraph) (node : Nat) :
    (oc_cascade g node).coblocks = g.coblocks :=
  foldl_field_eq (by intro h b; simp) _ _

@[simp] theorem cascade_nodes (g : OcGraph) (node : Nat) :
    (oc_cascade g node).nodes = g.nodes :=
  foldl_field_eq (by intro h b; simp) _ _

@[simp] theorem cascade_node_space (g : OcGraph) (node : Nat) :
    (oc_cascade g node).node_space = g.node_space :=
  foldl_field_eq (by intro h b; simp) _ _

@[simp] theorem cascade_unsolved_count (g : OcGraph) (node : Nat) :
    (oc_cascade g node).unsolved_count = g.unsolved_count :=
  foldl_field_eq (by intro h b; simp) _ _

@[simp] theorem cascade_done (g : OcGraph) (node : Nat) :
    (oc_cascade g node).done = g.done :=
  foldl_field_eq (by intro h b; simp) _ _

@[simp] theorem cascade_v_edges (g : OcGraph) (node : Nat) :
    (oc_cascade g node).v_edges = g.v_edges :=
  foldl_field_eq (by intro h b; simp) _ _

@[simp] theorem cascade_n_edges (g : OcGraph) (node : Nat) :
    (oc_cascade g node).n_edges = g.n_edges :=
  foldl_field_eq (by intro h b; simp) _ _

@[simp] theorem cascade_solved (g : OcGraph) (node : Nat) :
    (oc_cascade g node).solved = g.solved :=
  foldl_field_eq (by intro h b; simp) _ _

@[simp] theorem cascade_xor_list (g : OcGraph) (node : Nat) :
    (oc_cascade g node).xor_list = g.xor_list :=
  foldl_field_eq (by intro h b; simp) _ _

/-! ## C9: capacity exhaustion in oc_graph_check_block -/

/-- C9: when the claimed node index (the pre-increment `g->nodes`) is at
least `node_space`, `oc_graph_check_block` returns `-1` and, apart from
the already-performed increment of `nodes`, the state is untouched: no
xor list, no n-edges, no v-edge or edge-count store, no pending push. -/
theorem claim_C9_capacity_error (g : OcGraph) (v : List Nat)
    (h : g.node_space ≤ g.nodes) :
    (oc_graph_check_block g v).2 = -1 ∧
      (oc_graph_check_block g v).1 = { g with nodes := g.nodes + 1 } := by
  rw [oc_graph_check_block]
  simp [h]

/-- `foldl_field_eq` with the projection passed explicitly, for rewriting. -/
theorem foldl_field_eq_at {β γ : Type} (fld : OcGraph → γ) {f : OcGraph → β → OcGraph}
    (hf : ∀ g b, fld (f g b) = fld g) (l : List β) (g : OcGraph) :
    fld (l.foldl f g) = fld g :=
  foldl_field_eq hf l g

theorem claim_C9_capacity_error_witness :
    zeroGraph.node_space ≤ zeroGraph.nodes ∧
      (oc_graph_check_block zeroGraph [1, 0]).2 = -1 ∧
      (oc_graph_check_block zeroGraph [1, 0]).1
        = { zeroGraph with nodes := zeroGraph.nodes + 1 } :=
  ⟨Nat.le_refl 0, claim_C9_capacity_error zeroGraph [1, 0] (Nat.le_refl 0)⟩

/-! ## C8: the check_space formula -/

/-- `Rat.floor`, the executable floor the model uses for the float-to-int
conversion, agrees with the mathematical floor. -/
theorem rat_floor_eq_floor (x : ℚ) : x.floor = ⌊x⌋ := by
  rw [Rat.floor_def, Rat.floor_def']

/-- On valid parameters `oc_graph_init` succeeds with the `initGraph`
state. -/
theorem init_eq (mb ab q : Nat) (e fudge : ℚ) (map : List Nat)
    (h1 : 1 ≤ mb) (h2 : 1 ≤ ab) (h3 : 1 < fudge) :
    oc_graph_init mb ab q e fudge map
      = some (initGraph mb ab (checkSpace q e fudge mb) q map) := by
  rw [oc_graph_init]
  rw [if_neg (by omega), if_neg (by omega), if_neg (by exact not_le.mpr h3)]

@[simp] theorem initGraph_node_space (mb ab cs q : Nat) (map : List Nat) :
    (initGraph mb ab cs q map).node_space = (mb + ab) + cs := by
  rw [initGraph, stage3, stage2, stage1]
  rw [foldl_field_eq_at OcGraph.node_space (by intro g b; rfl)]
  rw [foldl_field_eq_at OcGraph.node_space (by intro g b; rfl)]
  rw [foldl_field_eq_at OcGraph.node_space (by intro g b; rfl)]
  rfl

@[simp] theorem initGraph_nodes (mb ab cs q : Nat) (map : List Nat) :
    (initGraph mb ab cs q map).nodes = mb + ab := by
  rw [initGraph, stage3, stage2, stage1]
  rw [foldl_field_eq_at OcGraph.nodes (by intro g b; rfl)]
  rw [foldl_field_eq_at OcGraph.nodes (by intro g b; rfl)]
  rw [foldl_field_eq_at OcGraph.nodes (by intro g b; rfl)]
  rfl

/-- Shared shape lemma for `oc_graph_init` on valid parameters: it
succeeds and sets `node_space` and `nodes` as the code does. -/
theorem init_node_space (mb ab q : Nat) (e fudge : ℚ) (map : List Nat)
    (h1 : 1 ≤ mb) (h2 : 1 ≤ ab) (h3 : 1 < fudge) :
    ∃ g, oc_graph_init mb ab q e fudge map = some g ∧
      g.node_space
        = (mb + ab) + (Int.floor (fudge * ((1 + (q : ℚ) * e) * (mb : ℚ)))).toNat ∧
      g.nodes = mb + ab := by
  have hcs : checkSpace q e fudge mb
      = (Int.floor (fudge * ((1 + (q : ℚ) * e) * (mb : ℚ)))).toNat := by
    rw [checkSpace, rat_floor_eq_floor]
  refine ⟨_, init_eq mb ab q e fudge map h1 h2 h3, ?_, ?_⟩
  · rw [initGraph_node_space, hcs]
  · rw [initGraph_nodes]

/-- C8 counterexample: with `mblocks = ablocks = q = 1`, `e = 1/2` and
`fudge = 3/2` the product is `9/4`; the code's `node_space` is
`2 + 2 = 4`, while the spec's ceiling formula demands `2 + 3 = 5`. -/
theorem claim_C8_counterexample : ¬ specC8ceil := by
  intro h
  obtain ⟨g, hg, hns, -⟩ := init_node_space 1 1 1 (1/2) (3/2) [1]
    (Nat.le_refl 1) (Nat.le_refl 1) (by norm_num)
  have h5 := h 1 1 1 (1/2) (3/2) [1] g (Nat.le_refl 1) (Nat.le_refl 1)
    (by norm_num) hg
  rw [hns] at h5
  have hfl : Int.floor ((3/2 : ℚ) * ((1 + ((1 : ℕ) : ℚ) * (1/2)) * ((1 : ℕ) : ℚ))) = 2 := by
    rw [Int.floor_eq_iff]
    constructor <;> norm_num
  have hcl : Int.ceil ((3/2 : ℚ) * ((1 + ((1 : ℕ) : ℚ) * (1/2)) * ((1 : ℕ) : ℚ))) = 3 := by
    rw [Int.ceil_eq_iff]
    constructor <;> norm_num
  rw [hfl, hcl] at h5
  omega

/-- C8 amended: for every valid parameter set (`mblocks ≥ 1`,
`ablocks ≥ 1`, `fudge > 1`), `oc_graph_init` succeeds and computes
`check_space` as the float-to-int truncation (the floor, as the product
is taken) of `fudge * (1 + q*e) * mblocks`, setting
`node_space = coblocks + check_space`. -/
theorem claim_C8_node_space (mb ab q : Nat) (e fudge : ℚ) (map : List Nat)
    (h1 : 1 ≤ mb) (h2 : 1 ≤ ab) (h3 : 1 < fudge) :
    ∃ g, oc_graph_init mb ab q e fudge map = some g ∧
      g.node_space
        = (mb + ab) + (Int.floor (fudge * ((1 + (q : ℚ) * e) * (mb : ℚ)))).toNat ∧
      g.nodes = mb + ab :=
  init_node_space mb ab q e fudge map h1 h2 h3

theorem claim_C8_node_space_witness :
    ∃ g, oc_graph_init 1 1 1 (1/2) (3/2) [1] = some g ∧
      g.node_space
        = (1 + 1) + (Int.floor ((3/2 : ℚ) * ((1 + ((1 : ℕ) : ℚ) * (1/2)) * ((1 : ℕ) : ℚ)))).toNat ∧
      g.nodes = 1 + 1 :=
  claim_C8_node_space 1 1 1 (1/2) (3/2) [1] (Nat.le_refl 1) (Nat.le_refl 1)
    (by norm_num)

/-! ## The check-block pruning scan -/

/-- Writing the entry at `en` over the entry at `ep` turns the length-`c`
window starting at `ep` into a rotation of the length-`c` window starting
at `ep + 1` (with `en = ep + c`): the swap-from-the-end step preserves
the window's contents up to permutation. -/
theorem window_set_perm (arr : List Nat) (ep en c : Nat) (h1 : ep < arr.length)
    (h3 : en < arr.length) (hen : en = ep + c) :
    (((arr.set ep (arr.getD en 0)).drop ep).take c).Perm
      ((arr.drop (ep + 1)).take c) := by
  rcases Nat.eq_zero_or_pos c with hc | hc
  · subst hc; simp
  · have heplen2 : ep < (arr.set ep (arr.getD en 0)).length := by
      rw [List.length_set]; exact h1
    have hdrop2 : (arr.set ep (arr.getD en 0)).drop ep
        = (arr.set ep (arr.getD en 0))[ep] :: (arr.set ep (arr.getD en 0)).drop (ep + 1) :=
      List.drop_eq_getElem_cons heplen2
    have hget2 : (arr.set ep (arr.getD en 0))[ep] = arr.getD en 0 :=
      List.getElem_set_self heplen2
    have hdrop3 : (arr.set ep (arr.getD en 0)).drop (ep + 1) = arr.drop (ep + 1) := by
      rw [List.drop_set, if_pos (by omega)]
    obtain ⟨c', rfl⟩ : ∃ c', c = c' + 1 := ⟨c - 1, by omega⟩
    rw [hdrop2, hget2, hdrop3, List.take_succ_cons]
    have hT : (arr.drop (ep + 1)).take (c' + 1)
        = (arr.drop (ep + 1)).take c' ++ [arr.getD en 0] := by
      rw [List.take_succ]
      congr 1
      rw [List.getElem?_drop]
      have hidx : ep + 1 + c' = en := by omega
      rw [hidx, List.getElem?_eq_getElem h3, List.getD_eq_getElem arr 0 h3]
      rfl
    rw [hT]
    exact (List.perm_append_singleton _ _).symm

/-- Joint specification of `checkLoop` over the window
`[ep, en]` (`ep + count = en + 1`): the array keeps its length, cells
outside the window are untouched, the recorded solved and unsolved lists
are permutations of the window's solved and unsolved entries, and the
unsolved entries end up, in encounter order, exactly in the cells
starting at `ep`. -/
theorem checkLoop_spec (solved : Nat → Bool) :
    ∀ (count : Nat) (arr : List Nat) (ep en : Nat),
      1 ≤ ep → ep + count = en + 1 → en < arr.length →
      (checkLoop solved count arr ep en).1.length = arr.length
      ∧ (∀ j, j < ep ∨ en < j →
          (checkLoop solved count arr ep en).1.getD j 0 = arr.getD j 0)
      ∧ (checkLoop solved count arr ep en).2.1.Perm
          (((arr.drop ep).take count).filter (fun d => solved d))
      ∧ (checkLoop solved count arr ep en).2.2.Perm
          (((arr.drop ep).take count).filter (fun d => !solved d))
      ∧ ((checkLoop solved count arr ep en).1.drop ep).take
          (checkLoop solved count arr ep en).2.2.length
          = (checkLoop solved count arr ep en).2.2 := by
  intro count
  induction count with
  | zero =>
    intro arr ep en h1 h2 h3
    exact ⟨rfl, fun j _ => rfl, by simp [checkLoop], by simp [checkLoop],
      by simp [checkLoop]⟩
  | succ c ih =>
    intro arr ep en h1 h2 h3
    have hen : en = ep + c := by omega
    have heplen : ep < arr.length := by omega
    have harr_ep : arr.getD ep 0 = arr[ep] := List.getD_eq_getElem arr 0 heplen
    have hdropW : arr.drop ep = arr[ep] :: arr.drop (ep + 1) :=
      List.drop_eq_getElem_cons heplen
    have hW : (arr.drop ep).take (c + 1)
        = arr.getD ep 0 :: (arr.drop (ep + 1)).take c := by
      rw [hdropW, List.take_succ_cons, harr_ep]
    rw [checkLoop]
    by_cases hs : solved (arr.getD ep 0) = true
    case pos =>
      simp only [hs, if_true]
      have hlen2 : (arr.set ep (arr.getD en 0)).length = arr.length := by simp
      obtain ⟨ihl, ihu, ihxs, ihns, ihsl⟩ :=
        ih (arr.set ep (arr.getD en 0)) ep (en - 1) h1 (by omega) (by omega)
      have hperm := window_set_perm arr ep en c heplen h3 hen
      have hwin : ((arr.set ep (arr.getD en 0)).drop ep).take c
          = ((arr.set ep (arr.getD en 0)).drop ep).take (c + 1 - 1) := by
        norm_num
      refine ⟨by rw [ihl, hlen2], ?_, ?_, ?_, ?_⟩
      · intro j hj
        have hjne : j ≠ ep := by omega
        rw [ihu j (by omega)]
        simp only [List.getD_eq_getElem?_getD]
        rw [List.getElem?_set_ne (Ne.symm hjne)]
      · refine List.Perm.cons (arr.getD ep 0) (ihxs.trans (hperm.filter _)) |>.trans ?_
        rw [hW, List.filter_cons_of_pos hs]
      · refine (ihns.trans (hperm.filter _)).trans ?_
        rw [hW, List.filter_cons_of_neg (by simp only [hs]; decide)]
      · exact ihsl
    case neg =>
      have hs' : solved (arr.getD ep 0) = false := by
        revert hs; cases solved (arr.getD ep 0) <;> simp
      simp only [hs', Bool.false_eq_true, if_false]
      obtain ⟨ihl, ihu, ihxs, ihns, ihsl⟩ := ih arr (ep + 1) en (by omega) (by omega) h3
      refine ⟨ihl, ?_, ?_, ?_, ?_⟩
      · intro j hj
        exact ihu j (by omega)
      · rw [hW, List.filter_cons_of_neg (by simp only [hs']; decide)]
        exact ihxs
      · rw [hW, List.filter_cons_of_pos (by simp only [hs']; decide)]
        exact List.Perm.cons _ ihns
      · have hlep : ep < (checkLoop solved c arr (ep + 1) en).1.length := by
          rw [ihl]; exact heplen
        rw [List.drop_eq_getElem_cons hlep, List.length_cons, List.take_succ_cons]
        congr 1
        rw [← List.getD_eq_getElem _ 0 hlep]
        rw [ihu ep (Or.inl (by omega))]

/-! ## C7: the cascade -/

/-- C7: cascading from a newly solved node decrements
`edge_count[u - mblocks]` exactly once for every upper node `u` on
`n_edges[node]` (the hypotheses mirror the code's assertions: the list
holds distinct upper nodes with positive counts), leaves every other
edge-count slot unchanged, and appends `u` to the pending queue exactly
when the decremented value is strictly below 2. -/
theorem claim_C7_cascade (g : OcGraph) (node : Nat)
    (hnd : (g.n_edges node).Nodup)
    (hmb : ∀ u ∈ g.n_edges node, g.mblocks ≤ u)
    (hpos : ∀ u ∈ g.n_edges node, 0 < g.edge_count (u - g.mblocks)) :
    (∀ u ∈ g.n_edges node,
        (oc_cascade g node).edge_count (u - g.mblocks)
          = g.edge_count (u - g.mblocks) - 1)
    ∧ (∀ r, (∀ u ∈ g.n_edges node, u - g.mblocks ≠ r)
        → (oc_cascade g node).edge_count r = g.edge_count r)
    ∧ (oc_cascade g node).pending
        = g.pending
          ++ (g.n_edges node).filter (fun u => g.edge_count (u - g.mblocks) - 1 < 2) :=
  cascade_fold_spec (g.n_edges node) g hnd hmb

theorem claim_C7_cascade_witness :
    (∀ u ∈ c7g.n_edges 0,
        (oc_cascade c7g 0).edge_count (u - c7g.mblocks)
          = c7g.edge_count (u - c7g.mblocks) - 1)
    ∧ (∀ r, (∀ u ∈ c7g.n_edges 0, u - c7g.mblocks ≠ r)
        → (oc_cascade c7g 0).edge_count r = c7g.edge_count r)
    ∧ (oc_cascade c7g 0).pending
        = c7g.pending
          ++ (c7g.n_edges 0).filter (fun u => c7g.edge_count (u - c7g.mblocks) - 1 < 2) :=
  claim_C7_cascade c7g 0 (by decide) (by decide) (by decide)

/-! ## C5: oc_graph_check_block on a successful call -/


theorem createEdges_field_v (g : OcGraph) (node : Nat) (L : List Nat) :
    (createEdges g node L).v_edges = g.v_edges :=
  foldl_field_eq (by intro h b; simp) _ _

theorem createEdges_field_xor (g : OcGraph) (node : Nat) (L : List Nat) :
    (createEdges g node L).xor_list = g.xor_list :=
  foldl_field_eq (by intro h b; rfl) _ _

theorem createEdges_field_pending (g : OcGraph) (node : Nat) (L : List Nat) :
    (createEdges g node L).pending = g.pending :=
  foldl_field_eq (by intro h b; rfl) _ _

theorem createEdges_field_mblocks (g : OcGraph) (node : Nat) (L : List Nat) :
    (createEdges g node L).mblocks = g.mblocks :=
  foldl_field_eq (by intro h b; rfl) _ _

theorem createEdges_field_edge_count (g : OcGraph) (node : Nat) (L : List Nat) :
    (createEdges g node L).edge_count = g.edge_count :=
  foldl_field_eq (by intro h b; rfl) _ _

theorem createEdges_field_nodes (g : OcGraph) (node : Nat) (L : List Nat) :
    (createEdges g node L).nodes = g.nodes :=
  foldl_field_eq (by intro h b; rfl) _ _

theorem createEdges_not_mem (node : Nat) (L : List Nat) : ∀ (g : OcGraph) (l : Nat),
    l ∉ L → (createEdges g node L).n_edges l = g.n_edges l := by
  induction L with
  | nil => intro g l _; rfl
  | cons a as ih =>
    intro g l hl
    have hne : l ≠ a := fun hc => hl (hc ▸ List.mem_cons_self a as)
    have : createEdges g node (a :: as) = createEdges (oc_create_n_edge g node a) node as := rfl
    rw [this, ih _ l (fun hc => hl (List.mem_cons_of_mem a hc))]
    simp only [create_n_edges]
    exact upd_ne _ _ hne

theorem createEdges_mem (node : Nat) (L : List Nat) : ∀ (g : OcGraph) (l : Nat),
    L.Nodup → l ∈ L → (createEdges g node L).n_edges l = node :: g.n_edges l := by
  induction L with
  | nil => intro g l _ hl; cases hl
  | cons a as ih =>
    intro g l hnd hl
    have hstep : createEdges g node (a :: as) = createEdges (oc_create_n_edge g node a) node as := rfl
    rcases List.mem_cons.mp hl with rfl | hl_as
    · rw [hstep, createEdges_not_mem node as _ l (List.nodup_cons.mp hnd).1]
      simp only [create_n_edges]
      rw [upd_same]
    · have hne : l ≠ a := by
        intro hc; exact (List.nodup_cons.mp hnd).1 (hc ▸ hl_as)
      rw [hstep, ih _ l (List.nodup_cons.mp hnd).2 hl_as]
      simp only [create_n_edges]
      rw [upd_ne _ _ hne]

/-- C5: a successful `oc_graph_check_block` call with incoming count
`k = v[0]` of which `s` entries are already solved returns the new node
index `g.nodes`, installs the xor list `[s+1, node, …]` completed by the
`s` solved entries, creates a reciprocal up-edge for every unsolved
entry, stores at `v_edges[node - mblocks]` an array whose count slot is
`k - s` and whose logical entries are exactly the unsolved lower nodes,
sets `edge_count[node - mblocks] = k - s`, and appends the node to the
pending queue. -/
theorem headD_eq_getD (l : List Nat) (d : Nat) : l.headD d = l.getD 0 d := by
  cases l <;> rfl

theorem claim_C5_check_block (g : OcGraph) (v : List Nat)
    (hsp : g.nodes < g.node_space)
    (hlen : v.length = v.headD 0 + 1)
    (hnd : (v.drop 1).Nodup) :
    (oc_graph_check_block g v).2 = (g.nodes : Int)
    ∧ (oc_graph_check_block g v).1.nodes = g.nodes + 1
    ∧ (∃ xs, (oc_graph_check_block g v).1.xor_list g.nodes
          = some (((v.drop 1).countP (fun t => g.solved t) + 1) :: g.nodes :: xs)
        ∧ xs.Perm ((v.drop 1).filter (fun t => g.solved t)))
    ∧ (∃ arr, (oc_graph_check_block g v).1.v_edges (g.nodes - g.mblocks) = some arr
        ∧ arr.headD 0 = v.headD 0 - (v.drop 1).countP (fun t => g.solved t)
        ∧ (entriesOf arr).Perm ((v.drop 1).filter (fun t => !g.solved t)))
    ∧ (oc_graph_check_block g v).1.edge_count (g.nodes - g.mblocks)
        = v.headD 0 - (v.drop 1).countP (fun t => g.solved t)
    ∧ (∀ l ∈ v.drop 1, g.solved l = false →
        (oc_graph_check_block g v).1.n_edges l = g.nodes :: g.n_edges l)
    ∧ (∀ l, l ∉ v.drop 1 → (oc_graph_check_block g v).1.n_edges l = g.n_edges l)
    ∧ (oc_graph_check_block g v).1.pending = g.pending ++ [g.nodes] := by
  have hne : ¬(g.node_space ≤ g.nodes) := not_le.mpr hsp
  have hdlen : (v.drop 1).length = v.headD 0 := by
    rw [List.length_drop, hlen]
    omega
  have htake : (v.drop 1).take (v.headD 0) = v.drop 1 := by
    rw [← hdlen]; exact List.take_length _
  have hcount : ((v.drop 1).take (v.headD 0)).countP (fun t => g.solved t)
      = (v.drop 1).countP (fun t => g.solved t) := by rw [htake]
  have hdrop1 : (v.set 0 (v.headD 0 - (v.drop 1).countP (fun t => g.solved t))).drop 1
      = v.drop 1 := by
    rw [List.drop_set, if_pos Nat.one_pos]
  obtain ⟨hl1, hu1, hxsp, hnsp, hslice⟩ := checkLoop_spec g.solved (v.headD 0)
    (v.set 0 (v.headD 0 - (v.drop 1).countP (fun t => g.solved t)))
    1 (v.headD 0) (le_refl 1) (by omega) (by rw [List.length_set, hlen]; omega)
  rw [hdrop1, htake] at hxsp hnsp
  have hhead : (checkLoop g.solved (v.headD 0)
      (v.set 0 (v.headD 0 - (v.drop 1).countP (fun t => g.solved t)))
      1 (v.headD 0)).1.getD 0 0
      = v.headD 0 - (v.drop 1).countP (fun t => g.solved t) := by
    rw [hu1 0 (Or.inl Nat.one_pos)]
    rw [List.getD_eq_getElem?_getD, List.getElem?_set_self (by omega), Option.getD_some]
  have hcsum : v.headD 0
      = (v.drop 1).countP (fun t => g.solved t) + (v.drop 1).countP (fun d => !g.solved d) := by
    rw [← hdlen, List.length_eq_countP_add_countP (fun t => g.solved t)]
    congr 1
    apply List.countP_congr
    intro a _
    cases g.solved a <;> simp
  have hnslen : (checkLoop g.solved (v.headD 0)
      (v.set 0 (v.headD 0 - (v.drop 1).countP (fun t => g.solved t)))
      1 (v.headD 0)).2.2.length
      = v.headD 0 - (v.drop 1).countP (fun t => g.solved t) := by
    rw [hnsp.length_eq, ← List.countP_eq_length_filter]
    omega
  have hentries : entriesOf (checkLoop g.solved (v.headD 0)
      (v.set 0 (v.headD 0 - (v.drop 1).countP (fun t => g.solved t)))
      1 (v.headD 0)).1
      = (checkLoop g.solved (v.headD 0)
      (v.set 0 (v.headD 0 - (v.drop 1).countP (fun t => g.solved t)))
      1 (v.headD 0)).2.2 := by
    rw [hnslen] at hslice
    rw [entriesOf, headD_eq_getD, hhead]
    exact hslice
  have hnd2 : (checkLoop g.solved (v.headD 0)
      (v.set 0 (v.headD 0 - (v.drop 1).countP (fun t => g.solved t)))
      1 (v.headD 0)).2.2.Nodup := hnsp.nodup_iff.mpr (hnd.filter _)
  simp only [oc_graph_check_block]
  rw [if_neg (show ¬(({g with nodes := g.nodes + 1} : OcGraph).node_space ≤ g.nodes) from hne)]
  rw [hcount]
  refine ⟨rfl, ?_, ?_, ?_, ?_, ?_, ?_, ?_⟩
  · simp only [createEdges_field_nodes]
  · refine ⟨(checkLoop g.solved (v.headD 0)
        (v.set 0 (v.headD 0 - (v.drop 1).countP (fun t => g.solved t)))
        1 (v.headD 0)).2.1, ?_, hxsp⟩
    simp only [createEdges_field_xor]
    rw [upd_same]
  · refine ⟨(checkLoop g.solved (v.headD 0)
        (v.set 0 (v.headD 0 - (v.drop 1).countP (fun t => g.solved t)))
        1 (v.headD 0)).1, ?_, ?_, ?_⟩
    · simp only [createEdges_field_mblocks, createEdges_field_v]
      rw [upd_same]
    · rw [headD_eq_getD, hhead]
    · rw [hentries]
      exact hnsp
  · simp only [createEdges_field_mblocks, createEdges_field_edge_count]
    rw [upd_same, headD_eq_getD, hhead]
  · intro l hl hsol
    have hlmem : l ∈ (checkLoop g.solved (v.headD 0)
        (v.set 0 (v.headD 0 - (v.drop 1).countP (fun t => g.solved t)))
        1 (v.headD 0)).2.2 := by
      rw [hnsp.mem_iff, List.mem_filter]
      exact ⟨hl, by rw [hsol]; rfl⟩
    rw [createEdges_mem _ _ _ _ hnd2 hlmem]
  · intro l hl
    have hlnot : l ∉ (checkLoop g.solved (v.headD 0)
        (v.set 0 (v.headD 0 - (v.drop 1).countP (fun t => g.solved t)))
        1 (v.headD 0)).2.2 := by
      rw [hnsp.mem_iff, List.mem_filter]
      intro hc
      exact hl hc.1
    rw [createEdges_not_mem _ _ _ _ hlnot]
  · simp only [createEdges_field_pending]

theorem claim_C5_check_block_witness :
    (oc_graph_check_block c5g [2, 0, 1]).2 = (c5g.nodes : Int)
    ∧ (oc_graph_check_block c5g [2, 0, 1]).1.nodes = c5g.nodes + 1
    ∧ (∃ xs, (oc_graph_check_block c5g [2, 0, 1]).1.xor_list c5g.nodes
          = some ((([2, 0, 1].drop 1).countP (fun t => c5g.solved t) + 1) :: c5g.nodes :: xs)
        ∧ xs.Perm (([2, 0, 1].drop 1).filter (fun t => c5g.solved t)))
    ∧ (∃ arr, (oc_graph_check_block c5g [2, 0, 1]).1.v_edges (c5g.nodes - c5g.mblocks) = some arr
        ∧ arr.headD 0 = [2, 0, 1].headD 0 - ([2, 0, 1].drop 1).countP (fun t => c5g.solved t)
        ∧ (entriesOf arr).Perm (([2, 0, 1].drop 1).filter (fun t => !c5g.solved t)))
    ∧ (oc_graph_check_block c5g [2, 0, 1]).1.edge_count (c5g.nodes - c5g.mblocks)
        = [2, 0, 1].headD 0 - ([2, 0, 1].drop 1).countP (fun t => c5g.solved t)
    ∧ (∀ l ∈ [2, 0, 1].drop 1, c5g.solved l = false →
        (oc_graph_check_block c5g [2, 0, 1]).1.n_edges l = c5g.nodes :: c5g.n_edges l)
    ∧ (∀ l, l ∉ [2, 0, 1].drop 1 → (oc_graph_check_block c5g [2, 0, 1]).1.n_edges l = c5g.n_edges l)
    ∧ (oc_graph_check_block c5g [2, 0, 1]).1.pending = c5g.pending ++ [c5g.nodes] :=
  claim_C5_check_block c5g [2, 0, 1] (by decide) (by decide) (by decide)

/-! ## C6: the three passes of oc_graph_init -/

theorem stage1_spec (P : List (Nat × Nat)) : ∀ (g : OcGraph),
    (stage1 g P).mblocks = g.mblocks
    ∧ (∀ r, (stage1 g P).edge_count r
        = g.edge_count r + 2 * (P.filter (fun p => p.2 - g.mblocks = r)).length)
    ∧ (∀ l, (stage1 g P).n_edges l
        = ((P.filter (fun p => p.1 = l)).map Prod.snd).reverse ++ g.n_edges l)
    ∧ (stage1 g P).v_edges = g.v_edges
    ∧ (stage1 g P).solved = g.solved
    ∧ (stage1 g P).unsolved_count = g.unsolved_count
    ∧ (stage1 g P).nodes = g.nodes
    ∧ (stage1 g P).xor_list = g.xor_list
    ∧ (stage1 g P).done = g.done
    ∧ (stage1 g P).pending = g.pending
    ∧ (stage1 g P).ablocks = g.ablocks
    ∧ (stage1 g P).coblocks = g.coblocks := by
  induction P with
  | nil =>
    intro g
    refine ⟨rfl, fun r => ?_, fun l => ?_, rfl, rfl, rfl, rfl, rfl, rfl, rfl, rfl, rfl⟩
    · show g.edge_count r = _
      simp
    · show g.n_edges l = _
      simp
  | cons p ps ih =>
    intro g
    have hstep : stage1 g (p :: ps) = stage1 (stage1 g [p]) ps := rfl
    obtain ⟨ihm, ihe, ihn, ihv, ihs, ihu, ihno, ihx, ihd, ihp, iha, ihc⟩ := ih (stage1 g [p])
    have hm1 : (stage1 g [p]).mblocks = g.mblocks := rfl
    refine ⟨?_, ?_, ?_, ?_, ?_, ?_, ?_, ?_, ?_, ?_, ?_, ?_⟩
    · rw [hstep, ihm, hm1]
    · intro r
      rw [hstep, ihe r, hm1]
      have he1 : (stage1 g [p]).edge_count r
          = g.edge_count r + (if p.2 - g.mblocks = r then 2 else 0) := by
        show (upd g.edge_count (p.2 - g.mblocks) (g.edge_count (p.2 - g.mblocks) + 2)) r
          = _
        rw [upd_apply]
        by_cases hc : r = p.2 - g.mblocks
        · rw [if_pos hc, if_pos hc.symm, hc]
        · rw [if_neg hc, if_neg (Ne.symm hc)]
          omega
      rw [he1]
      by_cases hc : p.2 - g.mblocks = r
      · rw [if_pos hc, List.filter_cons_of_pos (by simpa using hc), List.length_cons]
        ring
      · rw [if_neg hc, List.filter_cons_of_neg (by simpa using hc)]
        ring
    · intro l
      rw [hstep, ihn l]
      have hn1 : (stage1 g [p]).n_edges l
          = (if p.1 = l then [p.2] else []) ++ g.n_edges l := by
        show (upd g.n_edges p.1 (p.2 :: g.n_edges p.1)) l = _
        rw [upd_apply]
        by_cases hc : l = p.1
        · rw [if_pos hc, if_pos hc.symm, hc]; rfl
        · rw [if_neg hc, if_neg (Ne.symm hc)]; rfl
      rw [hn1]
      by_cases hc : p.1 = l
      · rw [List.filter_cons_of_pos (by simpa using hc), if_pos hc]
        simp
      · rw [List.filter_cons_of_neg (by simpa using hc), if_neg hc]
        simp
    · rw [hstep, ihv]; rfl
    · rw [hstep, ihs]; rfl
    · rw [hstep, ihu]; rfl
    · rw [hstep, ihno]; rfl
    · rw [hstep, ihx]; rfl
    · rw [hstep, ihd]; rfl
    · rw [hstep, ihp]; rfl
    · rw [hstep, iha]; rfl
    · rw [hstep, ihc]; rfl

theorem stage2Body_fields (h : OcGraph) (a : Nat) :
    (stage2Body h a).mblocks = h.mblocks ∧ (stage2Body h a).edge_count = h.edge_count
    ∧ (stage2Body h a).n_edges = h.n_edges ∧ (stage2Body h a).solved = h.solved
    ∧ (stage2Body h a).unsolved_count = h.unsolved_count ∧ (stage2Body h a).nodes = h.nodes
    ∧ (stage2Body h a).xor_list = h.xor_list ∧ (stage2Body h a).done = h.done
    ∧ (stage2Body h a).pending = h.pending ∧ (stage2Body h a).ablocks = h.ablocks
    ∧ (stage2Body h a).coblocks = h.coblocks :=
  ⟨rfl, rfl, rfl, rfl, rfl, rfl, rfl, rfl, rfl, rfl, rfl⟩

theorem stage2_fold (R : List Nat) : ∀ (g : OcGraph), R.Nodup →
    (R.foldl stage2Body g).edge_count = g.edge_count
    ∧ (∀ a ∈ R, (R.foldl stage2Body g).v_edges a
        = some ((g.edge_count a / 2) :: List.replicate (g.edge_count a / 2) 0))
    ∧ (∀ a, a ∉ R → (R.foldl stage2Body g).v_edges a = g.v_edges a) := by
  induction R with
  | nil => intro g _; exact ⟨rfl, fun a ha => absurd ha (List.not_mem_nil a), fun a _ => rfl⟩
  | cons b bs ih =>
    intro g hnd
    obtain ⟨hb_not, hnd'⟩ := List.nodup_cons.mp hnd
    obtain ⟨ihe, ihv, ihnot⟩ := ih (stage2Body g b) hnd'
    have hfold : (b :: bs).foldl stage2Body g = bs.foldl stage2Body (stage2Body g b) := rfl
    have hec1 : (stage2Body g b).edge_count = g.edge_count := rfl
    refine ⟨?_, ?_, ?_⟩
    · rw [hfold, ihe, hec1]
    · intro a ha
      rcases List.mem_cons.mp ha with rfl | ha_bs
      · rw [hfold, ihnot a hb_not]
        show upd g.v_edges a (some _) a = _
        rw [upd_same]
      · rw [hfold, ihv a ha_bs, hec1]
    · intro a ha
      have hane : a ≠ b := fun hc => ha (hc ▸ List.mem_cons_self b bs)
      rw [hfold, ihnot a (fun hc => ha (List.mem_cons_of_mem b hc))]
      show upd g.v_edges b (some _) a = _
      rw [upd_ne _ _ hane]

theorem set_drop_cons (l : List Nat) (i : Nat) (x : Nat) (h : i < l.length) :
    (l.set i x).drop i = x :: l.drop (i + 1) := by
  have h2 : i < (l.set i x).length := by rw [List.length_set]; exact h
  rw [List.drop_eq_getElem_cons h2, List.getElem_set_self h2]
  congr 1
  rw [List.drop_set, if_pos (Nat.lt_succ_self i)]

theorem stage3_slot (P : List (Nat × Nat)) : ∀ (g : OcGraph) (r n : Nat) (buf : List Nat),
    g.v_edges r = some (n :: buf) →
    (P.filter (fun p => p.2 - g.mblocks = r)).length ≤ buf.length →
    g.edge_count r = n + (P.filter (fun p => p.2 - g.mblocks = r)).length →
    (stage3 g P).v_edges r
      = some (n :: (((P.filter (fun p => p.2 - g.mblocks = r)).map Prod.fst).reverse
          ++ buf.drop (P.filter (fun p => p.2 - g.mblocks = r)).length))
    ∧ (stage3 g P).edge_count r = n := by
  induction P with
  | nil =>
    intro g r n buf hv _ he
    refine ⟨?_, ?_⟩
    · show g.v_edges r = _
      simp [hv]
    · show g.edge_count r = n
      simpa using he
  | cons p ps ih =>
    intro g r n buf hv hle he
    have hfold : stage3 g (p :: ps) = stage3 (stage3Body g p) ps := rfl
    have hm1 : (stage3Body g p).mblocks = g.mblocks := rfl
    by_cases hc : p.2 - g.mblocks = r
    case pos =>
      have hfc : List.filter (fun q => decide (q.2 - g.mblocks = r)) (p :: ps)
          = p :: List.filter (fun q => decide (q.2 - g.mblocks = r)) ps := by
        rw [List.filter_cons_of_pos (by simpa using hc)]
      rw [hfc] at hle he ⊢
      rw [List.length_cons] at hle he
      set m := (List.filter (fun q => decide (q.2 - g.mblocks = r)) ps).length with hm
      -- the body writes slot r at buf index m
      have hv1 : (stage3Body g p).v_edges r = some (n :: buf.set m p.1) := by
        show upd g.v_edges (p.2 - g.mblocks)
          (some (((g.v_edges (p.2 - g.mblocks)).getD []).set
            (g.edge_count (p.2 - g.mblocks) - ((g.v_edges (p.2 - g.mblocks)).getD []).headD 0) p.1)) r
          = _
        rw [hc, hv, upd_same, he]
        simp only [Option.getD_some, List.headD_cons]
        rw [show n + (m + 1) - n = m + 1 from by omega]
        rfl
      have he1 : (stage3Body g p).edge_count r = n + m := by
        show upd g.edge_count (p.2 - g.mblocks) (g.edge_count (p.2 - g.mblocks) - 1) r = _
        rw [hc, upd_same, he]
        omega
      have hle1 : (List.filter (fun q => decide (q.2 - (stage3Body g p).mblocks = r)) ps).length
          ≤ (buf.set m p.1).length := by
        rw [hm1, List.length_set]
        omega
      obtain ⟨ihv, ihe⟩ := ih (stage3Body g p) r n (buf.set m p.1) hv1 hle1
        (by rw [hm1, he1])
      have ihv2 : (stage3 (stage3Body g p) ps).v_edges r
          = some (n :: (((List.filter (fun q => decide (q.2 - g.mblocks = r)) ps).map Prod.fst).reverse
              ++ (buf.set m p.1).drop (List.filter (fun q => decide (q.2 - g.mblocks = r)) ps).length)) := ihv
      have ihe2 : (stage3 (stage3Body g p) ps).edge_count r = n := ihe
      rw [hfold]
      refine ⟨?_, ihe2⟩
      rw [ihv2, ← hm, set_drop_cons buf m p.1 (by omega)]
      rw [List.map_cons, List.reverse_cons, List.append_assoc, List.length_cons, ← hm]
      rfl
    case neg =>
      have hfc : List.filter (fun q => decide (q.2 - g.mblocks = r)) (p :: ps)
          = List.filter (fun q => decide (q.2 - g.mblocks = r)) ps := by
        rw [List.filter_cons_of_neg (by simpa using hc)]
      rw [hfc] at hle he ⊢
      have hv1 : (stage3Body g p).v_edges r = some (n :: buf) := by
        show upd g.v_edges (p.2 - g.mblocks) _ r = _
        rw [upd_ne _ _ (Ne.symm hc), hv]
      have he1 : (stage3Body g p).edge_count r
          = n + (List.filter (fun q => decide (q.2 - g.mblocks = r)) ps).length := by
        show upd g.edge_count (p.2 - g.mblocks) _ r = _
        rw [upd_ne _ _ (Ne.symm hc), he]
      obtain ⟨ihv, ihe⟩ := ih (stage3Body g p) r n buf hv1 (by rw [hm1]; exact hle)
        (by rw [hm1]; exact he1)
      rw [hfold]
      exact ⟨ihv, ihe⟩

theorem stage2_mblocks (g : OcGraph) : (stage2 g).mblocks = g.mblocks :=
  foldl_field_eq (by intro h b; rfl) _ _

theorem stage2_n_edges (g : OcGraph) : (stage2 g).n_edges = g.n_edges :=
  foldl_field_eq (by intro h b; rfl) _ _

theorem stage2_solved (g : OcGraph) : (stage2 g).solved = g.solved :=
  foldl_field_eq (by intro h b; rfl) _ _

theorem stage2_unsolved_count (g : OcGraph) : (stage2 g).unsolved_count = g.unsolved_count :=
  foldl_field_eq (by intro h b; rfl) _ _

theorem stage2_nodes (g : OcGraph) : (stage2 g).nodes = g.nodes :=
  foldl_field_eq (by intro h b; rfl) _ _

theorem stage2_xor_list (g : OcGraph) : (stage2 g).xor_list = g.xor_list :=
  foldl_field_eq (by intro h b; rfl) _ _

theorem stage2_done (g : OcGraph) : (stage2 g).done = g.done :=
  foldl_field_eq (by intro h b; rfl) _ _

theorem stage2_pending (g : OcGraph) : (stage2 g).pending = g.pending :=
  foldl_field_eq (by intro h b; rfl) _ _

theorem stage2_ablocks (g : OcGraph) : (stage2 g).ablocks = g.ablocks :=
  foldl_field_eq (by intro h b; rfl) _ _

theorem stage2_coblocks (g : OcGraph) : (stage2 g).coblocks = g.coblocks :=
  foldl_field_eq (by intro h b; rfl) _ _

theorem stage2_node_space (g : OcGraph) : (stage2 g).node_space = g.node_space :=
  foldl_field_eq (by intro h b; rfl) _ _

theorem stage3_mblocks (g : OcGraph) (P : List (Nat × Nat)) : (stage3 g P).mblocks = g.mblocks :=
  foldl_field_eq (by intro h b; rfl) _ _

theorem stage3_n_edges (g : OcGraph) (P : List (Nat × Nat)) : (stage3 g P).n_edges = g.n_edges :=
  foldl_field_eq (by intro h b; rfl) _ _

theorem stage3_solved (g : OcGraph) (P : List (Nat × Nat)) : (stage3 g P).solved = g.solved :=
  foldl_field_eq (by intro h b; rfl) _ _

theorem stage3_unsolved_count (g : OcGraph) (P : List (Nat × Nat)) :
    (stage3 g P).unsolved_count = g.unsolved_count :=
  foldl_field_eq (by intro h b; rfl) _ _

theorem stage3_nodes (g : OcGraph) (P : List (Nat × Nat)) : (stage3 g P).nodes = g.nodes :=
  foldl_field_eq (by intro h b; rfl) _ _

theorem stage3_xor_list (g : OcGraph) (P : List (Nat × Nat)) : (stage3 g P).xor_list = g.xor_list :=
  foldl_field_eq (by intro h b; rfl) _ _

theorem stage3_done (g : OcGraph) (P : List (Nat × Nat)) : (stage3 g P).done = g.done :=
  foldl_field_eq (by intro h b; rfl) _ _

theorem stage3_pending (g : OcGraph) (P : List (Nat × Nat)) : (stage3 g P).pending = g.pending :=
  foldl_field_eq (by intro h b; rfl) _ _

theorem stage3_ablocks (g : OcGraph) (P : List (Nat × Nat)) : (stage3 g P).ablocks = g.ablocks :=
  foldl_field_eq (by intro h b; rfl) _ _

theorem stage3_coblocks (g : OcGraph) (P : List (Nat × Nat)) : (stage3 g P).coblocks = g.coblocks :=
  foldl_field_eq (by intro h b; rfl) _ _

theorem stage3_node_space (g : OcGraph) (P : List (Nat × Nat)) :
    (stage3 g P).node_space = g.node_space :=
  foldl_field_eq (by intro h b; rfl) _ _

theorem auxPairs_snd_mem (q : Nat) (map : List Nat) :
    ∀ p ∈ auxPairs q map, p.2 ∈ map := by
  intro p hp
  rw [auxPairs] at hp
  obtain ⟨ja, hja, rfl⟩ := List.mem_map.mp hp
  have : ja.2 ∈ map.enum.map Prod.snd := List.mem_map_of_mem Prod.snd hja
  rwa [List.enum_map_snd] at this

/-- C6: after a successful `oc_graph_init`, every aux slot `a` holds
`edge_count[a] = n` where `n` is the number of map entries naming aux
node `mblocks + a` (the +2 trick nets out), `v_edges[a]` is an array with
count slot `n` whose entries are exactly the messages mapped to that aux
node (in reverse map order), `n_edges[msg]` holds one cell per
`(msg, aux)` map pair, `unsolved_count = mblocks` and
`nodes = coblocks`. -/
theorem claim_C6_init (mb ab q : Nat) (e fudge : ℚ) (map : List Nat) (g : OcGraph)
    (h1 : 1 ≤ mb) (h2 : 1 ≤ ab) (h3 : 1 < fudge)
    (hmaplen : map.length = mb * q)
    (hrange : ∀ x ∈ map, mb ≤ x ∧ x < mb + ab)
    (hg : oc_graph_init mb ab q e fudge map = some g) :
    (∀ a, a < ab →
      g.edge_count a = ((auxPairs q map).filter (fun p => p.2 = mb + a)).length
      ∧ ∃ arr, g.v_edges a = some arr
          ∧ arr.headD 0 = ((auxPairs q map).filter (fun p => p.2 = mb + a)).length
          ∧ entriesOf arr
              = (((auxPairs q map).filter (fun p => p.2 = mb + a)).map Prod.fst).reverse)
    ∧ (∀ l, g.n_edges l
        = (((auxPairs q map).filter (fun p => p.1 = l)).map Prod.snd).reverse)
    ∧ g.unsolved_count = mb
    ∧ g.nodes = mb + ab := by
  rw [init_eq mb ab q e fudge map h1 h2 h3] at hg
  have hgeq : g = initGraph mb ab (checkSpace q e fudge mb) q map := (Option.some.inj hg).symm
  subst hgeq
  have htk : map.take (mb * q) = map := by
    rw [← hmaplen]; exact List.take_length _
  have hinit : initGraph mb ab (checkSpace q e fudge mb) q map
      = stage3 (stage2 (stage1 (baseGraph mb ab (checkSpace q e fudge mb)) (auxPairs q map)))
          (auxPairs q map) := by
    rw [initGraph, htk]
  rw [hinit]
  obtain ⟨s1m, s1e, s1n, s1v, s1s, s1u, s1no, s1x, s1d, s1p, s1a, s1c⟩ :=
    stage1_spec (auxPairs q map) (baseGraph mb ab (checkSpace q e fudge mb))
  -- ascribe stage1 facts to the literal spelling
  have s1e2 : ∀ r, (stage1 (baseGraph mb ab (checkSpace q e fudge mb)) (auxPairs q map)).edge_count r
      = 2 * ((auxPairs q map).filter (fun p => p.2 - mb = r)).length := by
    intro r
    have h := s1e r
    have h2 : (stage1 (baseGraph mb ab (checkSpace q e fudge mb)) (auxPairs q map)).edge_count r
        = 0 + 2 * ((auxPairs q map).filter (fun p => p.2 - mb = r)).length := h
    rw [Nat.zero_add] at h2
    exact h2
  have s1ab : (stage1 (baseGraph mb ab (checkSpace q e fudge mb)) (auxPairs q map)).ablocks = ab := s1a
  -- stage2 facts
  obtain ⟨e2, v2, vn2⟩ := stage2_fold
    (List.range (stage1 (baseGraph mb ab (checkSpace q e fudge mb)) (auxPairs q map)).ablocks)
    (stage1 (baseGraph mb ab (checkSpace q e fudge mb)) (auxPairs q map))
    (List.nodup_range _)
  have e2' : (stage2 (stage1 (baseGraph mb ab (checkSpace q e fudge mb)) (auxPairs q map))).edge_count
      = (stage1 (baseGraph mb ab (checkSpace q e fudge mb)) (auxPairs q map)).edge_count := e2
  have v2' : ∀ a ∈ List.range (stage1 (baseGraph mb ab (checkSpace q e fudge mb)) (auxPairs q map)).ablocks,
      (stage2 (stage1 (baseGraph mb ab (checkSpace q e fudge mb)) (auxPairs q map))).v_edges a
        = some (((stage1 (baseGraph mb ab (checkSpace q e fudge mb)) (auxPairs q map)).edge_count a / 2)
            :: List.replicate ((stage1 (baseGraph mb ab (checkSpace q e fudge mb)) (auxPairs q map)).edge_count a / 2) 0) := v2
  have hg2m : (stage2 (stage1 (baseGraph mb ab (checkSpace q e fudge mb)) (auxPairs q map))).mblocks = mb := by
    rw [stage2_mblocks]
    exact s1m
  refine ⟨?_, ?_, ?_, ?_⟩
  · intro a ha
    have hfila : (auxPairs q map).filter (fun p => p.2 - mb = a)
        = (auxPairs q map).filter (fun p => p.2 = mb + a) := by
      apply List.filter_congr
      intro p hp
      have hr := (hrange p.2 (auxPairs_snd_mem q map p hp)).1
      rw [decide_eq_decide]
      omega
    have hcnt : (stage1 (baseGraph mb ab (checkSpace q e fudge mb)) (auxPairs q map)).edge_count a
        = 2 * ((auxPairs q map).filter (fun p => p.2 = mb + a)).length := by
      rw [s1e2 a, hfila]
    have hdiv : (stage1 (baseGraph mb ab (checkSpace q e fudge mb)) (auxPairs q map)).edge_count a / 2
        = ((auxPairs q map).filter (fun p => p.2 = mb + a)).length := by
      rw [hcnt]
      exact Nat.mul_div_cancel_left _ (by norm_num)
    have hmem : a ∈ List.range (stage1 (baseGraph mb ab (checkSpace q e fudge mb)) (auxPairs q map)).ablocks := by
      rw [s1ab]
      exact List.mem_range.mpr ha
    have hv2a := v2' a hmem
    rw [hdiv] at hv2a
    -- apply stage3_slot
    obtain ⟨sv, se⟩ := stage3_slot (auxPairs q map)
      (stage2 (stage1 (baseGraph mb ab (checkSpace q e fudge mb)) (auxPairs q map)))
      a (((auxPairs q map).filter (fun p => p.2 = mb + a)).length)
      (List.replicate (((auxPairs q map).filter (fun p => p.2 = mb + a)).length) 0)
      hv2a
      (by rw [hg2m, List.length_replicate, hfila])
      (by rw [e2', hg2m, hfila, hcnt]; omega)
    rw [hg2m] at sv
    rw [hfila] at sv
    refine ⟨se, ⟨_, sv, ?_, ?_⟩⟩
    · rfl
    · rw [entriesOf]
      simp only [List.headD_cons, List.drop_succ_cons, List.drop_zero, List.drop_replicate,
        Nat.sub_self, List.replicate_zero, List.append_nil]
      exact List.take_of_length_le (by rw [List.length_reverse, List.length_map])
  · intro l
    rw [stage3_n_edges, stage2_n_edges]
    have h := s1n l
    have h2 : (stage1 (baseGraph mb ab (checkSpace q e fudge mb)) (auxPairs q map)).n_edges l
        = (((auxPairs q map).filter (fun p => p.1 = l)).map Prod.snd).reverse ++ [] := h
    rw [List.append_nil] at h2
    exact h2
  · rw [stage3_unsolved_count, stage2_unsolved_count]
    exact s1u
  · rw [stage3_nodes, stage2_nodes]
    exact s1no

theorem claim_C6_init_witness :
    (∀ a, a < 1 →
      (initGraph 2 1 (checkSpace 1 0 2 2) 1 [2, 2]).edge_count a
          = ((auxPairs 1 [2, 2]).filter (fun p => p.2 = 2 + a)).length
      ∧ ∃ arr, (initGraph 2 1 (checkSpace 1 0 2 2) 1 [2, 2]).v_edges a = some arr
          ∧ arr.headD 0 = ((auxPairs 1 [2, 2]).filter (fun p => p.2 = 2 + a)).length
          ∧ entriesOf arr
              = (((auxPairs 1 [2, 2]).filter (fun p => p.2 = 2 + a)).map Prod.fst).reverse)
    ∧ (∀ l, (initGraph 2 1 (checkSpace 1 0 2 2) 1 [2, 2]).n_edges l
        = (((auxPairs 1 [2, 2]).filter (fun p => p.1 = l)).map Prod.snd).reverse)
    ∧ (initGraph 2 1 (checkSpace 1 0 2 2) 1 [2, 2]).unsolved_count = 2
    ∧ (initGraph 2 1 (checkSpace 1 0 2 2) 1 [2, 2]).nodes = 2 + 1 :=
  claim_C6_init 2 1 1 0 2 [2, 2] (initGraph 2 1 (checkSpace 1 0 2 2) 1 [2, 2])
    (by norm_num) (by norm_num) (by norm_num) (by norm_num) (by decide)
    (init_eq 2 1 1 0 2 [2, 2] (by norm_num) (by norm_num) (by norm_num))


/-! ## C2: the auxiliary rule in oc_graph_resolve -/

theorem resolve_aux_branch (g : OcGraph) (frm : Nat) (rest : List Nat)
    (hpend : g.pending = frm :: rest)
    (huns : g.unsolved_count ≠ 0)
    (hco : frm < g.coblocks) (hsol : g.solved frm = false)
    (hec : g.edge_count (frm - g.mblocks) = 0) :
    (oc_graph_resolve g).1 = oc_cascade (oc_aux_rule { g with pending := rest } frm) frm
    ∧ (oc_graph_resolve g).2.1 = [frm] := by
  rw [oc_graph_resolve]
  rw [if_neg (by rw [hpend]; simp), if_neg huns]
  have hlen : g.pending.length = rest.length + 1 := by rw [hpend]; rfl
  rw [hlen]
  rw [resolveLoop]
  simp only [hpend]
  have h1 : ({ g with pending := rest } : OcGraph).edge_count
      (frm - ({ g with pending := rest } : OcGraph).mblocks) = 0 := hec
  rw [h1]
  rw [if_neg (by omega), if_pos rfl]
  rw [if_neg (show ¬(({ g with pending := rest } : OcGraph).coblocks ≤ frm
      ∨ ({ g with pending := rest } : OcGraph).solved frm = true) from by
    intro hcon
    rcases hcon with hA | hB
    · exact absurd hA (not_le.mpr hco)
    · rw [show ({ g with pending := rest } : OcGraph).solved = g.solved from rfl, hsol] at hB
      cases hB)]
  exact ⟨rfl, rfl⟩

theorem deleteEdges_v_edges (g : OcGraph) (node : Nat) (L : List Nat) :
    (deleteEdges g node L).v_edges = g.v_edges :=
  foldl_field_eq (by intro h b; rfl) _ _

theorem deleteEdges_solved (g : OcGraph) (node : Nat) (L : List Nat) :
    (deleteEdges g node L).solved = g.solved :=
  foldl_field_eq (by intro h b; rfl) _ _

theorem deleteEdges_xor_list (g : OcGraph) (node : Nat) (L : List Nat) :
    (deleteEdges g node L).xor_list = g.xor_list :=
  foldl_field_eq (by intro h b; rfl) _ _

theorem deleteEdges_pending (g : OcGraph) (node : Nat) (L : List Nat) :
    (deleteEdges g node L).pending = g.pending :=
  foldl_field_eq (by intro h b; rfl) _ _

theorem deleteEdges_edge_count (g : OcGraph) (node : Nat) (L : List Nat) :
    (deleteEdges g node L).edge_count = g.edge_count :=
  foldl_field_eq (by intro h b; rfl) _ _

theorem deleteEdges_mblocks (g : OcGraph) (node : Nat) (L : List Nat) :
    (deleteEdges g node L).mblocks = g.mblocks :=
  foldl_field_eq (by intro h b; rfl) _ _

theorem deleteEdges_ablocks (g : OcGraph) (node : Nat) (L : List Nat) :
    (deleteEdges g node L).ablocks = g.ablocks :=
  foldl_field_eq (by intro h b; rfl) _ _

theorem deleteEdges_coblocks (g : OcGraph) (node : Nat) (L : List Nat) :
    (deleteEdges g node L).coblocks = g.coblocks :=
  foldl_field_eq (by intro h b; rfl) _ _

theorem deleteEdges_nodes (g : OcGraph) (node : Nat) (L : List Nat) :
    (deleteEdges g node L).nodes = g.nodes :=
  foldl_field_eq (by intro h b; rfl) _ _

theorem deleteEdges_node_space (g : OcGraph) (node : Nat) (L : List Nat) :
    (deleteEdges g node L).node_space = g.node_space :=
  foldl_field_eq (by intro h b; rfl) _ _

theorem deleteEdges_unsolved_count (g : OcGraph) (node : Nat) (L : List Nat) :
    (deleteEdges g node L).unsolved_count = g.unsolved_count :=
  foldl_field_eq (by intro h b; rfl) _ _

theorem deleteEdges_done (g : OcGraph) (node : Nat) (L : List Nat) :
    (deleteEdges g node L).done = g.done :=
  foldl_field_eq (by intro h b; rfl) _ _

theorem deleteEdges_not_mem (node : Nat) (L : List Nat) : ∀ (g : OcGraph) (l : Nat),
    l ∉ L → (deleteEdges g node L).n_edges l = g.n_edges l := by
  induction L with
  | nil => intro g l _; rfl
  | cons a as ih =>
    intro g l hl
    have hne : l ≠ a := fun hc => hl (hc ▸ List.mem_cons_self a as)
    have hstep : deleteEdges g node (a :: as)
        = deleteEdges (oc_delete_n_edge g node a false) node as := rfl
    rw [hstep, ih _ l (fun hc => hl (List.mem_cons_of_mem a hc))]
    simp only [delete_n_edges]
    exact upd_ne _ _ hne

theorem deleteEdges_mem (node : Nat) (L : List Nat) : ∀ (g : OcGraph) (l : Nat),
    L.Nodup → l ∈ L → (deleteEdges g node L).n_edges l
      = removeFirst (g.n_edges l) node := by
  induction L with
  | nil => intro g l _ hl; cases hl
  | cons a as ih =>
    intro g l hnd hl
    have hstep : deleteEdges g node (a :: as)
        = deleteEdges (oc_delete_n_edge g node a false) node as := rfl
    rcases List.mem_cons.mp hl with rfl | hl_as
    · rw [hstep, deleteEdges_not_mem node as _ l (List.nodup_cons.mp hnd).1]
      simp only [delete_n_edges]
      rw [upd_same]
    · have hne : l ≠ a := by
        intro hc; exact (List.nodup_cons.mp hnd).1 (hc ▸ hl_as)
      rw [hstep, ih _ l (List.nodup_cons.mp hnd).2 hl_as]
      simp only [delete_n_edges]
      rw [upd_ne _ _ hne]

/-- Field description of `oc_aux_rule` relative to the state it is
applied to, given the v-edge array it transfers. -/
theorem aux_rule_fields (g : OcGraph) (frm : Nat) (arr : List Nat)
    (harr : g.v_edges (frm - g.mblocks) = some arr) :
    (oc_aux_rule g frm).solved = upd g.solved frm true
    ∧ (oc_aux_rule g frm).xor_list = upd g.xor_list frm (some arr)
    ∧ (oc_aux_rule g frm).v_edges = upd g.v_edges (frm - g.mblocks) none
    ∧ (oc_aux_rule g frm).edge_count = g.edge_count
    ∧ (oc_aux_rule g frm).pending = g.pending
    ∧ (oc_aux_rule g frm).mblocks = g.mblocks
    ∧ (oc_aux_rule g frm).coblocks = g.coblocks
    ∧ (oc_aux_rule g frm).nodes = g.nodes
    ∧ (oc_aux_rule g frm).unsolved_count = g.unsolved_count
    ∧ (oc_aux_rule g frm).done = g.done
    ∧ (oc_aux_rule g frm).ablocks = g.ablocks
    ∧ (oc_aux_rule g frm).node_space = g.node_space
    ∧ (∀ l, l ∉ entriesOf arr → (oc_aux_rule g frm).n_edges l = g.n_edges l)
    ∧ ((entriesOf arr).Nodup → ∀ l ∈ entriesOf arr,
        (oc_aux_rule g frm).n_edges l = removeFirst (g.n_edges l) frm) := by
  have hgetd : (g.v_edges (frm - g.mblocks)).getD [] = arr := by rw [harr]; rfl
  rw [oc_aux_rule, hgetd]
  refine ⟨?_, ?_, ?_, ?_, ?_, ?_, ?_, ?_, ?_, ?_, ?_, ?_, ?_, ?_⟩
  · rw [deleteEdges_solved]
  · rw [deleteEdges_xor_list]
  · rw [deleteEdges_v_edges]
  · rw [deleteEdges_edge_count]
  · rw [deleteEdges_pending]
  · rw [deleteEdges_mblocks]
  · rw [deleteEdges_coblocks]
  · rw [deleteEdges_nodes]
  · rw [deleteEdges_unsolved_count]
  · rw [deleteEdges_done]
  · rw [deleteEdges_ablocks]
  · rw [deleteEdges_node_space]
  · intro l hl
    rw [deleteEdges_not_mem frm (entriesOf arr) _ l hl]
  · intro hnd l hl
    rw [deleteEdges_mem frm (entriesOf arr) _ l hnd hl]

/-- C2: when `oc_graph_resolve` pops an unsolved aux node `frm` with
zero unsolved edge count, the auxiliary rule fires: `frm` is marked
solved, its v-edge array becomes its xor list (same contents), the
v-edge slot is nulled, every reciprocal up-edge `l → frm` is unlinked
with no edge-count change from the deletions, `frm` is the emitted
solved list, and a cascade from `frm` is performed (the edge counts of
the uppers above `frm` drop by one, with the pushes appended to the
queue). -/
theorem claim_C2_aux_rule (g : OcGraph) (frm : Nat) (rest : List Nat) (arr : List Nat)
    (hpend : g.pending = frm :: rest)
    (huns : g.unsolved_count ≠ 0)
    (hco : frm < g.coblocks)
    (hsol : g.solved frm = false)
    (hec : g.edge_count (frm - g.mblocks) = 0)
    (harr : g.v_edges (frm - g.mblocks) = some arr)
    (hnd : (entriesOf arr).Nodup)
    (hlt : ∀ l ∈ entriesOf arr, l < frm)
    (hnd_frm : (g.n_edges frm).Nodup)
    (hmb_frm : ∀ u ∈ g.n_edges frm, g.mblocks ≤ u) :
    (oc_graph_resolve g).2.1 = [frm]
    ∧ (oc_graph_resolve g).1.solved frm = true
    ∧ (oc_graph_resolve g).1.xor_list frm = some arr
    ∧ (oc_graph_resolve g).1.v_edges (frm - g.mblocks) = none
    ∧ (∀ l ∈ entriesOf arr,
        (oc_graph_resolve g).1.n_edges l = removeFirst (g.n_edges l) frm)
    ∧ (∀ u ∈ g.n_edges frm,
        (oc_graph_resolve g).1.edge_count (u - g.mblocks)
          = g.edge_count (u - g.mblocks) - 1)
    ∧ (∀ r, (∀ u ∈ g.n_edges frm, u - g.mblocks ≠ r) →
        (oc_graph_resolve g).1.edge_count r = g.edge_count r)
    ∧ (oc_graph_resolve g).1.pending
        = rest ++ (g.n_edges frm).filter (fun u => g.edge_count (u - g.mblocks) - 1 < 2) := by
  obtain ⟨hres1, hres2⟩ := resolve_aux_branch g frm rest hpend huns hco hsol hec
  obtain ⟨fs, fx, fv, fe, fp, fm, fc, fn, fu, fd, fa, fsp, fnn, fnm⟩ :=
    aux_rule_fields { g with pending := rest } frm arr harr
  have hfrm_not : frm ∉ entriesOf arr := fun hc => absurd (hlt frm hc) (lt_irrefl frm)
  have hng : (oc_aux_rule { g with pending := rest } frm).n_edges frm = g.n_edges frm :=
    fnn frm hfrm_not
  have hcasceq : oc_cascade (oc_aux_rule { g with pending := rest } frm) frm
      = (g.n_edges frm).foldl cascadeBody (oc_aux_rule { g with pending := rest } frm) := by
    rw [oc_cascade, hng]
  obtain ⟨hc1, hc2, hc3⟩ := cascade_fold_spec (g.n_edges frm)
    (oc_aux_rule { g with pending := rest } frm) hnd_frm
    (by rw [fm]; exact hmb_frm)
  rw [← hcasceq] at hc1 hc2 hc3
  rw [fm] at hc1 hc2
  rw [fe] at hc1 hc2
  rw [fe, fm, fp] at hc3
  refine ⟨hres2, ?_, ?_, ?_, ?_, ?_, ?_, ?_⟩
  · rw [hres1, cascade_solved, fs]
    show upd g.solved frm true frm = true
    rw [upd_same]
  · rw [hres1, cascade_xor_list, fx]
    show upd g.xor_list frm (some arr) frm = some arr
    rw [upd_same]
  · rw [hres1, cascade_v_edges, fv]
    show upd g.v_edges (frm - g.mblocks) none (frm - g.mblocks) = none
    rw [upd_same]
  · intro l hl
    rw [hres1, cascade_n_edges]
    exact fnm hnd l hl
  · intro u hu
    rw [hres1]
    exact hc1 u hu
  · intro r hr
    rw [hres1]
    exact hc2 r hr
  · rw [hres1]
    exact hc3

theorem claim_C2_aux_rule_witness :
    (oc_graph_resolve c2g).2.1 = [2]
    ∧ (oc_graph_resolve c2g).1.solved 2 = true
    ∧ (oc_graph_resolve c2g).1.xor_list 2 = some [1, 0]
    ∧ (oc_graph_resolve c2g).1.v_edges (2 - c2g.mblocks) = none
    ∧ (∀ l ∈ entriesOf [1, 0],
        (oc_graph_resolve c2g).1.n_edges l = removeFirst (c2g.n_edges l) 2)
    ∧ (∀ u ∈ c2g.n_edges 2,
        (oc_graph_resolve c2g).1.edge_count (u - c2g.mblocks)
          = c2g.edge_count (u - c2g.mblocks) - 1)
    ∧ (∀ r, (∀ u ∈ c2g.n_edges 2, u - c2g.mblocks ≠ r) →
        (oc_graph_resolve c2g).1.edge_count r = c2g.edge_count r)
    ∧ (oc_graph_resolve c2g).1.pending
        = [] ++ (c2g.n_edges 2).filter (fun u => c2g.edge_count (u - c2g.mblocks) - 1 < 2) :=
  claim_C2_aux_rule c2g 2 [] [1, 0] (by decide) (by decide) (by decide) (by decide)
    (by decide) (by decide) (by decide) (by decide) (by decide) (by decide)


/-! ## C1: the propagation rule in oc_graph_resolve -/

theorem removeFirst_subset (a : Nat) : ∀ (l : List Nat) (x : Nat),
    x ∈ removeFirst l a → x ∈ l := by
  intro l
  induction l with
  | nil => intro x hx; cases hx
  | cons y ys ih =>
    intro x hx
    rw [removeFirst] at hx
    by_cases hy : y = a
    · rw [if_pos hy] at hx
      exact List.mem_cons_of_mem y hx
    · rw [if_neg hy] at hx
      rcases List.mem_cons.mp hx with rfl | hx2
      · exact List.mem_cons_self x ys
      · exact List.mem_cons_of_mem y (ih x hx2)

theorem removeFirst_of_not_mem (a : Nat) : ∀ (l : List Nat),
    a ∉ l → removeFirst l a = l := by
  intro l
  induction l with
  | nil => intro _; rfl
  | cons y ys ih =>
    intro ha
    have hya : ¬(y = a) := fun hc => ha (by rw [← hc]; exact List.mem_cons_self y ys)
    rw [removeFirst, if_neg hya]
    rw [ih (fun hc => ha (List.mem_cons_of_mem y hc))]

theorem not_mem_removeFirst_of_nodup (a : Nat) : ∀ (l : List Nat),
    l.Nodup → a ∉ removeFirst l a := by
  intro l
  induction l with
  | nil => intro _ h; cases h
  | cons y ys ih =>
    intro hnd h
    rw [removeFirst] at h
    by_cases hy : y = a
    · rw [if_pos hy] at h
      exact (List.nodup_cons.mp hnd).1 (by rw [hy]; exact h)
    · rw [if_neg hy] at h
      rcases List.mem_cons.mp h with hc | h2
      · exact hy hc.symm
      · exact ih (List.nodup_cons.mp hnd).2 h2

theorem removeFirst_perm (a : Nat) : ∀ (l : List Nat), a ∈ l →
    (a :: removeFirst l a).Perm l := by
  intro l
  induction l with
  | nil => intro h; cases h
  | cons y ys ih =>
    intro ha
    rw [removeFirst]
    by_cases hy : y = a
    · rw [if_pos hy, hy]
    · rw [if_neg hy]
      have hays : a ∈ ys := by
        rcases List.mem_cons.mp ha with hc | h2
        · exact absurd hc.symm hy
        · exact h2
      exact (List.Perm.swap y a (removeFirst ys a)).trans ((ih hays).cons y)

theorem filter_singleton_findIdx (p : Nat → Bool) :
    ∀ (l : List Nat) (x : Nat), l.filter p = [x] →
    ∃ i, l.findIdx? p = some i ∧ i < l.length ∧ l.getD i 0 = x ∧ p x = true := by
  intro l
  induction l with
  | nil => intro x h; cases h
  | cons a as ih =>
    intro x h
    by_cases hp : p a = true
    · rw [List.filter_cons_of_pos hp] at h
      have h1 : a = x := by injection h
      refine ⟨0, ?_, by simp, by simpa using h1, h1 ▸ hp⟩
      rw [List.findIdx?_cons, if_pos hp]
    · rw [List.filter_cons_of_neg hp] at h
      obtain ⟨i, hfind, hlen, hget, hpx⟩ := ih x h
      refine ⟨i + 1, ?_, by simpa using Nat.succ_lt_succ hlen, hget, hpx⟩
      rw [List.findIdx?_cons, if_neg hp, List.findIdx?_succ, hfind]
      rfl

theorem set_append_perm : ∀ (F : List Nat) (i : Nat) (x : Nat), i < F.length →
    (F.set i x ++ [F.getD i 0]).Perm (F ++ [x]) := by
  intro F
  induction F with
  | nil => intro i x h; cases h
  | cons b F2 ih =>
    intro i x h
    cases i with
    | zero =>
      show (x :: (F2 ++ [b])).Perm (b :: (F2 ++ [x]))
      have p1 : (x :: (F2 ++ [b])).Perm (x :: b :: F2) :=
        (List.perm_append_singleton b F2).cons x
      have p2 : (x :: b :: F2).Perm (b :: x :: F2) := List.Perm.swap b x F2
      have p3 : (b :: x :: F2).Perm (b :: (F2 ++ [x])) :=
        ((List.perm_append_singleton x F2).symm).cons b
      exact (p1.trans p2).trans p3
    | succ i2 =>
      show (b :: (F2.set i2 x ++ [F2.getD i2 0])).Perm (b :: (F2 ++ [x]))
      exact (ih i2 x (Nat.lt_of_succ_lt_succ (by simpa using h))).cons b

/-- The length of the logical entry list when the array is well-formed. -/
theorem entriesOf_length (arr : List Nat) (hwf : arr.headD 0 + 1 ≤ arr.length) :
    (entriesOf arr).length = arr.headD 0 := by
  rw [entriesOf, List.length_take, List.length_drop]
  omega

/-- The in-place swap-and-shrink of the propagation rule, viewed on the
logical entries: set entry `i` to the last entry and drop the last. -/
theorem entries_after_swap (arr : List Nat) (i : Nat)
    (hwf : arr.headD 0 + 1 ≤ arr.length) (hi : i < arr.headD 0) :
    entriesOf ((arr.set (i + 1) (arr.getD (arr.headD 0) 0)).set 0 (arr.headD 0 - 1))
      = ((entriesOf arr).set i ((entriesOf arr).getD (arr.headD 0 - 1) 0)).take
          (arr.headD 0 - 1) := by
  have hlen0 : 0 < arr.length := by omega
  have hhead2 : ((arr.set (i + 1) (arr.getD (arr.headD 0) 0)).set 0 (arr.headD 0 - 1)).headD 0
      = arr.headD 0 - 1 := by
    rw [headD_eq_getD, List.getD_eq_getElem?_getD,
      List.getElem?_set_self (by rw [List.length_set]; exact hlen0)]
    rfl
  have hdrop2 : ((arr.set (i + 1) (arr.getD (arr.headD 0) 0)).set 0 (arr.headD 0 - 1)).drop 1
      = (arr.drop 1).set i (arr.getD (arr.headD 0) 0) := by
    rw [List.drop_set, if_pos Nat.one_pos]
    rw [List.drop_set, if_neg (by omega)]
    congr 1
  have hlast : (entriesOf arr).getD (arr.headD 0 - 1) 0 = arr.getD (arr.headD 0) 0 := by
    have hidx : 1 + (arr.headD 0 - 1) = arr.headD 0 := by omega
    rw [entriesOf, List.getD_eq_getElem?_getD, List.getElem?_take_of_lt (by omega),
      List.getElem?_drop, hidx, List.getD_eq_getElem?_getD]
  rw [entriesOf, hhead2, hdrop2, hlast, entriesOf]
  rw [show ((arr.drop 1).take (arr.headD 0)).set i (arr.getD (arr.headD 0) 0)
      = ((arr.drop 1).set i (arr.getD (arr.headD 0) 0)).take (arr.headD 0) from
    (List.set_take).symm]
  rw [List.take_take, Nat.min_eq_left (Nat.sub_le _ _)]

theorem upd_upd_same {α : Type} (f : Nat → α) (i : Nat) (a b : α) :
    upd (upd f i a) i b = upd f i b := by
  funext j
  by_cases h : j = i
  · rw [h, upd_same, upd_same]
  · rw [upd_ne _ _ h, upd_ne _ _ h, upd_ne _ _ h]

theorem removeFirst_sublist (a : Nat) : ∀ (l : List Nat),
    (removeFirst l a).Sublist l := by
  intro l
  induction l with
  | nil => exact List.Sublist.refl []
  | cons y ys ih =>
    rw [removeFirst]
    by_cases hy : y = a
    · rw [if_pos hy]
      exact List.sublist_cons_self y ys
    · rw [if_neg hy]
      exact ih.cons₂ y

theorem removeFirst_nodup (a : Nat) (l : List Nat) (h : l.Nodup) :
    (removeFirst l a).Nodup :=
  (removeFirst_sublist a l).nodup h

/-- Dropping one from the stored count turns the head of the swapped
array into the decremented count. -/
theorem swap_headD (arr : List Nat) (i : Nat) (h : 0 < arr.length) :
    ((arr.set (i + 1) (arr.getD (arr.headD 0) 0)).set 0 (arr.headD 0 - 1)).headD 0
      = arr.headD 0 - 1 := by
  rw [headD_eq_getD, List.getD_eq_getElem?_getD,
    List.getElem?_set_self (by rw [List.length_set]; exact h)]
  rfl

/-- A list of known positive length is its initial segment plus its last
element. -/
theorem take_pred_append_getD (l : List Nat) (n : Nat) (h : l.length = n)
    (hn : 0 < n) : l.take (n - 1) ++ [l.getD (n - 1) 0] = l := by
  have hlen1 : (l.drop (n - 1)).length = 1 := by rw [List.length_drop, h]; omega
  obtain ⟨a, ha⟩ := List.length_eq_one.mp hlen1
  have hget : l.getD (n - 1) 0 = a := by
    rw [List.getD_eq_getElem?_getD, show (n - 1) = (n - 1) + 0 from rfl,
      ← List.getElem?_drop, ha]
    rfl
  rw [hget]
  conv_rhs => rw [← List.take_append_drop (n - 1) l]
  rw [ha]

/-- The element swapped into slot `i` is the former last entry. -/
theorem set_getD_last (E : List Nat) (i k : Nat) (hE : E.length = k)
    (hk : 0 < k) :
    (E.set i (E.getD (k - 1) 0)).getD (k - 1) 0 = E.getD (k - 1) 0 := by
  by_cases hik : i = k - 1
  · subst hik
    rw [List.getD_eq_getElem?_getD,
      List.getElem?_set_self (by rw [hE]; omega)]
    rfl
  · rw [List.getD_eq_getElem?_getD, List.getElem?_set_ne hik,
      List.getD_eq_getElem?_getD]

/-- Removing the found entry by the swap-with-last: the found entry
consed on the shrunk entry list is a permutation of the original entry
list. -/
theorem swap_remove_perm (arr : List Nat) (i : Nat)
    (hwf : arr.headD 0 + 1 ≤ arr.length) (hi : i < arr.headD 0) :
    ((entriesOf arr).getD i 0
      :: entriesOf ((arr.set (i + 1) (arr.getD (arr.headD 0) 0)).set 0 (arr.headD 0 - 1))).Perm
      (entriesOf arr) := by
  have hElen : (entriesOf arr).length = arr.headD 0 := entriesOf_length arr hwf
  have hiE : i < (entriesOf arr).length := by rw [hElen]; exact hi
  rw [entries_after_swap arr i hwf hi]
  have hE'len : ((entriesOf arr).set i ((entriesOf arr).getD (arr.headD 0 - 1) 0)).length
      = arr.headD 0 := by rw [List.length_set, hElen]
  have h5 := take_pred_append_getD
    ((entriesOf arr).set i ((entriesOf arr).getD (arr.headD 0 - 1) 0))
    (arr.headD 0) hE'len (by omega)
  rw [set_getD_last (entriesOf arr) i (arr.headD 0) hElen (by omega)] at h5
  have p0 := set_append_perm (entriesOf arr) i ((entriesOf arr).getD (arr.headD 0 - 1) 0) hiE
  rw [← h5] at p0
  have a1 : ((((entriesOf arr).set i ((entriesOf arr).getD (arr.headD 0 - 1) 0)).take
        (arr.headD 0 - 1)) ++ [(entriesOf arr).getD (arr.headD 0 - 1) 0]).Perm
      ((entriesOf arr).getD (arr.headD 0 - 1) 0
        :: (((entriesOf arr).set i ((entriesOf arr).getD (arr.headD 0 - 1) 0)).take
          (arr.headD 0 - 1))) :=
    List.perm_append_singleton _ _
  have q1 := a1.symm.append_right [(entriesOf arr).getD i 0]
  have q2 : ((entriesOf arr) ++ [(entriesOf arr).getD (arr.headD 0 - 1) 0]).Perm
      ((entriesOf arr).getD (arr.headD 0 - 1) 0 :: (entriesOf arr)) :=
    List.perm_append_singleton _ _
  have q3 := (q1.trans p0).trans q2
  have q3b : ((entriesOf arr).getD (arr.headD 0 - 1) 0
      :: ((((entriesOf arr).set i ((entriesOf arr).getD (arr.headD 0 - 1) 0)).take
        (arr.headD 0 - 1)) ++ [(entriesOf arr).getD i 0])).Perm
      ((entriesOf arr).getD (arr.headD 0 - 1) 0 :: (entriesOf arr)) := q3
  have q4 := q3b.cons_inv
  exact ((List.perm_append_singleton _ _).symm.trans q4)

theorem propMark_v_edges (g : OcGraph) (frm i : Nat) (arr : List Nat) :
    (propMark g frm i arr).v_edges = upd g.v_edges (frm - g.mblocks)
      (some ((arr.set (i + 1) (arr.getD (arr.headD 0) 0)).set 0 (arr.headD 0 - 1))) := rfl

theorem propMark_mblocks (g : OcGraph) (frm i : Nat) (arr : List Nat) :
    (propMark g frm i arr).mblocks = g.mblocks := rfl

/-- `oc_decommission_node` inside the propagation rule always sees the
freshly shrunk array in the v-edge slot of `frm`. -/
theorem propDecom_eq (g : OcGraph) (frm i : Nat) (arr : List Nat) :
    propDecom g frm i arr
      = deleteEdges
          { propMark g frm i arr with
              v_edges := upd (propMark g frm i arr).v_edges (frm - g.mblocks) none }
          frm
          (entriesOf ((arr.set (i + 1) (arr.getD (arr.headD 0) 0)).set 0 (arr.headD 0 - 1))).reverse := by
  have h1 : (propMark g frm i arr).v_edges (frm - (propMark g frm i arr).mblocks)
      = some ((arr.set (i + 1) (arr.getD (arr.headD 0) 0)).set 0 (arr.headD 0 - 1)) := by
    rw [propMark_v_edges, propMark_mblocks, upd_same]
  rw [propDecom, oc_decommission_node, h1]
  rfl

/-- `propagateStep` decomposed into its named stages once the single
unsolved down-edge has been located at index `i`. -/
theorem propagateStep_eq (g : OcGraph) (frm i : Nat) (arr : List Nat)
    (harr : g.v_edges (frm - g.mblocks) = some arr)
    (hfind : (entriesOf arr).findIdx? (fun d => !g.solved d) = some i) :
    propagateStep g frm
      = propFinish (propDecom g frm i arr) ((entriesOf arr).getD i 0) := by
  simp only [propagateStep, harr, Option.getD_some, hfind]
  rfl

/-- Field description of the propagation rule up to the decommissioning
of `frm`, relative to the state it is applied to. -/
theorem propDecom_fields (g : OcGraph) (frm i : Nat) (arr : List Nat)
    (hwf : arr.headD 0 + 1 ≤ arr.length) (hi : i < arr.headD 0)
    (hnd : (entriesOf arr).Nodup) :
    (propDecom g frm i arr).mblocks = g.mblocks
    ∧ (propDecom g frm i arr).coblocks = g.coblocks
    ∧ (propDecom g frm i arr).unsolved_count = g.unsolved_count
    ∧ (propDecom g frm i arr).pending = g.pending
    ∧ (propDecom g frm i arr).solved = upd g.solved ((entriesOf arr).getD i 0) true
    ∧ (propDecom g frm i arr).xor_list = upd g.xor_list ((entriesOf arr).getD i 0) (some (oc_propagate_xor ((g.xor_list frm).getD []) ((arr.set (i + 1) (arr.getD (arr.headD 0) 0)).set 0 (arr.headD 0 - 1))))
    ∧ (propDecom g frm i arr).edge_count = upd g.edge_count (frm - g.mblocks) (g.edge_count (frm - g.mblocks) - 1)
    ∧ (propDecom g frm i arr).v_edges = upd g.v_edges (frm - g.mblocks) none
    ∧ (propDecom g frm i arr).n_edges ((entriesOf arr).getD i 0) = removeFirst (g.n_edges ((entriesOf arr).getD i 0)) frm
    ∧ (∀ l ∈ entriesOf ((arr.set (i + 1) (arr.getD (arr.headD 0) 0)).set 0 (arr.headD 0 - 1)), (propDecom g frm i arr).n_edges l = removeFirst (g.n_edges l) frm) := by
  have hperm := swap_remove_perm arr i hwf hi
  have hnd2 : ((entriesOf arr).getD i 0
      :: entriesOf ((arr.set (i + 1) (arr.getD (arr.headD 0) 0)).set 0 (arr.headD 0 - 1))).Nodup :=
    hperm.nodup_iff.mpr hnd
  have htgt_not := (List.nodup_cons.mp hnd2).1
  have hA2nd := (List.nodup_cons.mp hnd2).2
  rw [propDecom_eq]
  refine ⟨?_, ?_, ?_, ?_, ?_, ?_, ?_, ?_, ?_, ?_⟩
  · rw [deleteEdges_mblocks]; rfl
  · rw [deleteEdges_coblocks]; rfl
  · rw [deleteEdges_unsolved_count]; rfl
  · rw [deleteEdges_pending]; rfl
  · rw [deleteEdges_solved]; rfl
  · rw [deleteEdges_xor_list]; rfl
  · rw [deleteEdges_edge_count]; rfl
  · rw [deleteEdges_v_edges]
    show upd (propMark g frm i arr).v_edges (frm - g.mblocks) none
      = upd g.v_edges (frm - g.mblocks) none
    rw [propMark_v_edges, upd_upd_same]
  · rw [deleteEdges_not_mem frm _ _ _ (by rw [List.mem_reverse]; exact htgt_not)]
    show upd g.n_edges ((entriesOf arr).getD i 0)
        (removeFirst (g.n_edges ((entriesOf arr).getD i 0)) frm)
        ((entriesOf arr).getD i 0)
      = removeFirst (g.n_edges ((entriesOf arr).getD i 0)) frm
    rw [upd_same]
  · intro l hl
    have hlt : l ≠ (entriesOf arr).getD i 0 := fun hc => htgt_not (hc ▸ hl)
    rw [deleteEdges_mem frm _ _ l (List.nodup_reverse.mpr hA2nd)
      (List.mem_reverse.mpr hl)]
    show removeFirst (upd g.n_edges ((entriesOf arr).getD i 0)
        (removeFirst (g.n_edges ((entriesOf arr).getD i 0)) frm) l) frm
      = removeFirst (g.n_edges l) frm
    rw [upd_ne _ _ hlt]

/-- Field description of the tail of the propagation rule: the solved
list is the single found node, every field but the edge counts and the
queue is untouched, and the edge count of any slot not under an upper of
the found node is untouched by the cascade. -/
theorem propFinish_spec (h : OcGraph) (tgt : Nat)
    (hnd : (h.n_edges tgt).Nodup)
    (hub : ∀ u ∈ h.n_edges tgt, h.mblocks ≤ u) :
    (propFinish h tgt).2 = [tgt]
    ∧ (propFinish h tgt).1.solved = h.solved
    ∧ (propFinish h tgt).1.xor_list = h.xor_list
    ∧ (propFinish h tgt).1.v_edges = h.v_edges
    ∧ (propFinish h tgt).1.n_edges = h.n_edges
    ∧ (∀ r, (∀ u ∈ h.n_edges tgt, u - h.mblocks ≠ r) →
        (propFinish h tgt).1.edge_count r = h.edge_count r) := by
  rw [propFinish]
  by_cases htm : tgt < h.mblocks
  · rw [if_pos htm]
    by_cases hu : h.unsolved_count - 1 = 0
    · rw [if_pos hu]
      exact ⟨rfl, rfl, rfl, rfl, rfl, fun r _ => rfl⟩
    · rw [if_neg hu]
      refine ⟨rfl, cascade_solved _ _, cascade_xor_list _ _, cascade_v_edges _ _,
        cascade_n_edges _ _, ?_⟩
      intro r hr
      obtain ⟨_, hc2, _⟩ := cascade_fold_spec (h.n_edges tgt)
        { h with unsolved_count := h.unsolved_count - 1 } hnd hub
      exact hc2 r hr
  · rw [if_neg htm]
    refine ⟨rfl, cascade_solved _ _, cascade_xor_list _ _, cascade_v_edges _ _,
      cascade_n_edges _ _, ?_⟩
    intro r hr
    obtain ⟨_, hc2, _⟩ := cascade_fold_spec (h.n_edges tgt)
      { h with pending := h.pending ++ [tgt] } hnd hub
    exact hc2 r hr

/-- With `STEPPING`, a pending check node or solved aux node whose
unsolved edge count is exactly one routes `oc_graph_resolve` into the
propagation rule. -/
theorem resolve_prop_branch (g : OcGraph) (frm : Nat) (rest : List Nat)
    (hpend : g.pending = frm :: rest)
    (huns : g.unsolved_count ≠ 0)
    (hec : g.edge_count (frm - g.mblocks) = 1)
    (hcase : g.coblocks ≤ frm ∨ g.solved frm = true) :
    (oc_graph_resolve g).1 = (propagateStep { g with pending := rest } frm).1
    ∧ (oc_graph_resolve g).2.1 = (propagateStep { g with pending := rest } frm).2 := by
  rw [oc_graph_resolve]
  rw [if_neg (by rw [hpend]; simp), if_neg huns]
  have hlen : g.pending.length = rest.length + 1 := by rw [hpend]; rfl
  rw [hlen, resolveLoop]
  simp only [hpend]
  have h1 : ({ g with pending := rest } : OcGraph).edge_count
      (frm - ({ g with pending := rest } : OcGraph).mblocks) = 1 := hec
  rw [h1]
  rw [if_neg (by omega)]
  rw [if_neg (by omega)]
  rw [if_neg (show ¬(frm < ({ g with pending := rest } : OcGraph).coblocks
      ∧ ({ g with pending := rest } : OcGraph).solved frm = false) from by
    rintro ⟨hA, hB⟩
    rcases hcase with hC | hC
    · exact absurd hC (not_le.mpr hA)
    · rw [show ({ g with pending := rest } : OcGraph).solved = g.solved from rfl, hC] at hB
      cases hB)]
  exact ⟨rfl, rfl⟩

/-- C1: when `oc_graph_resolve` pops an upper node `frm` that is a check
node or a solved aux node and whose unsolved edge count is exactly one,
the propagation rule fires: the scan of the v-edge list finds the single
unsolved entry (index `i`, value `v_edges[frm][i]`), that entry is
removed from the list by swapping in the final entry and decrementing
the stored count (the consed permutation), the reciprocal up-edge is
deleted with an edge-count decrement leaving `edge_count[frm] = 0`, the
found node is marked solved, its xor list becomes the length-prefixed
concatenation of `xor_list[frm]` and the reduced v-edge list, the found
node is the emitted solved list, and `frm` is decommissioned: its
v-edge slot is nulled and the up-edges of the remaining entries are
unlinked. -/
theorem claim_C1_propagation (g : OcGraph) (frm : Nat) (rest : List Nat)
    (arr xl : List Nat)
    (hpend : g.pending = frm :: rest)
    (huns : g.unsolved_count ≠ 0)
    (hmb : g.mblocks ≤ frm)
    (hcase : g.coblocks ≤ frm ∨ g.solved frm = true)
    (hec : g.edge_count (frm - g.mblocks) = 1)
    (harr : g.v_edges (frm - g.mblocks) = some arr)
    (hwf : arr.headD 0 + 1 ≤ arr.length)
    (hone : unsolvedCount g.solved (entriesOf arr) = 1)
    (hnd : (entriesOf arr).Nodup)
    (hxor : g.xor_list frm = some xl)
    (hedges : ∀ d ∈ entriesOf arr, (g.n_edges d).Nodup ∧ ∀ u ∈ g.n_edges d, g.mblocks ≤ u) :
    ∃ i,
      (entriesOf arr).findIdx? (fun d => !g.solved d) = some i
      ∧ (entriesOf arr).filter (fun d => !g.solved d) = [(entriesOf arr).getD i 0]
      ∧ g.solved ((entriesOf arr).getD i 0) = false
      ∧ (oc_graph_resolve g).2.1 = [(entriesOf arr).getD i 0]
      ∧ (oc_graph_resolve g).1.solved ((entriesOf arr).getD i 0) = true
      ∧ (oc_graph_resolve g).1.xor_list ((entriesOf arr).getD i 0) = some ((xl.headD 0 + (arr.headD 0 - 1)) :: (entriesOf xl ++ entriesOf ((arr.set (i + 1) (arr.getD (arr.headD 0) 0)).set 0 (arr.headD 0 - 1))))
      ∧ ((entriesOf arr).getD i 0 :: entriesOf ((arr.set (i + 1) (arr.getD (arr.headD 0) 0)).set 0 (arr.headD 0 - 1))).Perm (entriesOf arr)
      ∧ (oc_graph_resolve g).1.n_edges ((entriesOf arr).getD i 0) = removeFirst (g.n_edges ((entriesOf arr).getD i 0)) frm
      ∧ (oc_graph_resolve g).1.edge_count (frm - g.mblocks) = 0
      ∧ (oc_graph_resolve g).1.v_edges (frm - g.mblocks) = none
      ∧ (∀ l ∈ entriesOf ((arr.set (i + 1) (arr.getD (arr.headD 0) 0)).set 0 (arr.headD 0 - 1)), (oc_graph_resolve g).1.n_edges l = removeFirst (g.n_edges l) frm) := by
  rw [unsolvedCount] at hone
  obtain ⟨t, hfil⟩ := List.length_eq_one.mp hone
  obtain ⟨i, hfind, hilen, hget, hpt⟩ :=
    filter_singleton_findIdx (fun d => !g.solved d) (entriesOf arr) t hfil
  subst hget
  have hi : i < arr.headD 0 := by rw [← entriesOf_length arr hwf]; exact hilen
  have htgt_mem : (entriesOf arr).getD i 0 ∈ entriesOf arr :=
    List.mem_of_mem_filter (hfil ▸ List.mem_singleton_self _)
  have hsolt : g.solved ((entriesOf arr).getD i 0) = false := by simpa using hpt
  obtain ⟨hres1, hres2⟩ := resolve_prop_branch g frm rest hpend huns hec hcase
  have hstep := propagateStep_eq { g with pending := rest } frm i arr harr hfind
  obtain ⟨dm, dc, du, dp, ds, dx, de, dv, dnt, dnl⟩ :=
    propDecom_fields { g with pending := rest } frm i arr hwf hi hnd
  have hndh : ((propDecom { g with pending := rest } frm i arr).n_edges
      ((entriesOf arr).getD i 0)).Nodup := by
    rw [dnt]
    exact removeFirst_nodup frm _ (hedges _ htgt_mem).1
  have hubh : ∀ u ∈ (propDecom { g with pending := rest } frm i arr).n_edges
      ((entriesOf arr).getD i 0),
      (propDecom { g with pending := rest } frm i arr).mblocks ≤ u := by
    intro u hu
    rw [dnt] at hu
    rw [dm]
    exact (hedges _ htgt_mem).2 u (removeFirst_subset frm _ u hu)
  obtain ⟨f2, fs, fx, fv, fn, fe⟩ :=
    propFinish_spec (propDecom { g with pending := rest } frm i arr)
      ((entriesOf arr).getD i 0) hndh hubh
  refine ⟨i, hfind, hfil, hsolt, ?_, ?_, ?_, swap_remove_perm arr i hwf hi, ?_, ?_, ?_, ?_⟩
  · rw [hres2, hstep, f2]
  · rw [hres1, hstep, fs, ds]
    show upd g.solved ((entriesOf arr).getD i 0) true ((entriesOf arr).getD i 0) = true
    rw [upd_same]
  · rw [hres1, hstep, fx, dx]
    show upd g.xor_list ((entriesOf arr).getD i 0)
        (some (oc_propagate_xor ((g.xor_list frm).getD [])
          ((arr.set (i + 1) (arr.getD (arr.headD 0) 0)).set 0 (arr.headD 0 - 1))))
        ((entriesOf arr).getD i 0) = _
    rw [upd_same, hxor]
    show some (oc_propagate_xor xl
        ((arr.set (i + 1) (arr.getD (arr.headD 0) 0)).set 0 (arr.headD 0 - 1))) = _
    rw [oc_propagate_xor, swap_headD arr i (by omega)]
  · rw [hres1, hstep, fn, dnt]
  · rw [hres1, hstep]
    have hno : ∀ u ∈ (propDecom { g with pending := rest } frm i arr).n_edges
        ((entriesOf arr).getD i 0),
        u - (propDecom { g with pending := rest } frm i arr).mblocks
          ≠ frm - g.mblocks := by
      intro u hu
      rw [dnt] at hu
      rw [dm]
      have hufrm : u ≠ frm := fun hc =>
        not_mem_removeFirst_of_nodup frm _ (hedges _ htgt_mem).1 (hc ▸ hu)
      have hmu : g.mblocks ≤ u :=
        (hedges _ htgt_mem).2 u (removeFirst_subset frm _ u hu)
      show u - g.mblocks ≠ frm - g.mblocks
      omega
    rw [fe _ hno, de]
    show upd g.edge_count (frm - g.mblocks) (g.edge_count (frm - g.mblocks) - 1)
        (frm - g.mblocks) = 0
    rw [upd_same, hec]
  · rw [hres1, hstep, fv, dv]
    show upd g.v_edges (frm - g.mblocks) none (frm - g.mblocks) = none
    rw [upd_same]
  · intro l hl
    rw [hres1, hstep, fn, dnl l hl]

theorem claim_C1_propagation_witness :
    ∃ i,
      (entriesOf [1, 0]).findIdx? (fun d => !c1g.solved d) = some i
      ∧ (entriesOf [1, 0]).filter (fun d => !c1g.solved d) = [(entriesOf [1, 0]).getD i 0]
      ∧ c1g.solved ((entriesOf [1, 0]).getD i 0) = false
      ∧ (oc_graph_resolve c1g).2.1 = [(entriesOf [1, 0]).getD i 0]
      ∧ (oc_graph_resolve c1g).1.solved ((entriesOf [1, 0]).getD i 0) = true
      ∧ (oc_graph_resolve c1g).1.xor_list ((entriesOf [1, 0]).getD i 0) = some (([1, 2].headD 0 + ([1, 0].headD 0 - 1)) :: (entriesOf [1, 2] ++ entriesOf (([1, 0].set (i + 1) ([1, 0].getD ([1, 0].headD 0) 0)).set 0 ([1, 0].headD 0 - 1))))
      ∧ ((entriesOf [1, 0]).getD i 0 :: entriesOf (([1, 0].set (i + 1) ([1, 0].getD ([1, 0].headD 0) 0)).set 0 ([1, 0].headD 0 - 1))).Perm (entriesOf [1, 0])
      ∧ (oc_graph_resolve c1g).1.n_edges ((entriesOf [1, 0]).getD i 0) = removeFirst (c1g.n_edges ((entriesOf [1, 0]).getD i 0)) 2
      ∧ (oc_graph_resolve c1g).1.edge_count (2 - c1g.mblocks) = 0
      ∧ (oc_graph_resolve c1g).1.v_edges (2 - c1g.mblocks) = none
      ∧ (∀ l ∈ entriesOf (([1, 0].set (i + 1) ([1, 0].getD ([1, 0].headD 0) 0)).set 0 ([1, 0].headD 0 - 1)), (oc_graph_resolve c1g).1.n_edges l = removeFirst (c1g.n_edges l) 2) :=
  claim_C1_propagation c1g 2 [] [1, 0] [1, 2] (by decide) (by decide) (by decide)
    (by decide) (by decide) (by decide) (by decide) (by decide) (by decide)
    (by decide) (by decide)


/-! ## C3, C4 and C10: the reachability invariant -/

theorem vCount_low (g : OcGraph) (u l mb : Nat) (hm : g.mblocks = mb)
    (hu : u < mb) : vCount g u l = 0 := by
  simp only [vCount, hm, if_pos hu]

theorem vCount_none (g : OcGraph) (u l mb : Nat) (hm : g.mblocks = mb)
    (hu : ¬ u < mb) (h : g.v_edges (u - mb) = none) : vCount g u l = 0 := by
  simp only [vCount, hm, if_neg hu, h]

theorem vCount_some (g : OcGraph) (u l mb : Nat) (arr : List Nat)
    (hm : g.mblocks = mb) (hu : ¬ u < mb) (h : g.v_edges (u - mb) = some arr) :
    vCount g u l = List.count l (entriesOf arr) := by
  simp only [vCount, hm, if_neg hu, h]

theorem removeFirst_count_self (x : Nat) : ∀ (l : List Nat),
    List.count x (removeFirst l x) = List.count x l - 1 := by
  intro l
  induction l with
  | nil => rfl
  | cons y ys ih =>
    rw [removeFirst]
    by_cases hy : y = x
    · rw [if_pos hy, hy, List.count_cons_self]
      omega
    · rw [if_neg hy, List.count_cons_of_ne (fun hc => hy hc.symm),
        List.count_cons_of_ne (fun hc => hy hc.symm), ih]

theorem removeFirst_count_ne (x u : Nat) (hne : u ≠ x) : ∀ (l : List Nat),
    List.count u (removeFirst l x) = List.count u l := by
  intro l
  induction l with
  | nil => rfl
  | cons y ys ih =>
    rw [removeFirst]
    by_cases hy : y = x
    · rw [if_pos hy, hy, List.count_cons_of_ne hne]
    · by_cases hu : y = u
      · rw [if_neg hy, hu, List.count_cons_self, List.count_cons_self, ih]
      · rw [if_neg hy, List.count_cons_of_ne (fun hc => hu hc.symm),
          List.count_cons_of_ne (fun hc => hu hc.symm), ih]

theorem unsolvedCount_upd_true (solved : Nat → Bool) (tgt : Nat)
    (hs : solved tgt = false) : ∀ (l : List Nat),
    unsolvedCount solved l = unsolvedCount (upd solved tgt true) l + List.count tgt l := by
  intro l
  induction l with
  | nil => rfl
  | cons a as ih =>
    simp only [unsolvedCount] at ih ⊢
    by_cases ha : a = tgt
    · subst ha
      rw [List.filter_cons_of_pos (by rw [hs]; rfl),
        List.filter_cons_of_neg (by rw [upd_same]; decide), List.count_cons_self,
        List.length_cons, ih]
      omega
    · have h2 : upd solved tgt true a = solved a := upd_ne _ _ ha
      rw [List.count_cons_of_ne (fun hc => ha hc.symm)]
      by_cases hsa : solved a = false
      · rw [List.filter_cons_of_pos (by rw [hsa]; rfl),
          List.filter_cons_of_pos (by rw [h2, hsa]; rfl),
          List.length_cons, List.length_cons, ih]
        omega
      · have hsa' : solved a = true := by revert hsa; cases solved a <;> simp
        rw [List.filter_cons_of_neg (by rw [hsa']; decide),
          List.filter_cons_of_neg (by rw [h2, hsa']; decide), ih]

theorem unsolvedCount_all_solved (solved : Nat → Bool) (l : List Nat)
    (h : unsolvedCount solved l = 0) : ∀ d ∈ l, solved d = true := by
  intro d hd
  rw [unsolvedCount, List.length_eq_zero] at h
  by_cases hs : solved d = true
  · exact hs
  · have hdm : d ∈ l.filter (fun x => !solved x) := by
      rw [List.mem_filter]
      refine ⟨hd, ?_⟩
      revert hs; cases solved d <;> simp
    rw [h] at hdm
    cases hdm

theorem unsolvedCount_of_all_unsolved (solved : Nat → Bool) (l : List Nat)
    (h : ∀ d ∈ l, solved d = false) : unsolvedCount solved l = l.length := by
  rw [unsolvedCount, List.filter_eq_self.mpr]
  intro d hd
  rw [h d hd]
  rfl

theorem deleteEdges_count_self (node : Nat) (L : List Nat) : ∀ (g : OcGraph) (l : Nat),
    List.count node ((deleteEdges g node L).n_edges l)
      = List.count node (g.n_edges l) - List.count l L := by
  induction L with
  | nil => intro g l; rw [List.count_nil, Nat.sub_zero]; rfl
  | cons a as ih =>
    intro g l
    have hstep : deleteEdges g node (a :: as)
        = deleteEdges (oc_delete_n_edge g node a false) node as := rfl
    rw [hstep, ih]
    simp only [delete_n_edges]
    by_cases hl : l = a
    · subst hl
      rw [upd_same, removeFirst_count_self, List.count_cons_self]
      omega
    · rw [upd_ne _ _ hl, List.count_cons_of_ne hl]

theorem deleteEdges_count_ne (node : Nat) (L : List Nat) (u : Nat) (hu : u ≠ node) :
    ∀ (g : OcGraph) (l : Nat),
    List.count u ((deleteEdges g node L).n_edges l) = List.count u (g.n_edges l) := by
  induction L with
  | nil => intro g l; rfl
  | cons a as ih =>
    intro g l
    have hstep : deleteEdges g node (a :: as)
        = deleteEdges (oc_delete_n_edge g node a false) node as := rfl
    rw [hstep, ih]
    simp only [delete_n_edges]
    by_cases hl : l = a
    · subst hl
      rw [upd_same, removeFirst_count_ne node u hu]
    · rw [upd_ne _ _ hl]

theorem deleteEdges_n_subset (node : Nat) (L : List Nat) : ∀ (g : OcGraph) (l u : Nat),
    u ∈ (deleteEdges g node L).n_edges l → u ∈ g.n_edges l := by
  induction L with
  | nil => intro g l u h; exact h
  | cons a as ih =>
    intro g l u h
    have hstep : deleteEdges g node (a :: as)
        = deleteEdges (oc_delete_n_edge g node a false) node as := rfl
    rw [hstep] at h
    have h2 := ih _ l u h
    simp only [delete_n_edges] at h2
    by_cases hl : l = a
    · subst hl
      rw [upd_same] at h2
      exact removeFirst_subset node _ u h2
    · rwa [upd_ne _ _ hl] at h2

theorem createEdges_count_self (node : Nat) (L : List Nat) : ∀ (g : OcGraph) (l : Nat),
    List.count node ((createEdges g node L).n_edges l)
      = List.count node (g.n_edges l) + List.count l L := by
  induction L with
  | nil => intro g l; rw [List.count_nil, Nat.add_zero]; rfl
  | cons a as ih =>
    intro g l
    have hstep : createEdges g node (a :: as)
        = createEdges (oc_create_n_edge g node a) node as := rfl
    rw [hstep, ih]
    simp only [create_n_edges]
    by_cases hl : l = a
    · subst hl
      rw [upd_same, List.count_cons_self, List.count_cons_self]
      omega
    · rw [upd_ne _ _ hl, List.count_cons_of_ne hl]

theorem createEdges_count_ne (node : Nat) (L : List Nat) (u : Nat) (hu : u ≠ node) :
    ∀ (g : OcGraph) (l : Nat),
    List.count u ((createEdges g node L).n_edges l) = List.count u (g.n_edges l) := by
  induction L with
  | nil => intro g l; rfl
  | cons a as ih =>
    intro g l
    have hstep : createEdges g node (a :: as)
        = createEdges (oc_create_n_edge g node a) node as := rfl
    rw [hstep, ih]
    simp only [create_n_edges]
    by_cases hl : l = a
    · subst hl
      rw [upd_same, List.count_cons_of_ne hu]
    · rw [upd_ne _ _ hl]

theorem createEdges_n_subset (node : Nat) (L : List Nat) : ∀ (g : OcGraph) (l u : Nat),
    u ∈ (createEdges g node L).n_edges l → u ∈ g.n_edges l ∨ u = node := by
  induction L with
  | nil => intro g l u h; exact Or.inl h
  | cons a as ih =>
    intro g l u h
    have hstep : createEdges g node (a :: as)
        = createEdges (oc_create_n_edge g node a) node as := rfl
    rw [hstep] at h
    rcases ih _ l u h with h2 | h2
    · simp only [create_n_edges] at h2
      by_cases hl : l = a
      · subst hl
        rw [upd_same] at h2
        rcases List.mem_cons.mp h2 with hc | hc
        · exact Or.inr hc
        · exact Or.inl hc
      · rw [upd_ne _ _ hl] at h2
        exact Or.inl h2
    · exact Or.inr h2

theorem cascadeFold_count (L : List Nat) : ∀ (g : OcGraph),
    (∀ u ∈ L, g.mblocks ≤ u) → ∀ r,
    (L.foldl cascadeBody g).edge_count r
      = g.edge_count r - List.count (g.mblocks + r) L := by
  induction L with
  | nil => intro g _ r; rw [List.count_nil, Nat.sub_zero]; rfl
  | cons u us ih =>
    intro g hub r
    rw [List.foldl_cons]
    have hmb : (cascadeBody g u).mblocks = g.mblocks := cascadeBody_mblocks g u
    have hub2 : ∀ x ∈ us, (cascadeBody g u).mblocks ≤ x := by
      intro x hx
      rw [hmb]
      exact hub x (List.mem_cons_of_mem u hx)
    have h2 := ih (cascadeBody g u) hub2 r
    rw [hmb] at h2
    rw [h2]
    simp only [cascadeBody_edge_count]
    have humb : g.mblocks ≤ u := hub u (List.mem_cons_self u us)
    by_cases hr : u = g.mblocks + r
    · have hr2 : u - g.mblocks = r := by omega
      rw [hr2, upd_same, ← hr, List.count_cons_self]
      omega
    · have hr2 : u - g.mblocks ≠ r := by omega
      rw [upd_ne _ _ (fun hc => hr2 hc.symm), List.count_cons_of_ne (fun hc => hr hc.symm)]

theorem cascadeFold_pending_subset (L : List Nat) : ∀ (g : OcGraph) (x : Nat),
    x ∈ (L.foldl cascadeBody g).pending → x ∈ g.pending ∨ x ∈ L := by
  induction L with
  | nil => intro g x h; exact Or.inl h
  | cons u us ih =>
    intro g x h
    rw [List.foldl_cons] at h
    rcases ih _ x h with h2 | h2
    · rw [cascadeBody_pending] at h2
      rcases List.mem_append.mp h2 with h3 | h3
      · exact Or.inl h3
      · right
        by_cases hc : g.edge_count (u - g.mblocks) - 1 < 2
        · rw [if_pos hc] at h3
          rw [List.mem_singleton.mp h3]
          exact List.mem_cons_self u us
        · rw [if_neg hc] at h3
          cases h3
    · exact Or.inr (List.mem_cons_of_mem u h2)

theorem cascadeFold_solved (L : List Nat) (g : OcGraph) :
    (L.foldl cascadeBody g).solved = g.solved :=
  foldl_field_eq (fun h b => cascadeBody_solved h b) L g

theorem cascadeFold_n_edges (L : List Nat) (g : OcGraph) :
    (L.foldl cascadeBody g).n_edges = g.n_edges :=
  foldl_field_eq (fun h b => cascadeBody_n_edges h b) L g

theorem cascadeFold_v_edges (L : List Nat) (g : OcGraph) :
    (L.foldl cascadeBody g).v_edges = g.v_edges :=
  foldl_field_eq (fun h b => cascadeBody_v_edges h b) L g

theorem cascadeFold_xor_list (L : List Nat) (g : OcGraph) :
    (L.foldl cascadeBody g).xor_list = g.xor_list :=
  foldl_field_eq (fun h b => cascadeBody_xor_list h b) L g

theorem cascadeFold_mblocks (L : List Nat) (g : OcGraph) :
    (L.foldl cascadeBody g).mblocks = g.mblocks :=
  foldl_field_eq (fun h b => cascadeBody_mblocks h b) L g

theorem cascadeFold_coblocks (L : List Nat) (g : OcGraph) :
    (L.foldl cascadeBody g).coblocks = g.coblocks :=
  foldl_field_eq (fun h b => cascadeBody_coblocks h b) L g

theorem cascadeFold_nodes (L : List Nat) (g : OcGraph) :
    (L.foldl cascadeBody g).nodes = g.nodes :=
  foldl_field_eq (fun h b => cascadeBody_nodes h b) L g

theorem cascadeFold_done (L : List Nat) (g : OcGraph) :
    (L.foldl cascadeBody g).done = g.done :=
  foldl_field_eq (fun h b => cascadeBody_done h b) L g

theorem cascadeFold_unsolved_count (L : List Nat) (g : OcGraph) :
    (L.foldl cascadeBody g).unsolved_count = g.unsolved_count :=
  foldl_field_eq (fun h b => cascadeBody_unsolved_count h b) L g

theorem cascadeFold_ablocks (L : List Nat) (g : OcGraph) :
    (L.foldl cascadeBody g).ablocks = g.ablocks :=
  foldl_field_eq (fun h b => cascadeBody_ablocks h b) L g

theorem cascadeFold_node_space (L : List Nat) (g : OcGraph) :
    (L.foldl cascadeBody g).node_space = g.node_space :=
  foldl_field_eq (fun h b => cascadeBody_node_space h b) L g

theorem stage3_untouched (P : List (Nat × Nat)) : ∀ (g : OcGraph) (r : Nat),
    (∀ p ∈ P, p.2 - g.mblocks ≠ r) →
    (stage3 g P).v_edges r = g.v_edges r ∧ (stage3 g P).edge_count r = g.edge_count r := by
  induction P with
  | nil => intro g r _; exact ⟨rfl, rfl⟩
  | cons p ps ih =>
    intro g r hp
    have hstep : stage3 g (p :: ps) = stage3 (stage3Body g p) ps := rfl
    have hm : (stage3Body g p).mblocks = g.mblocks := rfl
    have hne : p.2 - g.mblocks ≠ r := hp p (List.mem_cons_self p ps)
    obtain ⟨ihv, ihe⟩ := ih (stage3Body g p) r (by
      intro x hx
      rw [hm]
      exact hp x (List.mem_cons_of_mem p hx))
    rw [hstep, ihv, ihe]
    constructor
    · show upd g.v_edges (p.2 - g.mblocks) _ r = g.v_edges r
      rw [upd_ne _ _ (fun hc => hne hc.symm)]
    · show upd g.edge_count (p.2 - g.mblocks) _ r = g.edge_count r
      rw [upd_ne _ _ (fun hc => hne hc.symm)]

/-- Joint field description of `initGraph`: the three passes leave every
auxiliary slot `a < ablocks` with its edge count, a v-edge array holding
the mapped messages in reverse map order, every slot past the auxiliary
range untouched, the reciprocal up-edges on the n-edge lists, and the
remaining fields at their zeroed initial values. -/
theorem initGraph_spec (mb ab cs q : Nat) (map : List Nat)
    (hrange : ∀ x ∈ map, mb ≤ x ∧ x < mb + ab) :
    (∀ a, a < ab →
      (initGraph mb ab cs q map).edge_count a
          = ((auxPairs q (map.take (mb * q))).filter (fun p => p.2 = mb + a)).length
      ∧ ∃ arr, (initGraph mb ab cs q map).v_edges a = some arr
          ∧ arr.headD 0 = ((auxPairs q (map.take (mb * q))).filter (fun p => p.2 = mb + a)).length
          ∧ arr.length = ((auxPairs q (map.take (mb * q))).filter (fun p => p.2 = mb + a)).length + 1
          ∧ entriesOf arr
              = (((auxPairs q (map.take (mb * q))).filter (fun p => p.2 = mb + a)).map Prod.fst).reverse)
    ∧ (∀ a, ab ≤ a → (initGraph mb ab cs q map).v_edges a = none
        ∧ (initGraph mb ab cs q map).edge_count a = 0)
    ∧ (∀ l, (initGraph mb ab cs q map).n_edges l
        = (((auxPairs q (map.take (mb * q))).filter (fun p => p.1 = l)).map Prod.snd).reverse)
    ∧ (initGraph mb ab cs q map).solved = (fun _ => false)
    ∧ (initGraph mb ab cs q map).xor_list = (fun _ => none)
    ∧ (initGraph mb ab cs q map).pending = []
    ∧ (initGraph mb ab cs q map).done = false
    ∧ (initGraph mb ab cs q map).mblocks = mb
    ∧ (initGraph mb ab cs q map).ablocks = ab
    ∧ (initGraph mb ab cs q map).coblocks = mb + ab
    ∧ (initGraph mb ab cs q map).nodes = mb + ab
    ∧ (initGraph mb ab cs q map).unsolved_count = mb
    ∧ (initGraph mb ab cs q map).node_space = (mb + ab) + cs := by
  have hrangeP : ∀ p ∈ auxPairs q (map.take (mb * q)), mb ≤ p.2 ∧ p.2 < mb + ab :=
    fun p hp => hrange p.2 (List.take_subset _ _ (auxPairs_snd_mem q _ p hp))
  have hinit : initGraph mb ab cs q map
      = stage3 (stage2 (stage1 (baseGraph mb ab cs) (auxPairs q (map.take (mb * q)))))
          (auxPairs q (map.take (mb * q))) := rfl
  rw [hinit]
  obtain ⟨s1m, s1e, s1n, s1v, s1s, s1u, s1no, s1x, s1d, s1p, s1a, s1c⟩ :=
    stage1_spec (auxPairs q (map.take (mb * q))) (baseGraph mb ab cs)
  have s1e2 : ∀ r, (stage1 (baseGraph mb ab cs) (auxPairs q (map.take (mb * q)))).edge_count r
      = 2 * ((auxPairs q (map.take (mb * q))).filter (fun p => p.2 - mb = r)).length := by
    intro r
    have h2 : (stage1 (baseGraph mb ab cs) (auxPairs q (map.take (mb * q)))).edge_count r
        = 0 + 2 * ((auxPairs q (map.take (mb * q))).filter (fun p => p.2 - mb = r)).length :=
      s1e r
    rw [Nat.zero_add] at h2
    exact h2
  have s1ab : (stage1 (baseGraph mb ab cs) (auxPairs q (map.take (mb * q)))).ablocks = ab := s1a
  obtain ⟨e2, v2, vn2⟩ := stage2_fold
    (List.range (stage1 (baseGraph mb ab cs) (auxPairs q (map.take (mb * q)))).ablocks)
    (stage1 (baseGraph mb ab cs) (auxPairs q (map.take (mb * q))))
    (List.nodup_range _)
  have e2' : (stage2 (stage1 (baseGraph mb ab cs) (auxPairs q (map.take (mb * q))))).edge_count
      = (stage1 (baseGraph mb ab cs) (auxPairs q (map.take (mb * q)))).edge_count := e2
  have v2' : ∀ a ∈ List.range (stage1 (baseGraph mb ab cs) (auxPairs q (map.take (mb * q)))).ablocks,
      (stage2 (stage1 (baseGraph mb ab cs) (auxPairs q (map.take (mb * q))))).v_edges a
        = some (((stage1 (baseGraph mb ab cs) (auxPairs q (map.take (mb * q)))).edge_count a / 2)
            :: List.replicate ((stage1 (baseGraph mb ab cs) (auxPairs q (map.take (mb * q)))).edge_count a / 2) 0) := v2
  have vn2' : ∀ a, a ∉ List.range (stage1 (baseGraph mb ab cs) (auxPairs q (map.take (mb * q)))).ablocks →
      (stage2 (stage1 (baseGraph mb ab cs) (auxPairs q (map.take (mb * q))))).v_edges a
        = (stage1 (baseGraph mb ab cs) (auxPairs q (map.take (mb * q)))).v_edges a := vn2
  have hg2m : (stage2 (stage1 (baseGraph mb ab cs) (auxPairs q (map.take (mb * q))))).mblocks = mb := by
    rw [stage2_mblocks]
    exact s1m
  refine ⟨?_, ?_, ?_, ?_, ?_, ?_, ?_, ?_, ?_, ?_, ?_, ?_, ?_⟩
  · intro a ha
    have hfila : (auxPairs q (map.take (mb * q))).filter (fun p => p.2 - mb = a)
        = (auxPairs q (map.take (mb * q))).filter (fun p => p.2 = mb + a) := by
      apply List.filter_congr
      intro p hp
      have hr := (hrangeP p hp).1
      rw [decide_eq_decide]
      omega
    have hcnt : (stage1 (baseGraph mb ab cs) (auxPairs q (map.take (mb * q)))).edge_count a
        = 2 * ((auxPairs q (map.take (mb * q))).filter (fun p => p.2 = mb + a)).length := by
      rw [s1e2 a, hfila]
    have hdiv : (stage1 (baseGraph mb ab cs) (auxPairs q (map.take (mb * q)))).edge_count a / 2
        = ((auxPairs q (map.take (mb * q))).filter (fun p => p.2 = mb + a)).length := by
      rw [hcnt]
      exact Nat.mul_div_cancel_left _ (by norm_num)
    have hmem : a ∈ List.range (stage1 (baseGraph mb ab cs) (auxPairs q (map.take (mb * q)))).ablocks := by
      rw [s1ab]
      exact List.mem_range.mpr ha
    have hv2a := v2' a hmem
    rw [hdiv] at hv2a
    obtain ⟨sv, se⟩ := stage3_slot (auxPairs q (map.take (mb * q)))
      (stage2 (stage1 (baseGraph mb ab cs) (auxPairs q (map.take (mb * q)))))
      a (((auxPairs q (map.take (mb * q))).filter (fun p => p.2 = mb + a)).length)
      (List.replicate (((auxPairs q (map.take (mb * q))).filter (fun p => p.2 = mb + a)).length) 0)
      hv2a
      (by rw [hg2m, List.length_replicate, hfila])
      (by rw [e2', hg2m, hfila, hcnt]; omega)
    rw [hg2m] at sv
    rw [hfila] at sv
    have hbufdrop : (((auxPairs q (map.take (mb * q))).filter (fun p => p.2 = mb + a)).map Prod.fst).reverse
          ++ (List.replicate (((auxPairs q (map.take (mb * q))).filter (fun p => p.2 = mb + a)).length) 0).drop
            (((auxPairs q (map.take (mb * q))).filter (fun p => p.2 = mb + a)).length)
        = (((auxPairs q (map.take (mb * q))).filter (fun p => p.2 = mb + a)).map Prod.fst).reverse := by
      rw [List.drop_replicate, Nat.sub_self, List.replicate_zero, List.append_nil]
    rw [hbufdrop] at sv
    refine ⟨se, ⟨_, sv, rfl, ?_, ?_⟩⟩
    · rw [List.length_cons, List.length_reverse, List.length_map]
    · rw [entriesOf]
      simp only [List.headD_cons, List.drop_succ_cons, List.drop_zero]
      exact List.take_of_length_le (by rw [List.length_reverse, List.length_map])
  · intro a ha
    have hnop : ∀ p ∈ auxPairs q (map.take (mb * q)),
        p.2 - (stage2 (stage1 (baseGraph mb ab cs) (auxPairs q (map.take (mb * q))))).mblocks ≠ a := by
      intro p hp
      rw [hg2m]
      have := hrangeP p hp
      omega
    obtain ⟨huv, hue⟩ := stage3_untouched (auxPairs q (map.take (mb * q)))
      (stage2 (stage1 (baseGraph mb ab cs) (auxPairs q (map.take (mb * q))))) a hnop
    constructor
    · rw [huv, vn2' a (by
        intro hc
        rw [s1ab] at hc
        exact absurd (List.mem_range.mp hc) (not_lt.mpr ha)), s1v]
      rfl
    · rw [hue, e2', s1e2]
      have hfil0 : ((auxPairs q (map.take (mb * q))).filter (fun p => p.2 - mb = a)) = [] := by
        rw [List.filter_eq_nil_iff]
        intro p hp
        have := hrangeP p hp
        simp only [decide_eq_true_eq]
        omega
      rw [hfil0]
      rfl
  · intro l
    rw [stage3_n_edges, stage2_n_edges]
    have h2 : (stage1 (baseGraph mb ab cs) (auxPairs q (map.take (mb * q)))).n_edges l
        = (((auxPairs q (map.take (mb * q))).filter (fun p => p.1 = l)).map Prod.snd).reverse ++ [] :=
      s1n l
    rw [List.append_nil] at h2
    exact h2
  · rw [stage3_solved, stage2_solved, s1s]
    rfl
  · rw [stage3_xor_list, stage2_xor_list, s1x]
    rfl
  · rw [stage3_pending, stage2_pending, s1p]
    rfl
  · rw [stage3_done, stage2_done, s1d]
    rfl
  · rw [stage3_mblocks, stage2_mblocks, s1m]; rfl
  · rw [stage3_ablocks, stage2_ablocks, s1a]; rfl
  · rw [stage3_coblocks, stage2_coblocks, s1c]; rfl
  · rw [stage3_nodes, stage2_nodes, s1no]; rfl
  · rw [stage3_unsolved_count, stage2_unsolved_count, s1u]; rfl
  · rw [stage3_node_space, stage2_node_space]
    have : (stage1 (baseGraph mb ab cs) (auxPairs q (map.take (mb * q)))).node_space
        = (baseGraph mb ab cs).node_space :=
      foldl_field_eq (by intro h b; rfl) _ _
    rw [this]
    rfl

theorem auxPairs_fst_lt (q mb : Nat) (mp : List Nat) (hlen : mp.length ≤ mb * q) :
    ∀ p ∈ auxPairs q mp, p.1 < mb := by
  intro p hp
  rw [auxPairs] at hp
  obtain ⟨ja, hja, rfl⟩ := List.mem_map.mp hp
  rw [List.enum_eq_zip_range] at hja
  have hj1 : ja.1 ∈ List.range mp.length := (List.of_mem_zip hja).1
  have hjlt : ja.1 < mp.length := List.mem_range.mp hj1
  have hq : 0 < q := by
    rcases Nat.eq_zero_or_pos q with h0 | h0
    · subst h0
      omega
    · exact h0
  have : ja.1 < mb * q := by omega
  exact Nat.div_lt_of_lt_mul (by rw [Nat.mul_comm q mb]; omega)

theorem count_snd_filter (l u : Nat) : ∀ (P : List (Nat × Nat)),
    List.count u ((P.filter (fun p => p.1 = l)).map Prod.snd)
      = (P.filter (fun p => p.1 = l ∧ p.2 = u)).length := by
  intro P
  induction P with
  | nil => rfl
  | cons p ps ih =>
    by_cases h1 : p.1 = l
    · by_cases h2 : p.2 = u
      · rw [List.filter_cons_of_pos (by rw [h1]; simp),
          List.filter_cons_of_pos (by rw [h1, h2]; simp), List.map_cons, h2,
          List.count_cons_self, List.length_cons, ih]
      · rw [List.filter_cons_of_pos (by rw [h1]; simp),
          List.filter_cons_of_neg (by simp [h1, h2]), List.map_cons,
          List.count_cons_of_ne (fun hc => h2 hc.symm), ih]
    · rw [List.filter_cons_of_neg (by simp [h1]),
        List.filter_cons_of_neg (by simp [h1]), ih]

theorem count_fst_filter (l w : Nat) : ∀ (P : List (Nat × Nat)),
    List.count l ((P.filter (fun p => p.2 = w)).map Prod.fst)
      = (P.filter (fun p => p.1 = l ∧ p.2 = w)).length := by
  intro P
  induction P with
  | nil => rfl
  | cons p ps ih =>
    by_cases h2 : p.2 = w
    · by_cases h1 : p.1 = l
      · rw [List.filter_cons_of_pos (by rw [h2]; simp),
          List.filter_cons_of_pos (by rw [h1, h2]; simp), List.map_cons, h1,
          List.count_cons_self, List.length_cons, ih]
      · rw [List.filter_cons_of_pos (by rw [h2]; simp),
          List.filter_cons_of_neg (by simp [h1]), List.map_cons,
          List.count_cons_of_ne (fun hc => h1 hc.symm), ih]
    · rw [List.filter_cons_of_neg (by simp [h2]),
        List.filter_cons_of_neg (by simp [h2]), ih]

/-- A successful `oc_graph_init` on a well-ranged auxiliary map
establishes the joint invariant. -/
theorem init_GInv (mb ab cs q : Nat) (map : List Nat)
    (hrange : ∀ x ∈ map, mb ≤ x ∧ x < mb + ab) :
    GInv (initGraph mb ab cs q map) := by
  obtain ⟨hslots, htail, hn, hsol, hxor, hpend, hdone, hm, ha, hc, hno, hu, hns⟩ :=
    initGraph_spec mb ab cs q map hrange
  have hrangeP : ∀ p ∈ auxPairs q (map.take (mb * q)), mb ≤ p.2 ∧ p.2 < mb + ab :=
    fun p hp => hrange p.2 (List.take_subset _ _ (auxPairs_snd_mem q _ p hp))
  have hfstP : ∀ p ∈ auxPairs q (map.take (mb * q)), p.1 < mb :=
    auxPairs_fst_lt q mb (map.take (mb * q)) (List.length_take_le _ _)
  refine ⟨?_, ?_, ?_, ?_, ?_, ?_, ?_, ?_, ?_, ?_, ?_, ?_, ?_, ?_⟩
  · rw [hm, hc]
    exact Nat.le_add_right mb ab
  · rw [hc, hno]
  · intro h
    rw [hdone] at h
    cases h
  · intro x hx
    rw [hpend] at hx
    cases hx
  · intro l x hx
    rw [hn l, List.mem_reverse, List.mem_map] at hx
    obtain ⟨p, hp, rfl⟩ := hx
    have h2 := hrangeP p (List.mem_of_mem_filter hp)
    rw [hm, hno]
    exact h2
  · intro r hr
    rw [hno, hm] at hr
    exact (htail r (by omega)).1
  · intro r arr harr
    by_cases hra : r < ab
    · obtain ⟨_, arr0, hv0, hh0, hl0, _⟩ := hslots r hra
      rw [harr] at hv0
      have heq : arr = arr0 := Option.some.inj hv0
      subst heq
      rw [hh0, hl0]
    · rw [(htail r (by omega)).1] at harr
      cases harr
  · intro r arr harr d hd
    by_cases hra : r < ab
    · obtain ⟨_, arr0, hv0, _, _, he0⟩ := hslots r hra
      rw [harr] at hv0
      have heq : arr = arr0 := Option.some.inj hv0
      subst heq
      rw [he0, List.mem_reverse, List.mem_map] at hd
      obtain ⟨p, hp, rfl⟩ := hd
      have h2 := hfstP p (List.mem_of_mem_filter hp)
      rw [hc]
      omega
    · rw [(htail r (by omega)).1] at harr
      cases harr
  · intro u l
    rw [hn l, List.count_reverse, count_snd_filter]
    by_cases hu2 : u < mb
    · rw [vCount_low _ u l mb hm hu2]
      have : ((auxPairs q (map.take (mb * q))).filter (fun p => p.1 = l ∧ p.2 = u)) = [] := by
        rw [List.filter_eq_nil_iff]
        intro p hp
        have h2 := hrangeP p hp
        simp only [decide_eq_true_eq, not_and]
        omega
      rw [this]
      rfl
    · by_cases hra : u - mb < ab
      · obtain ⟨_, arr0, hv0, _, _, he0⟩ := hslots (u - mb) hra
        rw [vCount_some _ u l mb arr0 hm hu2 hv0, he0, List.count_reverse, count_fst_filter]
        have hmbu : mb + (u - mb) = u := by omega
        rw [hmbu]
      · rw [vCount_none _ u l mb hm hu2 (htail (u - mb) (by omega)).1]
        have : ((auxPairs q (map.take (mb * q))).filter (fun p => p.1 = l ∧ p.2 = u)) = [] := by
          rw [List.filter_eq_nil_iff]
          intro p hp
          have h2 := hrangeP p hp
          simp only [decide_eq_true_eq, not_and]
          omega
        rw [this]
        rfl
  · intro _ r arr harr
    by_cases hra : r < ab
    · obtain ⟨he, arr0, hv0, hh0, _, hent0⟩ := hslots r hra
      rw [harr] at hv0
      have heq : arr = arr0 := Option.some.inj hv0
      subst heq
      rw [he, hsol, unsolvedCount_of_all_unsolved _ _ (fun d _ => rfl), hent0,
        List.length_reverse, List.length_map]
    · rw [(htail r (by omega)).1] at harr
      cases harr
  · intro n _ _
    rw [hxor]
  · intro n _ hs
    rw [hsol] at hs
    cases hs
  · intro c xs _ hx
    rw [hxor] at hx
    cases hx
  · intro n xs hx
    rw [hxor] at hx
    cases hx

theorem createEdges_field_coblocks (g : OcGraph) (node : Nat) (L : List Nat) :
    (createEdges g node L).coblocks = g.coblocks :=
  foldl_field_eq (by intro h b; rfl) _ _

theorem createEdges_field_ablocks (g : OcGraph) (node : Nat) (L : List Nat) :
    (createEdges g node L).ablocks = g.ablocks :=
  foldl_field_eq (by intro h b; rfl) _ _

theorem createEdges_field_node_space (g : OcGraph) (node : Nat) (L : List Nat) :
    (createEdges g node L).node_space = g.node_space :=
  foldl_field_eq (by intro h b; rfl) _ _

theorem createEdges_field_done (g : OcGraph) (node : Nat) (L : List Nat) :
    (createEdges g node L).done = g.done :=
  foldl_field_eq (by intro h b; rfl) _ _

theorem createEdges_field_unsolved_count (g : OcGraph) (node : Nat) (L : List Nat) :
    (createEdges g node L).unsolved_count = g.unsolved_count :=
  foldl_field_eq (by intro h b; rfl) _ _

theorem createEdges_field_solved (g : OcGraph) (node : Nat) (L : List Nat) :
    (createEdges g node L).solved = g.solved :=
  foldl_field_eq (by intro h b; rfl) _ _

/-- `oc_graph_check_block` on a well-formed array of lower-node indices
preserves the joint invariant. -/
theorem check_GInv (g : OcGraph) (v : List Nat) (hG : GInv g)
    (hwfv : v.headD 0 + 1 <= v.length)
    (hlowv : forall d, d ∈ entriesOf v -> d < g.coblocks) :
    GInv (oc_graph_check_block g v).1 := by
  by_cases hsp : g.node_space <= g.nodes
  · have hres : (oc_graph_check_block g v).1 = { g with nodes := g.nodes + 1 } := by
      simp only [oc_graph_check_block]
      rw [if_pos hsp]
    rw [hres]
    refine ⟨hG.mb_co, ?_, hG.done0, ?_, ?_, ?_, hG.vwf, hG.vlow, hG.recip, hG.ecount,
      hG.xnone, hG.xsolved, hG.xcheck, hG.xentries⟩
    · exact Nat.le_succ_of_le hG.co_nodes
    · intro u hu
      obtain ⟨h1, h2⟩ := hG.pend u hu
      exact ⟨h1, Nat.lt_succ_of_lt h2⟩
    · intro l u hu
      obtain ⟨h1, h2⟩ := hG.nup l u hu
      exact ⟨h1, Nat.lt_succ_of_lt h2⟩
    · intro r hr
      have hr2 : g.nodes + 1 ≤ g.mblocks + r := hr
      exact hG.vfresh r (by omega)
  · have hne : ¬(({ g with nodes := g.nodes + 1 } : OcGraph).node_space <= g.nodes) := hsp
    have hmbn : g.mblocks <= g.nodes := le_trans hG.mb_co hG.co_nodes
    have hcon : g.coblocks <= g.nodes := hG.co_nodes
    have hW : ((v.drop 1).take (v.headD 0)).length = v.headD 0 := by
      rw [List.length_take, List.length_drop]
      omega
    have hdrop1 : (v.set 0 (v.headD 0 - ((v.drop 1).take (v.headD 0)).countP (fun t => g.solved t))).drop 1 = v.drop 1 := by
      rw [List.drop_set, if_pos Nat.one_pos]
    obtain ⟨hl1, hu1, hxsp, hnsp, hslice⟩ := checkLoop_spec g.solved (v.headD 0)
      (v.set 0 (v.headD 0 - ((v.drop 1).take (v.headD 0)).countP (fun t => g.solved t))) 1 (v.headD 0) (le_refl 1) (by omega)
      (by rw [List.length_set]; omega)
    rw [hdrop1] at hxsp hnsp
    have hhead : (checkLoop g.solved (v.headD 0) (v.set 0 (v.headD 0 - ((v.drop 1).take (v.headD 0)).countP (fun t => g.solved t))) 1 (v.headD 0)).1.getD 0 0 = v.headD 0 - ((v.drop 1).take (v.headD 0)).countP (fun t => g.solved t) := by
      rw [hu1 0 (Or.inl Nat.one_pos)]
      rw [List.getD_eq_getElem?_getD, List.getElem?_set_self (by omega), Option.getD_some]
    have hslen : (checkLoop g.solved (v.headD 0) (v.set 0 (v.headD 0 - ((v.drop 1).take (v.headD 0)).countP (fun t => g.solved t))) 1 (v.headD 0)).1.length = v.length := by
      rw [hl1, List.length_set]
    have hcsum : v.headD 0
        = ((v.drop 1).take (v.headD 0)).countP (fun t => g.solved t) + ((v.drop 1).take (v.headD 0)).countP (fun d => !g.solved d) := by
      conv_lhs => rw [← hW, List.length_eq_countP_add_countP (fun t => g.solved t)]
      congr 1
      apply List.countP_congr
      intro a _
      cases g.solved a <;> simp
    have hnslen : (checkLoop g.solved (v.headD 0) (v.set 0 (v.headD 0 - ((v.drop 1).take (v.headD 0)).countP (fun t => g.solved t))) 1 (v.headD 0)).2.2.length = v.headD 0 - ((v.drop 1).take (v.headD 0)).countP (fun t => g.solved t) := by
      rw [hnsp.length_eq, ← List.countP_eq_length_filter]
      omega
    have hentries : entriesOf (checkLoop g.solved (v.headD 0) (v.set 0 (v.headD 0 - ((v.drop 1).take (v.headD 0)).countP (fun t => g.solved t))) 1 (v.headD 0)).1 = (checkLoop g.solved (v.headD 0) (v.set 0 (v.headD 0 - ((v.drop 1).take (v.headD 0)).countP (fun t => g.solved t))) 1 (v.headD 0)).2.2 := by
      rw [hnslen] at hslice
      rw [entriesOf, headD_eq_getD, hhead]
      exact hslice
    have hUmem : forall d, d ∈ (checkLoop g.solved (v.headD 0) (v.set 0 (v.headD 0 - ((v.drop 1).take (v.headD 0)).countP (fun t => g.solved t))) 1 (v.headD 0)).2.2 -> g.solved d = false ∧ d < g.coblocks := by
      intro d hd
      have hd2 := hnsp.mem_iff.mp hd
      rw [List.mem_filter] at hd2
      refine ⟨?_, hlowv d hd2.1⟩
      have hb := hd2.2
      revert hb
      cases g.solved d <;> simp
    have hSmem : forall d, d ∈ (checkLoop g.solved (v.headD 0) (v.set 0 (v.headD 0 - ((v.drop 1).take (v.headD 0)).countP (fun t => g.solved t))) 1 (v.headD 0)).2.1 -> g.solved d = true := by
      intro d hd
      have hd2 := hxsp.mem_iff.mp hd
      rw [List.mem_filter] at hd2
      exact hd2.2
    have hnodes2 : (oc_graph_check_block g v).1.nodes = g.nodes + 1 := by
      simp only [oc_graph_check_block]
      rw [if_neg hne]
      simp only [createEdges_field_nodes]
    have hm2 : (oc_graph_check_block g v).1.mblocks = g.mblocks := by
      simp only [oc_graph_check_block]
      rw [if_neg hne]
      simp only [createEdges_field_mblocks]
    have hco2 : (oc_graph_check_block g v).1.coblocks = g.coblocks := by
      simp only [oc_graph_check_block]
      rw [if_neg hne]
      simp only [createEdges_field_coblocks]
    have hdone2 : (oc_graph_check_block g v).1.done = g.done := by
      simp only [oc_graph_check_block]
      rw [if_neg hne]
      simp only [createEdges_field_done]
    have hun2 : (oc_graph_check_block g v).1.unsolved_count = g.unsolved_count := by
      simp only [oc_graph_check_block]
      rw [if_neg hne]
      simp only [createEdges_field_unsolved_count]
    have hsol2 : (oc_graph_check_block g v).1.solved = g.solved := by
      simp only [oc_graph_check_block]
      rw [if_neg hne]
      simp only [createEdges_field_solved]
    have hpend2 : (oc_graph_check_block g v).1.pending = g.pending ++ [g.nodes] := by
      simp only [oc_graph_check_block]
      rw [if_neg hne]
      simp only [createEdges_field_pending]
    have hxor2 : (oc_graph_check_block g v).1.xor_list
        = upd g.xor_list g.nodes (some ((((v.drop 1).take (v.headD 0)).countP (fun t => g.solved t) + 1) :: g.nodes :: (checkLoop g.solved (v.headD 0) (v.set 0 (v.headD 0 - ((v.drop 1).take (v.headD 0)).countP (fun t => g.solved t))) 1 (v.headD 0)).2.1)) := by
      simp only [oc_graph_check_block]
      rw [if_neg hne]
      simp only [createEdges_field_xor]
    have hv2 : (oc_graph_check_block g v).1.v_edges
        = upd g.v_edges (g.nodes - g.mblocks) (some (checkLoop g.solved (v.headD 0) (v.set 0 (v.headD 0 - ((v.drop 1).take (v.headD 0)).countP (fun t => g.solved t))) 1 (v.headD 0)).1) := by
      simp only [oc_graph_check_block]
      rw [if_neg hne]
      simp only [createEdges_field_v, createEdges_field_mblocks]
    have he2 : (oc_graph_check_block g v).1.edge_count
        = upd g.edge_count (g.nodes - g.mblocks) ((checkLoop g.solved (v.headD 0) (v.set 0 (v.headD 0 - ((v.drop 1).take (v.headD 0)).countP (fun t => g.solved t))) 1 (v.headD 0)).1.headD 0) := by
      simp only [oc_graph_check_block]
      rw [if_neg hne]
      simp only [createEdges_field_edge_count, createEdges_field_mblocks]
    have hn2 : (oc_graph_check_block g v).1.n_edges
        = (createEdges { g with nodes := g.nodes + 1, xor_list := upd g.xor_list g.nodes (some ((((v.drop 1).take (v.headD 0)).countP (fun t => g.solved t) + 1) :: g.nodes :: (checkLoop g.solved (v.headD 0) (v.set 0 (v.headD 0 - ((v.drop 1).take (v.headD 0)).countP (fun t => g.solved t))) 1 (v.headD 0)).2.1)) } g.nodes (checkLoop g.solved (v.headD 0) (v.set 0 (v.headD 0 - ((v.drop 1).take (v.headD 0)).countP (fun t => g.solved t))) 1 (v.headD 0)).2.2).n_edges := by
      simp only [oc_graph_check_block]
      rw [if_neg hne]
    have hcnt_self : forall l, List.count g.nodes ((oc_graph_check_block g v).1.n_edges l)
        = List.count g.nodes (g.n_edges l) + List.count l (checkLoop g.solved (v.headD 0) (v.set 0 (v.headD 0 - ((v.drop 1).take (v.headD 0)).countP (fun t => g.solved t))) 1 (v.headD 0)).2.2 := by
      intro l
      rw [hn2, createEdges_count_self]
    have hcnt_ne : forall l u, u ≠ g.nodes ->
        List.count u ((oc_graph_check_block g v).1.n_edges l) = List.count u (g.n_edges l) := by
      intro l u hu
      rw [hn2, createEdges_count_ne _ _ u hu]
    have hsub : forall l u, u ∈ (oc_graph_check_block g v).1.n_edges l ->
        u ∈ g.n_edges l ∨ u = g.nodes := by
      intro l u hu
      rw [hn2] at hu
      have h3 := createEdges_n_subset _ _ _ l u hu
      exact h3
    have hfreshslot : g.v_edges (g.nodes - g.mblocks) = none :=
      hG.vfresh _ (by omega)
    refine ⟨?_, ?_, ?_, ?_, ?_, ?_, ?_, ?_, ?_, ?_, ?_, ?_, ?_, ?_⟩
    · rw [hm2, hco2]
      exact hG.mb_co
    · rw [hco2, hnodes2]
      exact Nat.le_succ_of_le hG.co_nodes
    · rw [hdone2, hun2]
      exact hG.done0
    · intro u hu
      rw [hpend2] at hu
      rw [hm2, hnodes2]
      rcases List.mem_append.mp hu with h1 | h1
      · obtain ⟨ha, hb⟩ := hG.pend u h1
        exact ⟨ha, by omega⟩
      · rw [List.mem_singleton.mp h1]
        exact ⟨hmbn, by omega⟩
    · intro l u hu
      rw [hm2, hnodes2]
      rcases hsub l u hu with h1 | h1
      · obtain ⟨ha, hb⟩ := hG.nup l u h1
        exact ⟨ha, by omega⟩
      · rw [h1]
        exact ⟨hmbn, by omega⟩
    · intro r hr
      rw [hnodes2, hm2] at hr
      rw [hv2, upd_ne _ _ (show r ≠ g.nodes - g.mblocks from by omega)]
      exact hG.vfresh r (by omega)
    · intro r arr harr
      rw [hv2] at harr
      by_cases hr : r = g.nodes - g.mblocks
      · subst hr
        rw [upd_same] at harr
        have heq : arr = (checkLoop g.solved (v.headD 0) (v.set 0 (v.headD 0 - ((v.drop 1).take (v.headD 0)).countP (fun t => g.solved t))) 1 (v.headD 0)).1 := (Option.some.inj harr).symm
        subst heq
        rw [headD_eq_getD, hhead, hslen]
        omega
      · rw [upd_ne _ _ hr] at harr
        exact hG.vwf r arr harr
    · intro r arr harr d hd
      rw [hv2] at harr
      rw [hco2]
      by_cases hr : r = g.nodes - g.mblocks
      · subst hr
        rw [upd_same] at harr
        have heq : arr = (checkLoop g.solved (v.headD 0) (v.set 0 (v.headD 0 - ((v.drop 1).take (v.headD 0)).countP (fun t => g.solved t))) 1 (v.headD 0)).1 := (Option.some.inj harr).symm
        subst heq
        rw [hentries] at hd
        exact (hUmem d hd).2
      · rw [upd_ne _ _ hr] at harr
        exact hG.vlow r arr harr d hd
    · intro u l
      by_cases hu : u = g.nodes
      · subst hu
        rw [hcnt_self l]
        have h0 : List.count g.nodes (g.n_edges l) = 0 := by
          rw [hG.recip g.nodes l,
            vCount_none g g.nodes l g.mblocks rfl (by omega) hfreshslot]
        rw [h0, Nat.zero_add]
        rw [vCount_some (oc_graph_check_block g v).1 g.nodes l g.mblocks (checkLoop g.solved (v.headD 0) (v.set 0 (v.headD 0 - ((v.drop 1).take (v.headD 0)).countP (fun t => g.solved t))) 1 (v.headD 0)).1 hm2
          (by omega) (by rw [hv2, upd_same]), hentries]
      · rw [hcnt_ne l u hu, hG.recip u l]
        by_cases hu2 : u < g.mblocks
        · rw [vCount_low g u l g.mblocks rfl hu2,
            vCount_low (oc_graph_check_block g v).1 u l g.mblocks hm2 hu2]
        · have hslot : (oc_graph_check_block g v).1.v_edges (u - g.mblocks)
              = g.v_edges (u - g.mblocks) := by
            rw [hv2, upd_ne _ _ (show u - g.mblocks ≠ g.nodes - g.mblocks from by omega)]
          cases hvv : g.v_edges (u - g.mblocks) with
          | none =>
            rw [vCount_none g u l g.mblocks rfl hu2 hvv,
              vCount_none (oc_graph_check_block g v).1 u l g.mblocks hm2 hu2 (by rw [hslot, hvv])]
          | some brr =>
            rw [vCount_some g u l g.mblocks brr rfl hu2 hvv,
              vCount_some (oc_graph_check_block g v).1 u l g.mblocks brr hm2 hu2 (by rw [hslot, hvv])]
    · intro hdf r arr harr
      rw [hdone2] at hdf
      rw [hv2] at harr
      rw [he2, hsol2]
      by_cases hr : r = g.nodes - g.mblocks
      · subst hr
        rw [upd_same] at harr
        have heq : arr = (checkLoop g.solved (v.headD 0) (v.set 0 (v.headD 0 - ((v.drop 1).take (v.headD 0)).countP (fun t => g.solved t))) 1 (v.headD 0)).1 := (Option.some.inj harr).symm
        subst heq
        rw [upd_same, hentries, headD_eq_getD, hhead,
          unsolvedCount_of_all_unsolved _ _ (fun d hd => (hUmem d hd).1), hnslen]
      · rw [upd_ne _ _ hr] at harr
        rw [upd_ne _ _ hr]
        exact hG.ecount hdf r arr harr
    · intro n hn hns
      rw [hco2] at hn
      rw [hsol2] at hns
      rw [hxor2, upd_ne _ _ (show n ≠ g.nodes from by omega)]
      exact hG.xnone n hn hns
    · intro n hn hs
      rw [hco2] at hn
      rw [hsol2] at hs
      rw [hxor2, upd_ne _ _ (show n ≠ g.nodes from by omega)]
      exact hG.xsolved n hn hs
    · intro c xs hc hx
      rw [hco2] at hc
      rw [hxor2] at hx
      by_cases hcn : c = g.nodes
      · subst hcn
        rw [upd_same] at hx
        have heq : xs = (((v.drop 1).take (v.headD 0)).countP (fun t => g.solved t) + 1) :: g.nodes :: (checkLoop g.solved (v.headD 0) (v.set 0 (v.headD 0 - ((v.drop 1).take (v.headD 0)).countP (fun t => g.solved t))) 1 (v.headD 0)).2.1 := (Option.some.inj hx).symm
        subst heq
        constructor
        · rw [List.headD_cons]
          omega
        · rw [entriesOf, List.headD_cons, List.drop_succ_cons, List.drop_zero,
            List.take_succ_cons, List.getD_cons_zero]
      · rw [upd_ne _ _ hcn] at hx
        exact hG.xcheck c xs hc hx
    · intro n xs hx d hd
      rw [hxor2] at hx
      rw [hsol2, hco2]
      by_cases hnn : n = g.nodes
      · subst hnn
        rw [upd_same] at hx
        have heq : xs = (((v.drop 1).take (v.headD 0)).countP (fun t => g.solved t) + 1) :: g.nodes :: (checkLoop g.solved (v.headD 0) (v.set 0 (v.headD 0 - ((v.drop 1).take (v.headD 0)).countP (fun t => g.solved t))) 1 (v.headD 0)).2.1 := (Option.some.inj hx).symm
        subst heq
        rw [entriesOf, List.headD_cons, List.drop_succ_cons, List.drop_zero,
          List.take_succ_cons] at hd
        rcases List.mem_cons.mp hd with h1 | h1
        · right
          rw [h1]
          exact hG.co_nodes
        · left
          exact hSmem d (List.take_subset _ _ h1)
      · rw [upd_ne _ _ hnn] at hx
        exact hG.xentries n xs hx d hd

/-- Stable fields of the propagation rule through the decommissioning of
`frm`, with no distinctness assumptions. -/
theorem propDecom_fields0 (g : OcGraph) (frm i : Nat) (arr : List Nat) :
    (propDecom g frm i arr).mblocks = g.mblocks
    ∧ (propDecom g frm i arr).coblocks = g.coblocks
    ∧ (propDecom g frm i arr).ablocks = g.ablocks
    ∧ (propDecom g frm i arr).nodes = g.nodes
    ∧ (propDecom g frm i arr).node_space = g.node_space
    ∧ (propDecom g frm i arr).unsolved_count = g.unsolved_count
    ∧ (propDecom g frm i arr).done = g.done
    ∧ (propDecom g frm i arr).pending = g.pending
    ∧ (propDecom g frm i arr).solved = upd g.solved ((entriesOf arr).getD i 0) true
    ∧ (propDecom g frm i arr).xor_list = upd g.xor_list ((entriesOf arr).getD i 0) (some (oc_propagate_xor ((g.xor_list frm).getD []) ((arr.set (i + 1) (arr.getD (arr.headD 0) 0)).set 0 (arr.headD 0 - 1))))
    ∧ (propDecom g frm i arr).edge_count = upd g.edge_count (frm - g.mblocks) (g.edge_count (frm - g.mblocks) - 1)
    ∧ (propDecom g frm i arr).v_edges = upd g.v_edges (frm - g.mblocks) none := by
  rw [propDecom_eq]
  refine ⟨?_, ?_, ?_, ?_, ?_, ?_, ?_, ?_, ?_, ?_, ?_, ?_⟩
  · rw [deleteEdges_mblocks]; rfl
  · rw [deleteEdges_coblocks]; rfl
  · rw [deleteEdges_ablocks]; rfl
  · rw [deleteEdges_nodes]; rfl
  · rw [deleteEdges_node_space]; rfl
  · rw [deleteEdges_unsolved_count]; rfl
  · rw [deleteEdges_done]; rfl
  · rw [deleteEdges_pending]; rfl
  · rw [deleteEdges_solved]; rfl
  · rw [deleteEdges_xor_list]; rfl
  · rw [deleteEdges_edge_count]; rfl
  · rw [deleteEdges_v_edges]
    show upd (propMark g frm i arr).v_edges (frm - g.mblocks) none
      = upd g.v_edges (frm - g.mblocks) none
    rw [propMark_v_edges, upd_upd_same]

/-- Multiplicity of `frm` on the n-edge lists after the propagation
rule's edge removals: one cell per occurrence of the lower node among
the original entries (the found entry via the targeted deletion, the
rest via the decommissioning). -/
theorem propDecom_count_frm (g : OcGraph) (frm i : Nat) (arr : List Nat) (l : Nat) :
    List.count frm ((propDecom g frm i arr).n_edges l)
      = List.count frm (g.n_edges l)
        - List.count l ((entriesOf arr).getD i 0
            :: entriesOf ((arr.set (i + 1) (arr.getD (arr.headD 0) 0)).set 0 (arr.headD 0 - 1))) := by
  rw [propDecom_eq, deleteEdges_count_self, List.count_reverse]
  by_cases hl : l = (entriesOf arr).getD i 0
  · rw [hl, List.count_cons_self]
    show List.count frm (upd g.n_edges ((entriesOf arr).getD i 0)
        (removeFirst (g.n_edges ((entriesOf arr).getD i 0)) frm)
        ((entriesOf arr).getD i 0)) - _ = _
    rw [upd_same, removeFirst_count_self]
    omega
  · rw [List.count_cons_of_ne hl]
    show List.count frm (upd g.n_edges ((entriesOf arr).getD i 0)
        (removeFirst (g.n_edges ((entriesOf arr).getD i 0)) frm) l) - _ = _
    rw [upd_ne _ _ hl]

theorem propDecom_count_ne (g : OcGraph) (frm i : Nat) (arr : List Nat) (l u : Nat)
    (hu : u ≠ frm) :
    List.count u ((propDecom g frm i arr).n_edges l) = List.count u (g.n_edges l) := by
  rw [propDecom_eq, deleteEdges_count_ne _ _ u hu]
  by_cases hl : l = (entriesOf arr).getD i 0
  · rw [hl]
    show List.count u (upd g.n_edges ((entriesOf arr).getD i 0)
        (removeFirst (g.n_edges ((entriesOf arr).getD i 0)) frm)
        ((entriesOf arr).getD i 0)) = _
    rw [upd_same, removeFirst_count_ne frm u hu]
  · show List.count u (upd g.n_edges ((entriesOf arr).getD i 0)
        (removeFirst (g.n_edges ((entriesOf arr).getD i 0)) frm) l) = _
    rw [upd_ne _ _ hl]

theorem propDecom_subset (g : OcGraph) (frm i : Nat) (arr : List Nat) (l u : Nat)
    (hu : u ∈ (propDecom g frm i arr).n_edges l) : u ∈ g.n_edges l := by
  rw [propDecom_eq] at hu
  have h2 := deleteEdges_n_subset frm _ _ l u hu
  by_cases hl : l = (entriesOf arr).getD i 0
  · rw [hl] at h2 ⊢
    have h3 : u ∈ upd g.n_edges ((entriesOf arr).getD i 0)
        (removeFirst (g.n_edges ((entriesOf arr).getD i 0)) frm)
        ((entriesOf arr).getD i 0) := h2
    rw [upd_same] at h3
    exact removeFirst_subset frm _ u h3
  · have h3 : u ∈ upd g.n_edges ((entriesOf arr).getD i 0)
        (removeFirst (g.n_edges ((entriesOf arr).getD i 0)) frm) l := h2
    rwa [upd_ne _ _ hl] at h3

theorem propDecom_n_tgt (g : OcGraph) (frm i : Nat) (arr : List Nat)
    (htgt0 : (entriesOf arr).getD i 0
      ∉ entriesOf ((arr.set (i + 1) (arr.getD (arr.headD 0) 0)).set 0 (arr.headD 0 - 1))) :
    (propDecom g frm i arr).n_edges ((entriesOf arr).getD i 0)
      = removeFirst (g.n_edges ((entriesOf arr).getD i 0)) frm := by
  rw [propDecom_eq, deleteEdges_not_mem _ _ _ _ (by rw [List.mem_reverse]; exact htgt0)]
  show upd g.n_edges ((entriesOf arr).getD i 0)
      (removeFirst (g.n_edges ((entriesOf arr).getD i 0)) frm)
      ((entriesOf arr).getD i 0) = _
  rw [upd_same]

/-- The tail of the propagation rule: stable fields, and either the
terminal branch (decode finished, queue flushed, counts untouched) or
the cascading branch (counts decremented per up-edge cell of the found
node, queue only extended from known cells). -/
theorem propFinish_spec2 (h : OcGraph) (tgt : Nat)
    (hub : ∀ u ∈ h.n_edges tgt, h.mblocks ≤ u) :
    (propFinish h tgt).1.solved = h.solved
    ∧ (propFinish h tgt).1.xor_list = h.xor_list
    ∧ (propFinish h tgt).1.v_edges = h.v_edges
    ∧ (propFinish h tgt).1.n_edges = h.n_edges
    ∧ (propFinish h tgt).1.mblocks = h.mblocks
    ∧ (propFinish h tgt).1.coblocks = h.coblocks
    ∧ (propFinish h tgt).1.nodes = h.nodes
    ∧ (propFinish h tgt).1.ablocks = h.ablocks
    ∧ (propFinish h tgt).1.node_space = h.node_space
    ∧ (((propFinish h tgt).1.done = true ∧ (propFinish h tgt).1.unsolved_count = 0
        ∧ (propFinish h tgt).1.pending = []
        ∧ (propFinish h tgt).1.edge_count = h.edge_count)
      ∨ ((propFinish h tgt).1.done = h.done
        ∧ (∀ r, (propFinish h tgt).1.edge_count r
            = h.edge_count r - List.count (h.mblocks + r) (h.n_edges tgt))
        ∧ (∀ x ∈ (propFinish h tgt).1.pending,
            x ∈ h.pending ∨ x ∈ h.n_edges tgt ∨ (x = tgt ∧ h.mblocks ≤ tgt)))) := by
  rw [propFinish]
  by_cases htm : tgt < h.mblocks
  · rw [if_pos htm]
    by_cases hu : h.unsolved_count - 1 = 0
    · rw [if_pos hu]
      exact ⟨rfl, rfl, rfl, rfl, rfl, rfl, rfl, rfl, rfl,
        Or.inl ⟨rfl, hu, rfl, rfl⟩⟩
    · rw [if_neg hu]
      refine ⟨cascade_solved _ _, cascade_xor_list _ _, cascade_v_edges _ _,
        cascade_n_edges _ _, cascade_mblocks _ _, cascade_coblocks _ _,
        cascade_nodes _ _, cascade_ablocks _ _, cascade_node_space _ _,
        Or.inr ⟨cascade_done _ _, ?_, ?_⟩⟩
      · intro r
        exact cascadeFold_count (h.n_edges tgt)
          { h with unsolved_count := h.unsolved_count - 1 } hub r
      · intro x hx
        rcases cascadeFold_pending_subset (h.n_edges tgt)
            { h with unsolved_count := h.unsolved_count - 1 } x hx with h1 | h1
        · exact Or.inl h1
        · exact Or.inr (Or.inl h1)
  · rw [if_neg htm]
    refine ⟨cascade_solved _ _, cascade_xor_list _ _, cascade_v_edges _ _,
      cascade_n_edges _ _, cascade_mblocks _ _, cascade_coblocks _ _,
      cascade_nodes _ _, cascade_ablocks _ _, cascade_node_space _ _,
      Or.inr ⟨cascade_done _ _, ?_, ?_⟩⟩
    · intro r
      exact cascadeFold_count (h.n_edges tgt)
        { h with pending := h.pending ++ [tgt] } hub r
    · intro x hx
      rcases cascadeFold_pending_subset (h.n_edges tgt)
          { h with pending := h.pending ++ [tgt] } x hx with h1 | h1
      · have h2 : x ∈ h.pending ++ [tgt] := h1
        rcases List.mem_append.mp h2 with h3 | h3
        · exact Or.inl h3
        · exact Or.inr (Or.inr ⟨List.mem_singleton.mp h3, not_lt.mp htm⟩)
      · exact Or.inr (Or.inl h1)

/-- `oc_decommission_node` on an upper node preserves the joint
invariant: the slot is cleared and every reciprocal up-edge of its
remaining entries is unlinked. -/
theorem decommission_GInv (g : OcGraph) (frm : Nat) (hG : GInv g)
    (hmb : g.mblocks ≤ frm) : GInv (oc_decommission_node g frm) := by
  cases hvv : g.v_edges (frm - g.mblocks) with
  | none =>
    have hres : oc_decommission_node g frm = g := by
      simp only [oc_decommission_node, hvv]
      have hvfun : upd g.v_edges (frm - g.mblocks) none = g.v_edges := by
        funext j
        by_cases hj : j = frm - g.mblocks
        · rw [hj, upd_same, hvv]
        · rw [upd_ne _ _ hj]
      rw [hvfun]
    rw [hres]
    exact hG
  | some arr =>
    have hres : oc_decommission_node g frm
        = deleteEdges { g with v_edges := upd g.v_edges (frm - g.mblocks) none }
            frm (entriesOf arr).reverse := by
      simp only [oc_decommission_node, hvv]
    have hm2 : (oc_decommission_node g frm).mblocks = g.mblocks := by
      rw [hres, deleteEdges_mblocks]
    have hco2 : (oc_decommission_node g frm).coblocks = g.coblocks := by
      rw [hres, deleteEdges_coblocks]
    have hno2 : (oc_decommission_node g frm).nodes = g.nodes := by
      rw [hres, deleteEdges_nodes]
    have hdone2 : (oc_decommission_node g frm).done = g.done := by
      rw [hres, deleteEdges_done]
    have hun2 : (oc_decommission_node g frm).unsolved_count = g.unsolved_count := by
      rw [hres, deleteEdges_unsolved_count]
    have hsol2 : (oc_decommission_node g frm).solved = g.solved := by
      rw [hres, deleteEdges_solved]
    have hxor2 : (oc_decommission_node g frm).xor_list = g.xor_list := by
      rw [hres, deleteEdges_xor_list]
    have hpend2 : (oc_decommission_node g frm).pending = g.pending := by
      rw [hres, deleteEdges_pending]
    have he2 : (oc_decommission_node g frm).edge_count = g.edge_count := by
      rw [hres, deleteEdges_edge_count]
    have hv2 : (oc_decommission_node g frm).v_edges
        = upd g.v_edges (frm - g.mblocks) none := by
      rw [hres, deleteEdges_v_edges]
    have hcnt_frm : ∀ l, List.count frm ((oc_decommission_node g frm).n_edges l)
        = List.count frm (g.n_edges l) - List.count l (entriesOf arr) := by
      intro l
      rw [hres, deleteEdges_count_self, List.count_reverse]
    have hcnt_ne : ∀ l u, u ≠ frm →
        List.count u ((oc_decommission_node g frm).n_edges l)
          = List.count u (g.n_edges l) := by
      intro l u hu
      rw [hres, deleteEdges_count_ne _ _ u hu]
    have hsub : ∀ l u, u ∈ (oc_decommission_node g frm).n_edges l → u ∈ g.n_edges l := by
      intro l u hu
      rw [hres] at hu
      have h3 := deleteEdges_n_subset frm _ _ l u hu
      exact h3
    refine ⟨?_, ?_, ?_, ?_, ?_, ?_, ?_, ?_, ?_, ?_, ?_, ?_, ?_, ?_⟩
    · rw [hm2, hco2]
      exact hG.mb_co
    · rw [hco2, hno2]
      exact hG.co_nodes
    · rw [hdone2, hun2]
      exact hG.done0
    · intro u hu
      rw [hpend2] at hu
      rw [hm2, hno2]
      exact hG.pend u hu
    · intro l u hu
      rw [hm2, hno2]
      exact hG.nup l u (hsub l u hu)
    · intro r hr
      rw [hno2, hm2] at hr
      rw [hv2]
      by_cases hrr : r = frm - g.mblocks
      · rw [hrr, upd_same]
      · rw [upd_ne _ _ hrr]
        exact hG.vfresh r hr
    · intro r arr2 harr
      rw [hv2] at harr
      by_cases hrr : r = frm - g.mblocks
      · rw [hrr, upd_same] at harr
        cases harr
      · rw [upd_ne _ _ hrr] at harr
        exact hG.vwf r arr2 harr
    · intro r arr2 harr d hd
      rw [hv2] at harr
      rw [hco2]
      by_cases hrr : r = frm - g.mblocks
      · rw [hrr, upd_same] at harr
        cases harr
      · rw [upd_ne _ _ hrr] at harr
        exact hG.vlow r arr2 harr d hd
    · intro u l
      by_cases hu : u = frm
      · subst hu
        rw [hcnt_frm l, hG.recip u l,
          vCount_some g u l g.mblocks arr rfl (by omega) hvv,
          vCount_none (oc_decommission_node g u) u l g.mblocks hm2 (by omega)
            (by rw [hv2, upd_same])]
        omega
      · rw [hcnt_ne l u hu, hG.recip u l]
        by_cases hu2 : u < g.mblocks
        · rw [vCount_low g u l g.mblocks rfl hu2,
            vCount_low (oc_decommission_node g frm) u l g.mblocks hm2 hu2]
        · have hslot : (oc_decommission_node g frm).v_edges (u - g.mblocks)
              = g.v_edges (u - g.mblocks) := by
            rw [hv2, upd_ne _ _ (show u - g.mblocks ≠ frm - g.mblocks from by omega)]
          cases hvv2 : g.v_edges (u - g.mblocks) with
          | none =>
            rw [vCount_none g u l g.mblocks rfl hu2 hvv2,
              vCount_none (oc_decommission_node g frm) u l g.mblocks hm2 hu2
                (by rw [hslot, hvv2])]
          | some brr =>
            rw [vCount_some g u l g.mblocks brr rfl hu2 hvv2,
              vCount_some (oc_decommission_node g frm) u l g.mblocks brr hm2 hu2
                (by rw [hslot, hvv2])]
    · intro hdf r arr2 harr
      rw [hdone2] at hdf
      rw [hv2] at harr
      rw [he2, hsol2]
      by_cases hrr : r = frm - g.mblocks
      · rw [hrr, upd_same] at harr
        cases harr
      · rw [upd_ne _ _ hrr] at harr
        exact hG.ecount hdf r arr2 harr
    · intro n hn hns
      rw [hco2] at hn
      rw [hsol2] at hns
      rw [hxor2]
      exact hG.xnone n hn hns
    · intro n hn hs
      rw [hco2] at hn
      rw [hsol2] at hs
      rw [hxor2]
      exact hG.xsolved n hn hs
    · intro c xs hc hx
      rw [hco2] at hc
      rw [hxor2] at hx
      exact hG.xcheck c xs hc hx
    · intro n xs hx d hd
      rw [hxor2] at hx
      rw [hsol2, hco2]
      exact hG.xentries n xs hx d hd

/-- The auxiliary rule followed by its cascade preserves the joint
invariant. -/
theorem aux_GInv (g : OcGraph) (frm : Nat) (hG : GInv g)
    (hdf : g.done = false)
    (hmb : g.mblocks <= frm) (hco : frm < g.coblocks)
    (hsol : g.solved frm = false)
    (hec : g.edge_count (frm - g.mblocks) = 0) :
    GInv (oc_cascade (oc_aux_rule g frm) frm) := by
  have hA : oc_aux_rule g frm = deleteEdges { g with solved := upd g.solved frm true, xor_list := upd g.xor_list frm (some ((g.v_edges (frm - g.mblocks)).getD [])), v_edges := upd g.v_edges (frm - g.mblocks) none } frm (entriesOf ((g.v_edges (frm - g.mblocks)).getD [])) := rfl
  have hallsolved : forall d, d ∈ entriesOf ((g.v_edges (frm - g.mblocks)).getD []) -> g.solved d = true := by
    cases hvv : g.v_edges (frm - g.mblocks) with
    | none =>
      intro d hd
      simp [entriesOf] at hd
    | some arr2 =>
      intro d hd
      simp only [Option.getD_some] at hd
      have h0 := hG.ecount hdf _ arr2 hvv
      rw [hec] at h0
      exact unsolvedCount_all_solved g.solved (entriesOf arr2) h0.symm d hd
  have hfrm_not : frm ∉ entriesOf ((g.v_edges (frm - g.mblocks)).getD []) := by
    intro hc
    have h1 := hallsolved frm hc
    rw [hsol] at h1
    cases h1
  have hAm : (oc_aux_rule g frm).mblocks = g.mblocks := by
    rw [hA, deleteEdges_mblocks]
  have hAnfrm : (oc_aux_rule g frm).n_edges frm = g.n_edges frm := by
    rw [hA, deleteEdges_not_mem _ _ _ _ hfrm_not]
  have hF : oc_cascade (oc_aux_rule g frm) frm
      = (g.n_edges frm).foldl cascadeBody (oc_aux_rule g frm) := by
    rw [oc_cascade, hAnfrm]
  have hFm : (oc_cascade (oc_aux_rule g frm) frm).mblocks = g.mblocks := by
    rw [hF, cascadeFold_mblocks, hAm]
  have hFco : (oc_cascade (oc_aux_rule g frm) frm).coblocks = g.coblocks := by
    rw [hF, cascadeFold_coblocks, hA, deleteEdges_coblocks]
  have hFno : (oc_cascade (oc_aux_rule g frm) frm).nodes = g.nodes := by
    rw [hF, cascadeFold_nodes, hA, deleteEdges_nodes]
  have hFdone : (oc_cascade (oc_aux_rule g frm) frm).done = g.done := by
    rw [hF, cascadeFold_done, hA, deleteEdges_done]
  have hFun : (oc_cascade (oc_aux_rule g frm) frm).unsolved_count = g.unsolved_count := by
    rw [hF, cascadeFold_unsolved_count, hA, deleteEdges_unsolved_count]
  have hFsol : (oc_cascade (oc_aux_rule g frm) frm).solved = upd g.solved frm true := by
    rw [hF, cascadeFold_solved, hA, deleteEdges_solved]
  have hFxor : (oc_cascade (oc_aux_rule g frm) frm).xor_list
      = upd g.xor_list frm (some ((g.v_edges (frm - g.mblocks)).getD [])) := by
    rw [hF, cascadeFold_xor_list, hA, deleteEdges_xor_list]
  have hFv : (oc_cascade (oc_aux_rule g frm) frm).v_edges
      = upd g.v_edges (frm - g.mblocks) none := by
    rw [hF, cascadeFold_v_edges, hA, deleteEdges_v_edges]
  have hFec : forall r, (oc_cascade (oc_aux_rule g frm) frm).edge_count r
      = g.edge_count r - List.count (g.mblocks + r) (g.n_edges frm) := by
    intro r
    have h1 := cascadeFold_count (g.n_edges frm) (oc_aux_rule g frm)
      (by
        intro u hu
        rw [hAm]
        exact (hG.nup frm u hu).1) r
    rw [hAm] at h1
    rw [hF, h1, hA, deleteEdges_edge_count]
  have hFnc_frm : forall l, List.count frm ((oc_cascade (oc_aux_rule g frm) frm).n_edges l)
      = List.count frm (g.n_edges l) - List.count l (entriesOf ((g.v_edges (frm - g.mblocks)).getD [])) := by
    intro l
    rw [hF, cascadeFold_n_edges, hA, deleteEdges_count_self]
  have hFnc_ne : forall l u, u ≠ frm ->
      List.count u ((oc_cascade (oc_aux_rule g frm) frm).n_edges l)
        = List.count u (g.n_edges l) := by
    intro l u hu
    rw [hF, cascadeFold_n_edges, hA, deleteEdges_count_ne _ _ u hu]
  have hFsub : forall l u, u ∈ (oc_cascade (oc_aux_rule g frm) frm).n_edges l ->
      u ∈ g.n_edges l := by
    intro l u hu
    rw [hF, cascadeFold_n_edges, hA] at hu
    have h3 := deleteEdges_n_subset frm _ _ l u hu
    exact h3
  have hFpend : forall x, x ∈ (oc_cascade (oc_aux_rule g frm) frm).pending ->
      x ∈ g.pending ∨ x ∈ g.n_edges frm := by
    intro x hx
    rw [hF] at hx
    rcases cascadeFold_pending_subset _ _ x hx with h1 | h1
    · rw [hA, deleteEdges_pending] at h1
      exact Or.inl h1
    · exact Or.inr h1
  refine ⟨?_, ?_, ?_, ?_, ?_, ?_, ?_, ?_, ?_, ?_, ?_, ?_, ?_, ?_⟩
  · rw [hFm, hFco]
    exact hG.mb_co
  · rw [hFco, hFno]
    exact hG.co_nodes
  · intro h
    rw [hFdone, hdf] at h
    cases h
  · intro u hu
    rw [hFm, hFno]
    rcases hFpend u hu with h1 | h1
    · exact hG.pend u h1
    · exact hG.nup frm u h1
  · intro l u hu
    rw [hFm, hFno]
    exact hG.nup l u (hFsub l u hu)
  · intro r hr
    rw [hFno, hFm] at hr
    rw [hFv]
    by_cases hrr : r = frm - g.mblocks
    · rw [hrr, upd_same]
    · rw [upd_ne _ _ hrr]
      exact hG.vfresh r hr
  · intro r arr2 harr
    rw [hFv] at harr
    by_cases hrr : r = frm - g.mblocks
    · rw [hrr, upd_same] at harr
      cases harr
    · rw [upd_ne _ _ hrr] at harr
      exact hG.vwf r arr2 harr
  · intro r arr2 harr d hd
    rw [hFv] at harr
    rw [hFco]
    by_cases hrr : r = frm - g.mblocks
    · rw [hrr, upd_same] at harr
      cases harr
    · rw [upd_ne _ _ hrr] at harr
      exact hG.vlow r arr2 harr d hd
  · intro u l
    by_cases hu : u = frm
    · subst hu
      rw [hFnc_frm l, hG.recip u l,
        vCount_none (oc_cascade (oc_aux_rule g u) u) u l g.mblocks hFm (by omega)
          (by rw [hFv, upd_same])]
      cases hvv : g.v_edges (u - g.mblocks) with
      | none =>
        rw [vCount_none g u l g.mblocks rfl (by omega) hvv]
        simp [entriesOf]
      | some arr2 =>
        rw [vCount_some g u l g.mblocks arr2 rfl (by omega) hvv]
        simp only [Option.getD_some]
        omega
    · rw [hFnc_ne l u hu, hG.recip u l]
      by_cases hu2 : u < g.mblocks
      · rw [vCount_low g u l g.mblocks rfl hu2,
          vCount_low (oc_cascade (oc_aux_rule g frm) frm) u l g.mblocks hFm hu2]
      · have hslot : (oc_cascade (oc_aux_rule g frm) frm).v_edges (u - g.mblocks)
            = g.v_edges (u - g.mblocks) := by
          rw [hFv, upd_ne _ _ (show u - g.mblocks ≠ frm - g.mblocks from by omega)]
        cases hvv2 : g.v_edges (u - g.mblocks) with
        | none =>
          rw [vCount_none g u l g.mblocks rfl hu2 hvv2,
            vCount_none (oc_cascade (oc_aux_rule g frm) frm) u l g.mblocks hFm hu2
              (by rw [hslot, hvv2])]
        | some brr =>
          rw [vCount_some g u l g.mblocks brr rfl hu2 hvv2,
            vCount_some (oc_cascade (oc_aux_rule g frm) frm) u l g.mblocks brr hFm hu2
              (by rw [hslot, hvv2])]
  · intro hdf2 r arr2 harr
    rw [hFv] at harr
    by_cases hrr : r = frm - g.mblocks
    · rw [hrr, upd_same] at harr
      cases harr
    · rw [upd_ne _ _ hrr] at harr
      rw [hFec r, hFsol]
      have hrec := hG.recip (g.mblocks + r) frm
      have hadd : g.mblocks + r - g.mblocks = r := by omega
      have hvc : vCount g (g.mblocks + r) frm = List.count frm (entriesOf arr2) := by
        rw [vCount_some g (g.mblocks + r) frm g.mblocks arr2 rfl (by omega)
          (by rw [hadd]; exact harr)]
      rw [hvc] at hrec
      rw [hrec]
      have hups := unsolvedCount_upd_true g.solved frm hsol (entriesOf arr2)
      have hold := hG.ecount hdf r arr2 harr
      omega
  · intro n hn hns
    rw [hFco] at hn
    rw [hFsol] at hns
    have hne : n ≠ frm := by
      intro hc
      rw [hc, upd_same] at hns
      cases hns
    rw [upd_ne _ _ hne] at hns
    rw [hFxor, upd_ne _ _ hne]
    exact hG.xnone n hn hns
  · intro n hn hs
    rw [hFco] at hn
    rw [hFsol] at hs
    by_cases hne : n = frm
    · subst hne
      refine ⟨((g.v_edges (n - g.mblocks)).getD []), ?_, hfrm_not⟩
      rw [hFxor, upd_same]
    · rw [upd_ne _ _ hne] at hs
      obtain ⟨xs, hxs, hnx⟩ := hG.xsolved n hn hs
      refine ⟨xs, ?_, hnx⟩
      rw [hFxor, upd_ne _ _ hne]
      exact hxs
  · intro c xs hc hx
    rw [hFco] at hc
    rw [hFxor, upd_ne _ _ (show c ≠ frm from by omega)] at hx
    exact hG.xcheck c xs hc hx
  · intro n xs hx d hd
    rw [hFxor] at hx
    rw [hFsol, hFco]
    by_cases hne : n = frm
    · subst hne
      rw [upd_same] at hx
      have heq : xs = ((g.v_edges (n - g.mblocks)).getD []) := (Option.some.inj hx).symm
      subst heq
      left
      by_cases hdf3 : d = n
      · exact absurd (hdf3 ▸ hd) hfrm_not
      · rw [upd_ne _ _ hdf3]
        exact hallsolved d hd
    · rw [upd_ne _ _ hne] at hx
      rcases hG.xentries n xs hx d hd with h1 | h1
      · left
        by_cases hdf3 : d = frm
        · rw [hdf3, upd_same]
        · rw [upd_ne _ _ hdf3]
          exact h1
      · right
        exact h1

theorem count_filter_eq (P : Nat → Bool) (a : Nat) (hP : P a = true) :
    ∀ (l : List Nat), List.count a (l.filter P) = List.count a l := by
  intro l
  induction l with
  | nil => rfl
  | cons b t ih =>
    by_cases hb : P b = true
    · rw [List.filter_cons_of_pos hb]
      by_cases hab : b = a
      · rw [hab, List.count_cons_self, List.count_cons_self, ih]
      · rw [List.count_cons_of_ne (fun hc => hab hc.symm),
          List.count_cons_of_ne (fun hc => hab hc.symm), ih]
    · rw [List.filter_cons_of_neg (by simpa using hb)]
      have hab : b ≠ a := fun hc => hb (hc ▸ hP)
      rw [List.count_cons_of_ne (fun hc => hab hc.symm)]
      exact ih

/-- The propagation rule (swap, targeted deletion, xor merge, mark,
decommission, and finishing tail) preserves the joint invariant. -/
theorem propagate_GInv (g : OcGraph) (frm : Nat) (hG : GInv g)
    (hdf : g.done = false)
    (hmb : g.mblocks <= frm)
    (hec : g.edge_count (frm - g.mblocks) = 1) :
    GInv (propagateStep g frm).1 := by
  cases hvv : g.v_edges (frm - g.mblocks) with
  | none =>
    have hstep : propagateStep g frm = (g, []) := by
      simp only [propagateStep, hvv, Option.getD_none]
      rfl
    rw [hstep]
    exact hG
  | some arr =>
    have hwf := hG.vwf _ arr hvv
    have hone : unsolvedCount g.solved (entriesOf arr) = 1 := by
      have h0 := hG.ecount hdf _ arr hvv
      rw [hec] at h0
      exact h0.symm
    rw [unsolvedCount] at hone
    obtain ⟨t, hfil⟩ := List.length_eq_one.mp hone
    obtain ⟨i, hfind, hilen, hget, hpt⟩ :=
      filter_singleton_findIdx (fun d => !g.solved d) (entriesOf arr) t hfil
    subst hget
    have hi : i < arr.headD 0 := by
      rw [← entriesOf_length arr hwf]
      exact hilen
    have htmem : ((entriesOf arr).getD i 0) ∈ entriesOf arr :=
      List.mem_of_mem_filter (hfil ▸ List.mem_singleton_self _)
    have htsol : g.solved ((entriesOf arr).getD i 0) = false := by simpa using hpt
    have htlow : ((entriesOf arr).getD i 0) < g.coblocks := hG.vlow _ arr hvv _ htmem
    have hstep := propagateStep_eq g frm i arr hvv hfind
    have hcnt1 : List.count ((entriesOf arr).getD i 0) (entriesOf arr) = 1 := by
      rw [← count_filter_eq (fun d => !g.solved d) ((entriesOf arr).getD i 0) hpt (entriesOf arr), hfil, List.count_singleton_self]
    have hperm := swap_remove_perm arr i hwf hi
    have hcnt_cons : List.count ((entriesOf arr).getD i 0) (((entriesOf arr).getD i 0) :: (entriesOf ((arr.set (i + 1) (arr.getD (arr.headD 0) 0)).set 0 (arr.headD 0 - 1)))) = 1 := by
      rw [hperm.count_eq]
      exact hcnt1
    have htgt_not : ((entriesOf arr).getD i 0) ∉ (entriesOf ((arr.set (i + 1) (arr.getD (arr.headD 0) 0)).set 0 (arr.headD 0 - 1))) := by
      rw [List.count_cons_self] at hcnt_cons
      exact List.count_eq_zero.mp (by omega)
    obtain ⟨dm, dc, da, dno, dns, dun, ddone, dpend, dsol, dxor, dec, dv⟩ :=
      propDecom_fields0 g frm i arr
    have dnt := propDecom_n_tgt g frm i arr htgt_not
    have hub : forall u, u ∈ (propDecom g frm i arr).n_edges ((entriesOf arr).getD i 0) -> (propDecom g frm i arr).mblocks <= u := by
      intro u hu
      rw [dm]
      exact (hG.nup ((entriesOf arr).getD i 0) u (propDecom_subset g frm i arr ((entriesOf arr).getD i 0) u hu)).1
    obtain ⟨fsol, fxor, fv, fn, fm, fco, fno, fab, fns, fdisj⟩ :=
      propFinish_spec2 (propDecom g frm i arr) ((entriesOf arr).getD i 0) hub
    have hFsol : (propagateStep g frm).1.solved = upd g.solved ((entriesOf arr).getD i 0) true := by
      rw [hstep, fsol, dsol]
    have hFxor : (propagateStep g frm).1.xor_list = upd g.xor_list ((entriesOf arr).getD i 0) (some (oc_propagate_xor ((g.xor_list frm).getD []) ((arr.set (i + 1) (arr.getD (arr.headD 0) 0)).set 0 (arr.headD 0 - 1)))) := by
      rw [hstep, fxor, dxor]
    have hFv : (propagateStep g frm).1.v_edges = upd g.v_edges (frm - g.mblocks) none := by
      rw [hstep, fv, dv]
    have hFm : (propagateStep g frm).1.mblocks = g.mblocks := by
      rw [hstep, fm, dm]
    have hFco : (propagateStep g frm).1.coblocks = g.coblocks := by
      rw [hstep, fco, dc]
    have hFno : (propagateStep g frm).1.nodes = g.nodes := by
      rw [hstep, fno, dno]
    have hFn_cnt_frm : forall l, List.count frm ((propagateStep g frm).1.n_edges l)
        = List.count frm (g.n_edges l) - List.count l (((entriesOf arr).getD i 0) :: (entriesOf ((arr.set (i + 1) (arr.getD (arr.headD 0) 0)).set 0 (arr.headD 0 - 1)))) := by
      intro l
      rw [hstep, fn]
      exact propDecom_count_frm g frm i arr l
    have hFn_cnt_ne : forall l u, u ≠ frm ->
        List.count u ((propagateStep g frm).1.n_edges l) = List.count u (g.n_edges l) := by
      intro l u hu
      rw [hstep, fn]
      exact propDecom_count_ne g frm i arr l u hu
    have hFsub : forall l u, u ∈ (propagateStep g frm).1.n_edges l -> u ∈ g.n_edges l := by
      intro l u hu
      rw [hstep, fn] at hu
      exact propDecom_subset g frm i arr l u hu
    have hxlv : forall d, d ∈ entriesOf ((g.xor_list frm).getD []) ->
        g.solved d = true ∨ g.coblocks <= d := by
      cases hx : g.xor_list frm with
      | none =>
        intro d hd
        simp [entriesOf] at hd
      | some xl =>
        intro d hd
        simp only [Option.getD_some] at hd
        exact hG.xentries frm xl hx d hd
    have he2solved : forall d, d ∈ (entriesOf ((arr.set (i + 1) (arr.getD (arr.headD 0) 0)).set 0 (arr.headD 0 - 1))) -> g.solved d = true := by
      intro d hd
      by_cases hds : g.solved d = true
      · exact hds
      · have hdu : g.solved d = false := by
          revert hds
          cases g.solved d <;> simp
        have hdm : d ∈ entriesOf arr := hperm.subset (List.mem_cons_of_mem _ hd)
        have hdf2 : d ∈ (entriesOf arr).filter (fun x => !g.solved x) :=
          List.mem_filter.mpr ⟨hdm, by rw [hdu]; rfl⟩
        rw [hfil] at hdf2
        exact absurd ((List.mem_singleton.mp hdf2) ▸ hd) htgt_not
    have hPent : forall d, d ∈ entriesOf (oc_propagate_xor ((g.xor_list frm).getD []) ((arr.set (i + 1) (arr.getD (arr.headD 0) 0)).set 0 (arr.headD 0 - 1))) ->
        d ∈ entriesOf ((g.xor_list frm).getD []) ∨ d ∈ (entriesOf ((arr.set (i + 1) (arr.getD (arr.headD 0) 0)).set 0 (arr.headD 0 - 1))) := by
      intro d hd
      have hd2 : d ∈ (entriesOf ((g.xor_list frm).getD []) ++ (entriesOf ((arr.set (i + 1) (arr.getD (arr.headD 0) 0)).set 0 (arr.headD 0 - 1)))).take
          ((((g.xor_list frm).getD []).headD 0) + ((arr.set (i + 1) (arr.getD (arr.headD 0) 0)).set 0 (arr.headD 0 - 1)).headD 0) := hd
      exact List.mem_append.mp (List.take_subset _ _ hd2)
    have htgt_notP : ((entriesOf arr).getD i 0) ∉ entriesOf (oc_propagate_xor ((g.xor_list frm).getD []) ((arr.set (i + 1) (arr.getD (arr.headD 0) 0)).set 0 (arr.headD 0 - 1))) := by
      intro hc
      rcases hPent _ hc with h1 | h1
      · rcases hxlv _ h1 with h2 | h2
        · rw [htsol] at h2
          cases h2
        · omega
      · exact htgt_not h1
    refine ⟨?_, ?_, ?_, ?_, ?_, ?_, ?_, ?_, ?_, ?_, ?_, ?_, ?_, ?_⟩
    · rw [hFm, hFco]
      exact hG.mb_co
    · rw [hFco, hFno]
      exact hG.co_nodes
    · intro h2
      rcases fdisj with ⟨hd1, hu1, hp1, he1⟩ | ⟨hd1, hecf, hp3⟩
      · rw [hstep]
        exact hu1
      · rw [hstep, hd1, ddone, hdf] at h2
        cases h2
    · intro x hx
      rw [hFm, hFno]
      rw [hstep] at hx
      rcases fdisj with ⟨hd1, hu1, hp1, he1⟩ | ⟨hd1, hecf, hp3⟩
      · rw [hp1] at hx
        cases hx
      · rcases hp3 x hx with h1 | h1 | h1
        · rw [dpend] at h1
          exact hG.pend x h1
        · exact hG.nup ((entriesOf arr).getD i 0) x (propDecom_subset g frm i arr ((entriesOf arr).getD i 0) x h1)
        · obtain ⟨rfl, hmbt⟩ := h1
          have hcn := hG.co_nodes
          exact ⟨by rw [dm] at hmbt; exact hmbt, by omega⟩
    · intro l u hu
      rw [hFm, hFno]
      exact hG.nup l u (hFsub l u hu)
    · intro r hr
      rw [hFno, hFm] at hr
      rw [hFv]
      by_cases hrr : r = frm - g.mblocks
      · rw [hrr, upd_same]
      · rw [upd_ne _ _ hrr]
        exact hG.vfresh r hr
    · intro r arr2 harr
      rw [hFv] at harr
      by_cases hrr : r = frm - g.mblocks
      · rw [hrr, upd_same] at harr
        cases harr
      · rw [upd_ne _ _ hrr] at harr
        exact hG.vwf r arr2 harr
    · intro r arr2 harr d hd
      rw [hFv] at harr
      rw [hFco]
      by_cases hrr : r = frm - g.mblocks
      · rw [hrr, upd_same] at harr
        cases harr
      · rw [upd_ne _ _ hrr] at harr
        exact hG.vlow r arr2 harr d hd
    · intro u l
      by_cases hu : u = frm
      · subst hu
        rw [hFn_cnt_frm l, hG.recip u l,
          vCount_some g u l g.mblocks arr rfl (by omega) hvv,
          vCount_none (propagateStep g u).1 u l g.mblocks hFm (by omega)
            (by rw [hFv, upd_same]),
          hperm.count_eq]
        omega
      · rw [hFn_cnt_ne l u hu, hG.recip u l]
        by_cases hu2 : u < g.mblocks
        · rw [vCount_low g u l g.mblocks rfl hu2,
            vCount_low (propagateStep g frm).1 u l g.mblocks hFm hu2]
        · have hslot : (propagateStep g frm).1.v_edges (u - g.mblocks)
              = g.v_edges (u - g.mblocks) := by
            rw [hFv, upd_ne _ _ (show u - g.mblocks ≠ frm - g.mblocks from by omega)]
          cases hvv2 : g.v_edges (u - g.mblocks) with
          | none =>
            rw [vCount_none g u l g.mblocks rfl hu2 hvv2,
              vCount_none (propagateStep g frm).1 u l g.mblocks hFm hu2
                (by rw [hslot, hvv2])]
          | some brr =>
            rw [vCount_some g u l g.mblocks brr rfl hu2 hvv2,
              vCount_some (propagateStep g frm).1 u l g.mblocks brr hFm hu2
                (by rw [hslot, hvv2])]
    · intro hdf2 r arr2 harr
      rcases fdisj with ⟨hd1, hu1, hp1, he1⟩ | ⟨hd1, hecf, hp3⟩
      · rw [hstep, hd1] at hdf2
        cases hdf2
      · rw [hFv] at harr
        by_cases hrr : r = frm - g.mblocks
        · rw [hrr, upd_same] at harr
          cases harr
        · rw [upd_ne _ _ hrr] at harr
          have hstep1 : (propagateStep g frm).1.edge_count r
              = (propDecom g frm i arr).edge_count r - List.count ((propDecom g frm i arr).mblocks + r) ((propDecom g frm i arr).n_edges ((entriesOf arr).getD i 0)) := by
            rw [hstep]
            exact hecf r
          rw [hstep1, dec, dm, dnt,
            upd_ne _ _ hrr,
            removeFirst_count_ne frm (g.mblocks + r) (by omega)]
          have hrec := hG.recip (g.mblocks + r) ((entriesOf arr).getD i 0)
          have hvc : vCount g (g.mblocks + r) ((entriesOf arr).getD i 0) = List.count ((entriesOf arr).getD i 0) (entriesOf arr2) := by
            rw [vCount_some g (g.mblocks + r) ((entriesOf arr).getD i 0) g.mblocks arr2 rfl (by omega)
              (by rw [show g.mblocks + r - g.mblocks = r from by omega]; exact harr)]
          rw [hrec, hvc, hFsol]
          have hups := unsolvedCount_upd_true g.solved ((entriesOf arr).getD i 0) htsol (entriesOf arr2)
          have hold := hG.ecount hdf r arr2 harr
          omega
    · intro n hn hns
      rw [hFco] at hn
      rw [hFsol] at hns
      have hne : n ≠ ((entriesOf arr).getD i 0) := by
        intro hc
        rw [hc, upd_same] at hns
        cases hns
      rw [upd_ne _ _ hne] at hns
      rw [hFxor, upd_ne _ _ hne]
      exact hG.xnone n hn hns
    · intro n hn hs
      rw [hFco] at hn
      rw [hFsol] at hs
      by_cases hne : n = ((entriesOf arr).getD i 0)
      · refine ⟨(oc_propagate_xor ((g.xor_list frm).getD []) ((arr.set (i + 1) (arr.getD (arr.headD 0) 0)).set 0 (arr.headD 0 - 1))), ?_, ?_⟩
        · rw [hFxor, hne, upd_same]
        · rw [hne]
          exact htgt_notP
      · rw [upd_ne _ _ hne] at hs
        obtain ⟨xs, hxs, hnx⟩ := hG.xsolved n hn hs
        refine ⟨xs, ?_, hnx⟩
        rw [hFxor, upd_ne _ _ hne]
        exact hxs
    · intro c xs hc hx
      rw [hFco] at hc
      rw [hFxor, upd_ne _ _ (show c ≠ ((entriesOf arr).getD i 0) from by omega)] at hx
      exact hG.xcheck c xs hc hx
    · intro n xs hx d hd
      rw [hFxor] at hx
      rw [hFsol, hFco]
      by_cases hne : n = ((entriesOf arr).getD i 0)
      · rw [hne, upd_same] at hx
        have heq : xs = (oc_propagate_xor ((g.xor_list frm).getD []) ((arr.set (i + 1) (arr.getD (arr.headD 0) 0)).set 0 (arr.headD 0 - 1))) := (Option.some.inj hx).symm
        subst heq
        rcases hPent d hd with h1 | h1
        · rcases hxlv d h1 with h2 | h2
          · left
            by_cases hdt : d = ((entriesOf arr).getD i 0)
            · rw [hdt, upd_same]
            · rw [upd_ne _ _ hdt]
              exact h2
          · right
            exact h2
        · left
          by_cases hdt : d = ((entriesOf arr).getD i 0)
          · exact absurd (hdt ▸ h1) htgt_not
          · rw [upd_ne _ _ hdt]
            exact he2solved d h1
      · rw [upd_ne _ _ hne] at hx
        rcases hG.xentries n xs hx d hd with h1 | h1
        · left
          by_cases hdt : d = ((entriesOf arr).getD i 0)
          · rw [hdt, upd_same]
          · rw [upd_ne _ _ hdt]
            exact h1
        · right
          exact h1

theorem GInv_pending_set (g : OcGraph) (L : List Nat) (hG : GInv g)
    (hL : forall u, u ∈ L -> g.mblocks ≤ u ∧ u < g.nodes) :
    GInv { g with pending := L } := by
  refine ⟨hG.mb_co, hG.co_nodes, hG.done0, ?_, hG.nup, hG.vfresh, hG.vwf,
    hG.vlow, hG.recip, hG.ecount, hG.xnone, hG.xsolved, hG.xcheck, hG.xentries⟩
  intro u hu
  exact hL u hu

theorem decommission_done (g : OcGraph) (frm : Nat) :
    (oc_decommission_node g frm).done = g.done := by
  cases hvv : g.v_edges (frm - g.mblocks) with
  | none =>
    simp only [oc_decommission_node, hvv]
  | some arr =>
    simp only [oc_decommission_node, hvv]
    rw [deleteEdges_done]

/-- Every iteration of the resolver loop preserves the joint invariant on
the graph component. -/
theorem resolveLoop_inv : ∀ (fuel : Nat) (g : OcGraph), GInv g -> g.done = false ->
    GInv (resolveLoop fuel g).1 := by
  intro fuel
  induction fuel with
  | zero =>
    intro g hG _
    exact hG
  | succ fuel ih =>
    intro g hG hdf
    cases hp : g.pending with
    | nil =>
      rw [resolveLoop]
      simp only [hp]
      exact hG
    | cons frm rest =>
      have hfr := hG.pend frm (by rw [hp]; exact List.mem_cons_self frm rest)
      have hG1 : GInv { g with pending := rest } :=
        GInv_pending_set g rest hG
          (fun u hu => hG.pend u (by rw [hp]; exact List.mem_cons_of_mem _ hu))
      have hdf1 : ({ g with pending := rest } : OcGraph).done = false := hdf
      rw [resolveLoop]
      simp only [hp]
      by_cases h1 : 1 < ({ g with pending := rest } : OcGraph).edge_count
          (frm - ({ g with pending := rest } : OcGraph).mblocks)
      · rw [if_pos h1]
        exact ih _ hG1 hdf1
      · rw [if_neg h1]
        by_cases h2 : ({ g with pending := rest } : OcGraph).edge_count
            (frm - ({ g with pending := rest } : OcGraph).mblocks) = 0
        · rw [if_pos h2]
          by_cases h3 : ({ g with pending := rest } : OcGraph).coblocks ≤ frm
              ∨ ({ g with pending := rest } : OcGraph).solved frm = true
          · rw [if_pos h3]
            exact ih _ (decommission_GInv _ frm hG1 hfr.1)
              (by rw [decommission_done]; exact hdf1)
          · rw [if_neg h3]
            have hco2 : frm < ({ g with pending := rest } : OcGraph).coblocks := by
              by_cases hc : ({ g with pending := rest } : OcGraph).coblocks ≤ frm
              · exact absurd (Or.inl hc) h3
              · omega
            have hsol2 : ({ g with pending := rest } : OcGraph).solved frm = false := by
              by_cases hs : ({ g with pending := rest } : OcGraph).solved frm = true
              · exact absurd (Or.inr hs) h3
              · revert hs
                cases ({ g with pending := rest } : OcGraph).solved frm <;> simp
            exact aux_GInv _ frm hG1 hdf1 hfr.1 hco2 hsol2 h2
        · rw [if_neg h2]
          by_cases h4 : frm < ({ g with pending := rest } : OcGraph).coblocks
              ∧ ({ g with pending := rest } : OcGraph).solved frm = false
          · rw [if_pos h4]
            exact ih _ hG1 hdf1
          · rw [if_neg h4]
            have hec1 : ({ g with pending := rest } : OcGraph).edge_count
                (frm - ({ g with pending := rest } : OcGraph).mblocks) = 1 := by
              omega
            exact propagate_GInv _ frm hG1 hdf1 hfr.1 hec1

/-- `oc_graph_resolve` preserves the joint invariant. -/
theorem resolve_GInv (g : OcGraph) (hG : GInv g) : GInv (oc_graph_resolve g).1 := by
  rw [oc_graph_resolve]
  by_cases hp : g.pending.isEmpty
  · rw [if_pos hp]
    exact hG
  · rw [if_neg hp]
    by_cases hu : g.unsolved_count = 0
    · rw [if_pos hu]
      refine ⟨hG.mb_co, hG.co_nodes, ?_, hG.pend, hG.nup, hG.vfresh, hG.vwf,
        hG.vlow, hG.recip, ?_, hG.xnone, hG.xsolved, hG.xcheck, hG.xentries⟩
      · intro _
        exact hu
      · intro hdf
        exact Bool.noConfusion (show true = false from hdf)
    · rw [if_neg hu]
      have hdf : g.done = false := by
        cases hd : g.done
        · rfl
        · exact absurd (hG.done0 hd) hu
      have h3 := resolveLoop_inv g.pending.length g hG hdf
      exact h3

/-- Every state reachable through the public entry points satisfies the
joint invariant. -/
theorem reach_inv : ∀ g, Reach g -> GInv g := by
  intro g hR
  induction hR with
  | init mb ab q e fudge map g hrange hinit =>
    rw [oc_graph_init] at hinit
    by_cases h1 : mb < 1
    · rw [if_pos h1] at hinit
      cases hinit
    · rw [if_neg h1] at hinit
      by_cases h2 : ab < 1
      · rw [if_pos h2] at hinit
        cases hinit
      · rw [if_neg h2] at hinit
        by_cases h3 : fudge ≤ 1
        · rw [if_pos h3] at hinit
          cases hinit
        · rw [if_neg h3] at hinit
          have heq : initGraph mb ab (checkSpace q e fudge mb) q map = g :=
            Option.some.inj hinit
          rw [← heq]
          exact init_GInv mb ab _ q map hrange
  | check g v hR hwfv hlowv ih =>
    exact check_GInv g v ih hwfv hlowv
  | resolve g hR ih =>
    exact resolve_GInv g ih

theorem checkSpace_demo : checkSpace 1 0 2 1 = 2 := by
  rw [checkSpace, rat_floor_eq_floor]
  have h1 : (2 : ℚ) * ((1 + ((1 : ℕ) : ℚ) * 0) * ((1 : ℕ) : ℚ)) = 2 := by norm_num
  rw [h1]
  rw [show ⌊(2 : ℚ)⌋ = 2 from by norm_num]
  rfl

theorem reach_gDemo : Reach gDemo := by
  apply Reach.init 1 1 1 0 2 [1] gDemo (by decide)
  rw [init_eq 1 1 1 0 2 [1] (le_refl 1) (le_refl 1) (by norm_num), checkSpace_demo]
  rfl

theorem reach_gChk : Reach gChk :=
  Reach.check gDemo [1, 0] reach_gDemo (by decide) (by decide)

theorem reach_gRes : Reach gRes := Reach.resolve gChk reach_gChk

/-- C3: in every graph state reachable through `oc_graph_init`,
`oc_graph_check_block` and `oc_graph_resolve`, v-edges and n-edges are
strictly reciprocal: the number of cells of `n_edges l` holding `u`
equals the multiplicity of `l` among the logical entries of the v-edge
array of `u` (so a lower node listed once is matched by exactly one
cell); in particular every listed lower node carries a matching up-edge,
and every cell of every n-edge list corresponds to a live v-edge
entry. -/
theorem claim_C3_reciprocity (g : OcGraph) (hR : Reach g) :
    (∀ u l, List.count u (g.n_edges l) = vCount g u l)
    ∧ (∀ u l arr, g.mblocks ≤ u → g.v_edges (u - g.mblocks) = some arr →
        l ∈ entriesOf arr → u ∈ g.n_edges l)
    ∧ (∀ l u, u ∈ g.n_edges l → ∃ arr, g.mblocks ≤ u
        ∧ g.v_edges (u - g.mblocks) = some arr ∧ l ∈ entriesOf arr) := by
  have hG := reach_inv g hR
  refine ⟨hG.recip, ?_, ?_⟩
  · intro u l arr hmb harr hl
    have h1 := hG.recip u l
    rw [vCount_some g u l g.mblocks arr rfl (not_lt.mpr hmb) harr] at h1
    have h2 : 0 < List.count l (entriesOf arr) := List.count_pos_iff.mpr hl
    rw [← h1] at h2
    exact List.count_pos_iff.mp h2
  · intro l u hu
    have h1 := hG.recip u l
    have h2 : 0 < List.count u (g.n_edges l) := List.count_pos_iff.mpr hu
    rw [h1] at h2
    by_cases hu2 : u < g.mblocks
    · rw [vCount_low g u l g.mblocks rfl hu2] at h2
      exact absurd h2 (lt_irrefl 0)
    · cases hvv : g.v_edges (u - g.mblocks) with
      | none =>
        rw [vCount_none g u l g.mblocks rfl hu2 hvv] at h2
        exact absurd h2 (lt_irrefl 0)
      | some arr =>
        rw [vCount_some g u l g.mblocks arr rfl hu2 hvv] at h2
        refine ⟨arr, ?_, rfl, List.count_pos_iff.mp h2⟩
        omega

theorem claim_C3_reciprocity_witness :
    List.count 2 (gChk.n_edges 0) = vCount gChk 2 0
    ∧ 2 ∈ gChk.n_edges 0 := by
  refine ⟨(claim_C3_reciprocity gChk reach_gChk).1 2 0, ?_⟩
  exact (claim_C3_reciprocity gChk reach_gChk).2.1 2 0 [1, 0]
    (by decide) (by decide) (by decide)

/-- C4 counterexample: the claim as stated fails.  At the reachable
state `gRes` — reached after `oc_graph_init`, one check block and one
`oc_graph_resolve` call whose terminal propagation set `done` and
skipped the final cascade — the auxiliary node `1` has the non-null,
non-empty v-edge array `[1, 0]` whose single entry `0` is solved, yet
`edge_count 0` still holds the stale value `1` instead of `0`. -/
theorem claim_C4_counterexample : Reach gRes ∧ ¬ specC4 gRes := by
  refine ⟨reach_gRes, ?_⟩
  intro h
  have h2 := h 1 (by decide) [1, 0] (by decide) (by decide)
  exact absurd h2 (by decide)

/-- C4 (amended): at every reachable boundary state in which the decoder
is not yet done, every upper node with a non-null v-edge array has
`edge_count` equal to the number of its unsolved logical entries.  Once
the terminal propagation sets `done` the counts can go stale, as the
counterexample shows. -/
theorem claim_C4_edge_count (g : OcGraph) (hR : Reach g)
    (hdone : g.done = false) (u : Nat) (hmb : g.mblocks ≤ u) (arr : List Nat)
    (harr : g.v_edges (u - g.mblocks) = some arr) :
    g.edge_count (u - g.mblocks) = unsolvedCount g.solved (entriesOf arr) :=
  (reach_inv g hR).ecount hdone (u - g.mblocks) arr harr

theorem claim_C4_edge_count_witness :
    gChk.edge_count (2 - gChk.mblocks)
      = unsolvedCount gChk.solved (entriesOf [1, 0]) :=
  claim_C4_edge_count gChk reach_gChk (by decide) 2 (by decide) [1, 0]
    (by decide)

/-- C10 counterexample: the claim as stated fails for check nodes.  At
the reachable post-check state `gChk` the check node `2` is treated as
solved and carries the recipe `[1, 2]`, whose single logical entry is
the node's own index `2`. -/
theorem claim_C10_counterexample : Reach gChk ∧ ¬ specC10 gChk := by
  refine ⟨reach_gChk, ?_⟩
  intro h
  exact absurd (by decide : (2 : Nat) ∈ entriesOf [1, 2]) (h 2 [1, 2] (by decide))

/-- C10 (amended): in every reachable state a node below `coblocks` has
a recipe exactly when it is solved, and that recipe never contains the
node's own index; a check node's recipe instead records the node's own
index as its first logical entry, so the self-exclusion part of the
claim does not extend to check nodes. -/
theorem claim_C10_recipes (g : OcGraph) (hR : Reach g) :
    (∀ n, n < g.coblocks → g.solved n = false → g.xor_list n = none)
    ∧ (∀ n, n < g.coblocks → g.solved n = true →
        ∃ xs, g.xor_list n = some xs ∧ n ∉ entriesOf xs)
    ∧ (∀ c xs, g.coblocks ≤ c → g.xor_list c = some xs →
        (entriesOf xs).getD 0 0 = c) := by
  have hG := reach_inv g hR
  exact ⟨hG.xnone, hG.xsolved, fun c xs hc hx => (hG.xcheck c xs hc hx).2⟩

theorem claim_C10_recipes_witness :
    ∃ xs, gRes.xor_list 0 = some xs ∧ 0 ∉ entriesOf xs :=
  (claim_C10_recipes gRes reach_gRes).2.1 0 (by decide) (by decide)

end OnlineCode
